import Mathlib

/-!
# The `imports`/`exports` map of `package.json`: parser and resolver

A shallow embedding of `internal/resolver/package_json.go`: the map parser
(`parseImportsExportsMap`), the forward resolver (`esmPackageExportsResolve`,
`esmPackageImportsResolve`, `esmPackageImportsExportsResolve`,
`esmPackageTargetResolve`, `esmHandlePostConditions`) and the reverse resolver
(`esmPackageExportsReverseResolve`), together with the specifier parser
(`esmParsePackageName`), the browser map lookup (`checkBrowserMap`) and the glob
compiler of "sideEffects" (`globstarToEscapedRegexp`, with the loop body of
`parsePackageJSON` that stores its result).

Conventions of the embedding:

* A Go `string` is a sequence of bytes; it is embedded as `Str = List Char`, one
  `Char` per byte. `len`, slicing and the `strings` helpers are the byte-level
  list operations.
* `map[string]bool` (the active conditions) is a function `Str → Bool`: a key that
  is absent from a Go map reads as `false`.
* Several return values become a tuple, in the order of the Go signature.
* The debug notes written through `r.debugLogs` never influence a result and are
  left out; the warnings that the parser sends to `log` are returned as a list.
* The loops of the Go code are recursive functions over the slice they range over.
-/

namespace Resolver

/-- A Go string: its bytes, in order. -/
abbrev Str := List Char

/-! ## Helpers from the Go standard library (`strings`, `path`, `net/url`, `sort`) -/

namespace strings

/-- Go `strings.HasPrefix(s, pre)`. -/
def HasPrefix (s pre : Str) : Bool := pre.isPrefixOf s

/-- Go `strings.HasSuffix(s, suf)`. -/
def HasSuffix (s suf : Str) : Bool := suf.isSuffixOf s

/-- Go `strings.TrimSuffix(s, suf)`. -/
def TrimSuffix (s suf : Str) : Str :=
  if HasSuffix s suf then s.take (s.length - suf.length) else s

/-- Go `strings.Contains(s, sub)`: `sub` occurs at some position of `s`. -/
def Contains : Str → Str → Bool
  | [], sub => sub.isEmpty
  | c :: s, sub => sub.isPrefixOf (c :: s) || Contains s sub

/-- Go `strings.IndexByte(s, c)`; `none` stands for `-1`. -/
def IndexByte : Str → Char → Option Nat
  | [], _ => none
  | x :: s, c => if x = c then some 0 else (IndexByte s c).map (· + 1)

/-- Go `strings.IndexAny(s, chars)`: the index of the first byte of `s` that
occurs in `chars`; `none` stands for `-1`. -/
def IndexAny : Str → Str → Option Nat
  | [], _ => none
  | x :: s, chars => if x ∈ chars then some 0 else (IndexAny s chars).map (· + 1)

/-- Go `strings.ReplaceAll(s, old, new)` for a one-byte `old`, the only form the
resolver uses (`old` is `"*"`, and `"\\"` in `checkBrowserMap`). -/
def ReplaceAll : Str → Char → Str → Str
  | [], _, _ => []
  | x :: s, old, new => (if x = old then new else [x]) ++ ReplaceAll s old new

end strings

namespace path

/-- The inner loop of the `..` case of Go `path.Clean`: starting from the write
index `w`, step back while `w > dotdot` and the byte at `w` is not `/`. -/
def backtrack (out : Str) (dotdot : Nat) : Nat → Nat
  | 0 => 0
  | w + 1 =>
    if w + 1 > dotdot ∧ out.getD (w + 1) '/' ≠ '/' then backtrack out dotdot w else w + 1

/-- The main loop of Go `path.Clean`. `rest` is `path[r:]`, `out` the bytes written
so far (`out.w = out.length`). Every round consumes at least one byte of `rest`, so
`rest.length` rounds are enough. -/
def cleanLoop (rooted : Bool) : Nat → Str → Str → Nat → Str
  | 0, _, out, _ => out
  | fuel + 1, rest, out, dotdot =>
    match rest with
    | [] => out
    | c :: rest1 =>
      if c = '/' then
        -- empty path element
        cleanLoop rooted fuel rest1 out dotdot
      else if c = '.' ∧ (rest1 = [] ∨ rest1.head? = some '/') then
        -- . element
        cleanLoop rooted fuel rest1 out dotdot
      else if c = '.' ∧ rest1.head? = some '.' ∧
          (rest1.tail = [] ∨ rest1.tail.head? = some '/') then
        -- .. element: remove to last /
        if out.length > dotdot then
          cleanLoop rooted fuel rest1.tail
            (out.take (backtrack out dotdot (out.length - 1))) dotdot
        else if !rooted then
          let out1 := if out.length > 0 then out ++ ['/'] else out
          let out2 := out1 ++ ['.', '.']
          cleanLoop rooted fuel rest1.tail out2 out2.length
        else
          cleanLoop rooted fuel rest1.tail out dotdot
      else
        -- real path element: add slash if needed, then copy the element
        let out1 :=
          if (rooted && out.length != 1) || (!rooted && out.length != 0) then out ++ ['/']
          else out
        cleanLoop rooted fuel ((c :: rest1).dropWhile (· ≠ '/'))
          (out1 ++ (c :: rest1).takeWhile (· ≠ '/')) dotdot

/-- Go `path.Clean`. -/
def Clean (p : Str) : Str :=
  if p = [] then ['.']
  else
    let rooted := p.head? = some '/'
    let out :=
      if rooted then cleanLoop rooted p.length p.tail ['/'] 1
      else cleanLoop rooted p.length p [] 0
    if out = [] then ['.'] else out

/-- Go `path.Join(a, b)`: the non-empty elements joined by `/`, then cleaned; the
empty string when both are empty. -/
def Join (a b : Str) : Str :=
  if a = [] ∧ b = [] then []
  else if a = [] then Clean b
  else if b = [] then Clean a
  else Clean (a ++ '/' :: b)

end path

namespace url

/-- Go `ishex`. -/
def ishex (c : Char) : Bool :=
  ('0' ≤ c ∧ c ≤ '9') || ('a' ≤ c ∧ c ≤ 'f') || ('A' ≤ c ∧ c ≤ 'F')

/-- Go `unhex`. -/
def unhex (c : Char) : Nat :=
  if '0' ≤ c ∧ c ≤ '9' then c.toNat - '0'.toNat
  else if 'a' ≤ c ∧ c ≤ 'f' then c.toNat - 'a'.toNat + 10
  else if 'A' ≤ c ∧ c ≤ 'F' then c.toNat - 'A'.toNat + 10
  else 0

/-- Go `url.PathUnescape(s)`: every `%XY` with two hex digits becomes the byte
`0xXY`; a `%` that is not followed by two hex digits is an error (`none`). -/
def PathUnescape : Str → Option Str
  | [] => some []
  | c :: s =>
    if c = '%' then
      match s with
      | a :: b :: t =>
        if ishex a && ishex b then
          (PathUnescape t).map (Char.ofNat (unhex a * 16 + unhex b) :: ·)
        else none
      | _ => none
    else (PathUnescape s).map (c :: ·)

end url

namespace sort

/-- One insertion step of a stable sort: `a` stood before every element of the
sorted list `l` and moves right only past the elements strictly less than it. -/
def insert {α : Type} (less : α → α → Bool) (a : α) : List α → List α
  | [] => [a]
  | b :: l => if less b a then b :: insert less a l else a :: b :: l

/-- Go `sort.Stable`: sorts by `less` and keeps the original order of the elements
that `less` does not separate. For a `less` that compares a key, as
`expansionKeysArray.Less` does, that result is unique; it is computed here by
insertion. -/
def Stable {α : Type} (less : α → α → Bool) : List α → List α
  | [] => []
  | a :: l => insert less a (Stable less l)

end sort

/-! ## Data model -/

/-- Go `logger.Range`: the start offset and the length of a token. -/
structure Range where
  Loc : Int
  Len : Int
deriving DecidableEq, Repr

/-- The part of `logger.Source` the map parser reads: the three lexer helpers that
give the range of the token at an offset (`js_lexer.RangeOfIdentifier`,
`source.RangeOfString`, `source.RangeOfNumber`). -/
structure Source where
  RangeOfIdentifier : Int → Range
  RangeOfString : Int → Range
  RangeOfNumber : Int → Range

mutual
/-- The JSON values of `js_ast.Expr` that the map parser distinguishes; `EOther`
stands for every other expression kind. Each carries its `Loc`. -/
inductive Expr where
  | ENull (loc : Int)
  | EString (loc : Int) (value : Str)
  | EArray (loc : Int) (items : List Expr)
  | EObject (loc : Int) (properties : List Property)
  | EBoolean (loc : Int) (value : Bool)
  | ENumber (loc : Int)
  | EOther (loc : Int)
/-- A property of a JSON object: the offset of its key, the key (in JSON always a
string, already decoded from UTF-16) and its value. -/
inductive Property where
  | mk (keyLoc : Int) (key : Str) (valueOrNil : Expr)
end

/-- Go `pjKind`. -/
inductive pjKind where
  | pjNull
  | pjString
  | pjArray
  | pjObject
  | pjInvalid
deriving DecidableEq, Repr

mutual
/-- Go `pjEntry`, a node of the map tree. The Go struct holds every field for
every kind and the parser fills only those of the kind; here each kind carries the
fields the parser fills, and the accessors below give the Go zero value for the
others. -/
inductive pjEntry where
  | null (firstToken : Range)
  | string (firstToken : Range) (strData : Str)
  | array (firstToken : Range) (arrData : List pjEntry)
  | object (firstToken : Range) (mapData : List pjMapEntry) (expansionKeys : List pjMapEntry)
  | invalid (firstToken : Range)
/-- Go `pjMapEntry`. -/
inductive pjMapEntry where
  | mk (key : Str) (keyRange : Range) (value : pjEntry)
end

namespace pjMapEntry

/-- Field `key`. -/
def key : pjMapEntry → Str
  | .mk k _ _ => k

/-- Field `keyRange`. -/
def keyRange : pjMapEntry → Range
  | .mk _ r _ => r

/-- Field `value`. -/
def value : pjMapEntry → pjEntry
  | .mk _ _ v => v

end pjMapEntry

namespace pjEntry

/-- Field `kind`. -/
def kind : pjEntry → pjKind
  | .null _ => .pjNull
  | .string _ _ => .pjString
  | .array _ _ => .pjArray
  | .object _ _ _ => .pjObject
  | .invalid _ => .pjInvalid

/-- Field `firstToken`. -/
def firstToken : pjEntry → Range
  | .null ft => ft
  | .string ft _ => ft
  | .array ft _ => ft
  | .object ft _ _ => ft
  | .invalid ft => ft

/-- Field `strData`. -/
def strData : pjEntry → Str
  | .string _ s => s
  | _ => []

/-- Field `arrData`. -/
def arrData : pjEntry → List pjEntry
  | .array _ a => a
  | _ => []

/-- Field `mapData`. -/
def mapData : pjEntry → List pjMapEntry
  | .object _ m _ => m
  | _ => []

/-- Field `expansionKeys`. -/
def expansionKeys : pjEntry → List pjMapEntry
  | .object _ _ e => e
  | _ => []

/-- The loop of Go `valueForKey` over `mapData`. -/
def valueForKeyLoop (key : Str) : List pjMapEntry → Option pjEntry
  | [] => none
  | item :: rest => if item.key = key then some item.value else valueForKeyLoop key rest

/-- Go `valueForKey`: the value of the first entry with this key (`none` is Go's
`ok = false`). -/
def valueForKey (entry : pjEntry) (key : Str) : Option pjEntry :=
  valueForKeyLoop key entry.mapData

/-- Go `keysStartWithDot`. -/
def keysStartWithDot (entry : pjEntry) : Bool :=
  match entry.mapData with
  | [] => false
  | item :: _ => strings.HasPrefix item.key ".".toList

end pjEntry

/-- Go `expansionKeysArray.Less`, on the two entries rather than their indices. -/
def expansionKeysArray.Less (a b : pjMapEntry) : Bool :=
  decide (a.key.length > b.key.length)

/-- A warning the map parser sends to `log`. -/
inductive Warning where
  /-- The warning that an object cannot contain keys that both start with "." and
  do not start with ".", at `keyRange`, with the note on the previous key. -/
  | mixedKeys (keyRange : Range) (key : Str) (prevKeyRange : Range) (prevKey : Str)
  /-- The warning that a value must be a string, an object, an array, or null. -/
  | badValue (firstToken : Range)

/-! ## The map parser -/

/-- The entry before index `i` of the `mapData` filled so far (`mapData[i-1]`). -/
def prevEntry (mapData : List pjMapEntry) : pjMapEntry :=
  mapData.getLastD (.mk [] ⟨0, 0⟩ (.null ⟨0, 0⟩))

mutual
/-- The closure `visit` of Go `parseImportsExportsMap`: the node for a JSON value,
with the warnings it logs. -/
def visit (source : Source) : Expr → pjEntry × List Warning
  | .ENull loc => (.null (source.RangeOfIdentifier loc), [])
  | .EString loc value => (.string (source.RangeOfString loc) value, [])
  | .EArray loc items =>
    let r := visitItems source items
    (.array ⟨loc, 1⟩ r.1, r.2)
  | .EObject loc properties =>
    let firstToken : Range := ⟨loc, 1⟩
    match visitProperties source properties 0 false [] [] with
    | (none, log) => (.invalid firstToken, log)
    | (some (mapData, expansionKeys), log) =>
      -- Let expansionKeys be the list of keys of matchObj ending in "/" or "*",
      -- sorted by length descending.
      (.object firstToken mapData (sort.Stable expansionKeysArray.Less expansionKeys), log)
  | .EBoolean loc _ =>
    let firstToken := source.RangeOfIdentifier loc
    (.invalid firstToken, [.badValue firstToken])
  | .ENumber loc =>
    let firstToken := source.RangeOfNumber loc
    (.invalid firstToken, [.badValue firstToken])
  | .EOther loc =>
    let firstToken : Range := ⟨loc, 0⟩
    (.invalid firstToken, [.badValue firstToken])
/-- The loop of the `EArray` case: `arrData[i] = visit(item)`. -/
def visitItems (source : Source) : List Expr → List pjEntry × List Warning
  | [] => ([], [])
  | item :: rest =>
    let r := visit source item
    let rs := visitItems source rest
    (r.1 :: rs.1, r.2 ++ rs.2)
/-- The loop of the `EObject` case from index `i` on, with the `isConditionalSugar`
flag and the `mapData` and `expansionKeys` filled so far. The result is `none` when
the loop returns the `pjInvalid` node, and the final `mapData` and (still unsorted)
`expansionKeys` otherwise. -/
def visitProperties (source : Source) :
    List Property → Nat → Bool → List pjMapEntry → List pjMapEntry →
      Option (List pjMapEntry × List pjMapEntry) × List Warning
  | [], _, _, mapData, expansionKeys => (some (mapData, expansionKeys), [])
  | .mk keyLoc key valueOrNil :: rest, i, isConditionalSugar, mapData, expansionKeys =>
    let keyRange := source.RangeOfString keyLoc
    -- If exports is an Object with both a key starting with "." and a key
    -- not starting with ".", throw an Invalid Package Configuration error.
    let curIsConditionalSugar := !strings.HasPrefix key ".".toList
    if i ≠ 0 ∧ isConditionalSugar ≠ curIsConditionalSugar then
      (none, [.mixedKeys keyRange key (prevEntry mapData).keyRange (prevEntry mapData).key])
    else
      let isConditionalSugar1 := if i = 0 then curIsConditionalSugar else isConditionalSugar
      let r := visit source valueOrNil
      let entry := pjMapEntry.mk key keyRange r.1
      let expansionKeys1 :=
        if strings.HasSuffix key "/".toList || strings.HasSuffix key "*".toList then
          expansionKeys ++ [entry]
        else expansionKeys
      let rs := visitProperties source rest (i + 1) isConditionalSugar1 (mapData ++ [entry])
        expansionKeys1
      (rs.1, r.2 ++ rs.2)
end

/-- Go `pjMap`. -/
structure pjMap where
  root : pjEntry

/-- Go `parseImportsExportsMap`: `none` is the `nil` result for a `null` root. -/
def parseImportsExportsMap (source : Source) (json : Expr) : Option pjMap × List Warning :=
  let r := visit source json
  if r.1.kind = .pjNull then (none, r.2) else (some ⟨r.1⟩, r.2)

/-! ## Forward resolution -/

/-- Go `pjStatus`. -/
inductive pjStatus where
  | pjStatusUndefined
  | pjStatusUndefinedNoConditionsMatch
  | pjStatusNull
  | pjStatusExact
  | pjStatusInexact
  | pjStatusPackageResolve
  | pjStatusInvalidModuleSpecifier
  | pjStatusInvalidPackageConfiguration
  | pjStatusInvalidPackageTarget
  | pjStatusPackagePathNotExported
  | pjStatusPackageImportNotDefined
  | pjStatusModuleNotFound
  | pjStatusUnsupportedDirectoryImport
deriving DecidableEq, Repr

open pjStatus

/-- Go `pjStatus.isUndefined`. -/
def pjStatus.isUndefined (status : pjStatus) : Bool :=
  status = pjStatusUndefined || status = pjStatusUndefinedNoConditionsMatch

/-- Go `pjDebug`. -/
structure pjDebug where
  token : Range
  unmatchedConditions : List Str := []
deriving DecidableEq, Repr

/-- The loop of Go `findInvalidSegment` (`for path != ""`). Every round removes at
least one byte from `path`, so `path.length` rounds are enough. -/
def findInvalidSegmentLoop : Nat → Str → Str
  | 0, _ => []
  | fuel + 1, path =>
    if path = [] then []
    else
      match strings.IndexAny path "/\\".toList with
      | none =>
        let segment := path
        if segment = ".".toList ∨ segment = "..".toList ∨ segment = "node_modules".toList then
          segment
        else findInvalidSegmentLoop fuel []
      | some slash =>
        let segment := path.take slash
        if segment = ".".toList ∨ segment = "..".toList ∨ segment = "node_modules".toList then
          segment
        else findInvalidSegmentLoop fuel (path.drop (slash + 1))

/-- Go `findInvalidSegment`: the first segment after the first one that is ".",
".." or "node_modules", or the empty string. -/
def findInvalidSegment (path : Str) : Str :=
  match strings.IndexAny path "/\\".toList with
  | none => []
  | some slash => findInvalidSegmentLoop (path.length + 1) (path.drop (slash + 1))

/-- The `pjString` case of Go `esmPackageTargetResolve`. -/
def esmPackageTargetResolveString (packageURL : Str) (firstToken : Range) (strData : Str)
    (subpath : Str) (pattern : Bool) (internal : Bool) : Str × pjStatus × pjDebug :=
  -- If pattern is false, subpath has non-zero length and target
  -- does not end with "/", throw an Invalid Module Specifier error.
  if !pattern && subpath ≠ [] && !strings.HasSuffix strData "/".toList then
    (strData, pjStatusInvalidModuleSpecifier, { token := firstToken })
  -- If target does not start with "./", then...
  else if !strings.HasPrefix strData "./".toList then
    if internal && !strings.HasPrefix strData "../".toList &&
        !strings.HasPrefix strData "/".toList then
      if pattern then
        (strings.ReplaceAll strData '*' subpath, pjStatusPackageResolve, { token := firstToken })
      else
        (strData ++ subpath, pjStatusPackageResolve, { token := firstToken })
    else
      (strData, pjStatusInvalidPackageTarget, { token := firstToken })
  -- If target split on "/" or "\" contains any ".", ".." or "node_modules"
  -- segments after the first segment, throw an Invalid Package Target error.
  else if findInvalidSegment strData ≠ [] then
    (strData, pjStatusInvalidPackageTarget, { token := firstToken })
  else
    -- Let resolvedTarget be the URL resolution of the concatenation of packageURL and target.
    let resolvedTarget := path.Join packageURL strData
    -- If subpath split on "/" or "\" contains any ".", ".." or "node_modules"
    -- segments, throw an Invalid Module Specifier error.
    if findInvalidSegment subpath ≠ [] then
      (subpath, pjStatusInvalidModuleSpecifier, { token := firstToken })
    else if pattern then
      (strings.ReplaceAll resolvedTarget '*' subpath, pjStatusExact, { token := firstToken })
    else
      (path.Join resolvedTarget subpath, pjStatusExact, { token := firstToken })

/-- The keys of a `mapData`, in source order (the `keys` slice of the
no-conditions-match case). -/
def keysOf (mapData : List pjMapEntry) : List Str :=
  mapData.map pjMapEntry.key

mutual
/-- Go `esmPackageTargetResolve`. -/
def esmPackageTargetResolve (packageURL : Str) :
    pjEntry → Str → Bool → Bool → (Str → Bool) → Str × pjStatus × pjDebug
  | .string firstToken strData, subpath, pattern, internal, _ =>
    esmPackageTargetResolveString packageURL firstToken strData subpath pattern internal
  | .object firstToken mapData expansionKeys, subpath, pattern, internal, conditions =>
    match esmPackageTargetResolveObject packageURL mapData subpath pattern internal conditions
        false (.mk [] ⟨0, 0⟩ (.null ⟨0, 0⟩)) with
    | .inl result => result
    | .inr (didFindMapEntry, lastMapEntry) =>
      let target := pjEntry.object firstToken mapData expansionKeys
      -- ALGORITHM DEVIATION: Provide a friendly error message if no conditions matched
      if mapData.length > 0 && !target.keysStartWithDot then
        let target1 :=
          if didFindMapEntry && lastMapEntry.value.kind = pjKind.pjObject &&
              lastMapEntry.value.mapData.length > 0 && !lastMapEntry.value.keysStartWithDot then
            lastMapEntry.value
          else target
        ([], pjStatusUndefinedNoConditionsMatch,
          { token := target1.firstToken, unmatchedConditions := keysOf target1.mapData })
      else
        ([], pjStatusUndefined, { token := firstToken })
  | .array firstToken arrData, subpath, pattern, internal, conditions =>
    if arrData.length = 0 then ([], pjStatusNull, { token := firstToken })
    else
      esmPackageTargetResolveArray packageURL arrData subpath pattern internal conditions
        pjStatusUndefined { token := firstToken }
  | .null firstToken, _, _, _, _ => ([], pjStatusNull, { token := firstToken })
  | .invalid firstToken, _, _, _, _ => ([], pjStatusInvalidPackageTarget, { token := firstToken })
/-- The loop of the `pjObject` case over `target.mapData`, with the variables
`didFindMapEntry` and `lastMapEntry`: `inl` is a `return` from inside the loop,
`inr` the state when the loop ends. -/
def esmPackageTargetResolveObject (packageURL : Str) :
    List pjMapEntry → Str → Bool → Bool → (Str → Bool) → Bool → pjMapEntry →
      (Str × pjStatus × pjDebug) ⊕ (Bool × pjMapEntry)
  | [], _, _, _, _, didFindMapEntry, lastMapEntry => .inr (didFindMapEntry, lastMapEntry)
  | .mk key keyRange value :: rest, subpath, pattern, internal, conditions, didFindMapEntry,
      lastMapEntry =>
    if key = "default".toList || conditions key then
      let result := esmPackageTargetResolve packageURL value subpath pattern internal conditions
      if result.2.1.isUndefined then
        esmPackageTargetResolveObject packageURL rest subpath pattern internal conditions
          true (.mk key keyRange value)
      else .inl result
    else
      esmPackageTargetResolveObject packageURL rest subpath pattern internal conditions
        didFindMapEntry lastMapEntry
/-- The loop of the `pjArray` case over `target.arrData`, with the variables
`lastException` and `lastDebug`. -/
def esmPackageTargetResolveArray (packageURL : Str) :
    List pjEntry → Str → Bool → Bool → (Str → Bool) → pjStatus → pjDebug →
      Str × pjStatus × pjDebug
  | [], _, _, _, _, lastException, lastDebug => ([], lastException, lastDebug)
  | targetValue :: rest, subpath, pattern, internal, conditions, lastException, lastDebug =>
    -- Let resolved be the result, continuing the loop on any Invalid Package Target error.
    let result :=
      esmPackageTargetResolve packageURL targetValue subpath pattern internal conditions
    if result.2.1 = pjStatusInvalidPackageTarget ∨ result.2.1 = pjStatusNull then
      esmPackageTargetResolveArray packageURL rest subpath pattern internal conditions
        result.2.1 result.2.2
    else if result.2.1.isUndefined then
      esmPackageTargetResolveArray packageURL rest subpath pattern internal conditions
        lastException lastDebug
    else result
end

/-- Go `esmHandlePostConditions`. -/
def esmHandlePostConditions (resolved : Str) (status : pjStatus) (debug : pjDebug) :
    Str × pjStatus × pjDebug :=
  if status ≠ pjStatusExact ∧ status ≠ pjStatusInexact then (resolved, status, debug)
  else
    -- If resolved contains any percent encodings of "/" or "\" ("%2f" and "%5C"
    -- respectively), then throw an Invalid Module Specifier error.
    match url.PathUnescape resolved with
    | none => (resolved, pjStatusInvalidModuleSpecifier, debug)
    | some resolvedPath =>
      let found : Str :=
        if strings.Contains resolved "%2f".toList then "%2f".toList
        else if strings.Contains resolved "%2F".toList then "%2F".toList
        else if strings.Contains resolved "%5c".toList then "%5c".toList
        else if strings.Contains resolved "%5C".toList then "%5C".toList
        else []
      if found ≠ [] then (resolved, pjStatusInvalidModuleSpecifier, debug)
      -- If the file at resolved is a directory, then throw an Unsupported Directory
      -- Import error.
      else if strings.HasSuffix resolvedPath "/".toList ||
          strings.HasSuffix resolvedPath "\\".toList then
        (resolved, pjStatusUnsupportedDirectoryImport, debug)
      -- Set resolved to the real path of resolved.
      else (resolvedPath, status, debug)

/-- The loop of Go `esmPackageImportsExportsResolve` over `matchObj.expansionKeys`;
`firstToken` is `matchObj.firstToken`. -/
def esmPackageImportsExportsResolveLoop (matchKey : Str) (firstToken : Range)
    (packageURL : Str) (isImports : Bool) (conditions : Str → Bool) :
    List pjMapEntry → Str × pjStatus × pjDebug
  | [] => ([], pjStatusNull, { token := firstToken })
  | expansion :: rest =>
    -- If expansionKey ends in "*" and matchKey starts with but is not equal to
    -- the substring of expansionKey excluding the last "*" character
    if strings.HasSuffix expansion.key "*".toList ∧
        strings.HasPrefix matchKey (expansion.key.take (expansion.key.length - 1)) ∧
        matchKey ≠ expansion.key.take (expansion.key.length - 1) then
      let target := expansion.value
      let subpath := matchKey.drop (expansion.key.length - 1)
      esmPackageTargetResolve packageURL target subpath true isImports conditions
    else if strings.HasPrefix matchKey expansion.key then
      let target := expansion.value
      let subpath := matchKey.drop expansion.key.length
      let result := esmPackageTargetResolve packageURL target subpath false isImports conditions
      if result.2.1 = pjStatusExact then
        -- Return the object { resolved, exact: false }.
        (result.1, pjStatusInexact, result.2.2)
      else result
    else
      esmPackageImportsExportsResolveLoop matchKey firstToken packageURL isImports conditions rest

/-- Go `esmPackageImportsExportsResolve`. -/
def esmPackageImportsExportsResolve (matchKey : Str) (matchObj : pjEntry) (packageURL : Str)
    (isImports : Bool) (conditions : Str → Bool) : Str × pjStatus × pjDebug :=
  match (if !strings.HasSuffix matchKey "*".toList then matchObj.valueForKey matchKey
      else none) with
  | some target => esmPackageTargetResolve packageURL target [] false isImports conditions
  | none =>
    esmPackageImportsExportsResolveLoop matchKey matchObj.firstToken packageURL isImports
      conditions matchObj.expansionKeys

/-- Go `esmPackageImportsResolve`. -/
def esmPackageImportsResolve (specifier : Str) (imports : pjEntry) (conditions : Str → Bool) :
    Str × pjStatus × pjDebug :=
  -- ALGORITHM DEVIATION: Provide a friendly error message if "imports" is not an object
  if imports.kind ≠ pjKind.pjObject then
    ([], pjStatusInvalidPackageConfiguration, { token := imports.firstToken })
  else
    let result := esmPackageImportsExportsResolve specifier imports "/".toList true conditions
    if result.2.1 ≠ pjStatusNull ∧ result.2.1 ≠ pjStatusUndefined then result
    else (specifier, pjStatusPackageImportNotDefined, { token := imports.firstToken })

/-- Go `esmPackageExportsResolve`. -/
def esmPackageExportsResolve (packageURL : Str) (subpath : Str) (exports : pjEntry)
    (conditions : Str → Bool) : Str × pjStatus × pjDebug :=
  let notExported : Str × pjStatus × pjDebug :=
    ([], pjStatusPackagePathNotExported, { token := exports.firstToken })
  if exports.kind = pjKind.pjInvalid then
    ([], pjStatusInvalidPackageConfiguration, { token := exports.firstToken })
  else if subpath = ".".toList then
    let mainExport : pjEntry :=
      if exports.kind = pjKind.pjString ∨ exports.kind = pjKind.pjArray ∨
          (exports.kind = pjKind.pjObject ∧ !exports.keysStartWithDot) then exports
      else if exports.kind = pjKind.pjObject then
        match exports.valueForKey ".".toList with
        | some dot => dot
        | none => .null ⟨0, 0⟩
      else .null ⟨0, 0⟩
    if mainExport.kind ≠ pjKind.pjNull then
      let result := esmPackageTargetResolve packageURL mainExport [] false false conditions
      if result.2.1 ≠ pjStatusNull ∧ result.2.1 ≠ pjStatusUndefined then result
      else notExported
    else notExported
  else if exports.kind = pjKind.pjObject ∧ exports.keysStartWithDot then
    let result := esmPackageImportsExportsResolve subpath exports packageURL false conditions
    if result.2.1 ≠ pjStatusNull ∧ result.2.1 ≠ pjStatusUndefined then result
    else notExported
  else notExported

/-! ## Reverse resolution -/

/-- Go `esmReverseKind`. -/
inductive esmReverseKind where
  | esmReverseExact
  | esmReversePattern
  | esmReversePrefix
deriving DecidableEq, Repr

open esmReverseKind

/-- The `pjString` case of Go `esmPackageTargetReverseResolve`. -/
def esmPackageTargetReverseResolveString (query : Str) (key : Str) (firstToken : Range)
    (strData : Str) : esmReverseKind → Bool × Str × Range
  | esmReverseExact =>
    if query = strData then (true, key, firstToken) else (false, [], ⟨0, 0⟩)
  | esmReversePrefix =>
    if strings.HasPrefix query strData then
      (true, key ++ query.drop strData.length, firstToken)
    else (false, [], ⟨0, 0⟩)
  | esmReversePattern =>
    let keyWithoutTrailingStar := strings.TrimSuffix key "*".toList
    match strings.IndexByte strData '*' with
    | none =>
      -- Handle the case of no "*"
      if query = strData then (true, keyWithoutTrailingStar, firstToken)
      else (false, [], ⟨0, 0⟩)
    | some star =>
      -- Only support tracing through a single "*"
      let pre := strData.take star
      let suffix := strData.drop (star + 1)
      if !suffix.contains '*' ∧ strings.HasPrefix query pre ∧
          strings.HasSuffix (query.drop pre.length) suffix then
        let afterPrefix := query.drop pre.length
        let starData := afterPrefix.take (afterPrefix.length - suffix.length)
        (true, keyWithoutTrailingStar ++ starData, firstToken)
      else (false, [], ⟨0, 0⟩)

mutual
/-- Go `esmPackageTargetReverseResolve`. -/
def esmPackageTargetReverseResolve (query : Str) (key : Str) :
    pjEntry → esmReverseKind → (Str → Bool) → Bool × Str × Range
  | .string firstToken strData, kind, _ =>
    esmPackageTargetReverseResolveString query key firstToken strData kind
  | .object _ mapData _, kind, conditions =>
    esmPackageTargetReverseResolveObject query key mapData kind conditions
  | .array _ arrData, kind, conditions =>
    esmPackageTargetReverseResolveArray query key arrData kind conditions
  | .null _, _, _ => (false, [], ⟨0, 0⟩)
  | .invalid _, _, _ => (false, [], ⟨0, 0⟩)
/-- The loop of the `pjObject` case over `target.mapData`. -/
def esmPackageTargetReverseResolveObject (query : Str) (key : Str) :
    List pjMapEntry → esmReverseKind → (Str → Bool) → Bool × Str × Range
  | [], _, _ => (false, [], ⟨0, 0⟩)
  | .mk k _ value :: rest, kind, conditions =>
    if k = "default".toList || conditions k then
      let result := esmPackageTargetReverseResolve query key value kind conditions
      if result.1 then result
      else esmPackageTargetReverseResolveObject query key rest kind conditions
    else esmPackageTargetReverseResolveObject query key rest kind conditions
/-- The loop of the `pjArray` case over `target.arrData`. -/
def esmPackageTargetReverseResolveArray (query : Str) (key : Str) :
    List pjEntry → esmReverseKind → (Str → Bool) → Bool × Str × Range
  | [], _, _ => (false, [], ⟨0, 0⟩)
  | targetValue :: rest, kind, conditions =>
    let result := esmPackageTargetReverseResolve query key targetValue kind conditions
    if result.1 then result
    else esmPackageTargetReverseResolveArray query key rest kind conditions
end

/-- The first loop of Go `esmPackageImportsExportsReverseResolve`, over
`matchObj.mapData` in exact mode. -/
def esmPackageImportsExportsReverseResolveExact (query : Str) (conditions : Str → Bool) :
    List pjMapEntry → Bool × Str × Range
  | [] => (false, [], ⟨0, 0⟩)
  | entry :: rest =>
    let result :=
      esmPackageTargetReverseResolve query entry.key entry.value esmReverseExact conditions
    if result.1 then result
    else esmPackageImportsExportsReverseResolveExact query conditions rest

/-- The second loop of Go `esmPackageImportsExportsReverseResolve`, over
`matchObj.expansionKeys`: pattern mode for a key ending in "*", then prefix mode. -/
def esmPackageImportsExportsReverseResolveExpansion (query : Str) (conditions : Str → Bool) :
    List pjMapEntry → Bool × Str × Range
  | [] => (false, [], ⟨0, 0⟩)
  | expansion :: rest =>
    let result :=
      if strings.HasSuffix expansion.key "*".toList then
        esmPackageTargetReverseResolve query expansion.key expansion.value esmReversePattern
          conditions
      else (false, [], ⟨0, 0⟩)
    if result.1 then result
    else
      let result1 :=
        esmPackageTargetReverseResolve query expansion.key expansion.value esmReversePrefix
          conditions
      if result1.1 then result1
      else esmPackageImportsExportsReverseResolveExpansion query conditions rest

/-- Go `esmPackageImportsExportsReverseResolve`. -/
def esmPackageImportsExportsReverseResolve (query : Str) (matchObj : pjEntry)
    (conditions : Str → Bool) : Bool × Str × Range :=
  let result :=
    if !strings.HasSuffix query "*".toList then
      esmPackageImportsExportsReverseResolveExact query conditions matchObj.mapData
    else (false, [], ⟨0, 0⟩)
  if result.1 then result
  else esmPackageImportsExportsReverseResolveExpansion query conditions matchObj.expansionKeys

/-- Go `esmPackageExportsReverseResolve`. -/
def esmPackageExportsReverseResolve (query : Str) (root : pjEntry) (conditions : Str → Bool) :
    Bool × Str × Range :=
  if root.kind = pjKind.pjObject ∧ root.keysStartWithDot then
    let result := esmPackageImportsExportsReverseResolve query root conditions
    if result.1 then result else (false, [], ⟨0, 0⟩)
  else (false, [], ⟨0, 0⟩)

/-! ## Vocabulary of the specification -/

namespace Property

/-- Field `Key.Loc`. -/
def keyLoc : Property → Int
  | .mk l _ _ => l

/-- The decoded string of field `Key`. -/
def key : Property → Str
  | .mk _ k _ => k

/-- Field `ValueOrNil`. -/
def valueOrNil : Property → Expr
  | .mk _ _ v => v

end Property

/-- The `entry` that the `EObject` loop of the parser builds for a property. -/
def entryOf (source : Source) (p : Property) : pjMapEntry :=
  .mk p.key (source.RangeOfString p.keyLoc) (visit source p.valueOrNil).1

/-- A key that begins with ".": a subpath key, as opposed to a condition. -/
def startsWithDot (key : Str) : Bool := strings.HasPrefix key ".".toList

/-- An expansion key: a key that ends in "/" or in "*". -/
def isExpansionKey (key : Str) : Bool :=
  strings.HasSuffix key "/".toList || strings.HasSuffix key "*".toList

/-- An expansion key matches `matchKey`: it ends in "/" and is a prefix of
`matchKey`, or it ends in "*" and its text before the "*" is a proper prefix of
`matchKey`. -/
def expansionMatches (key matchKey : Str) : Bool :=
  (strings.HasSuffix key "/".toList && strings.HasPrefix matchKey key) ||
  (strings.HasSuffix key "*".toList && strings.HasPrefix matchKey (key.dropLast) &&
    decide (matchKey ≠ key.dropLast))

/-- Resolution of `matchKey` against one expansion entry: a pattern match for a key
ending in "*" (the subpath is what the "*" stands for), and otherwise a prefix match
(the subpath is what follows the key), whose status `exact` becomes `inexact`. -/
def resolveAgainst (matchKey : Str) (x : pjMapEntry) (packageURL : Str) (isImports : Bool)
    (conditions : Str → Bool) : Str × pjStatus × pjDebug :=
  if strings.HasSuffix x.key "*".toList then
    esmPackageTargetResolve packageURL x.value (matchKey.drop (x.key.length - 1)) true isImports
      conditions
  else
    let result := esmPackageTargetResolve packageURL x.value (matchKey.drop x.key.length) false
      isImports conditions
    if result.2.1 = pjStatusExact then (result.1, pjStatusInexact, result.2.2) else result

mutual
/-- All nodes of a map tree: the node itself and the nodes below it, through
`arrData`, `mapData` and `expansionKeys`. -/
def pjEntry.nodes : pjEntry → List pjEntry
  | .null ft => [.null ft]
  | .string ft s => [.string ft s]
  | .array ft arr => .array ft arr :: nodesOfArray arr
  | .object ft md ek => .object ft md ek :: (nodesOfMap md ++ nodesOfMap ek)
  | .invalid ft => [.invalid ft]
/-- The nodes of the elements of an array. -/
def nodesOfArray : List pjEntry → List pjEntry
  | [] => []
  | x :: xs => x.nodes ++ nodesOfArray xs
/-- The nodes of the values of a list of map entries. -/
def nodesOfMap : List pjMapEntry → List pjEntry
  | [] => []
  | .mk _ _ v :: xs => v.nodes ++ nodesOfMap xs
end

/-- The segments of a path: the pieces between the separators "/" and "\\". -/
def splitSegments : Str → List Str
  | [] => [[]]
  | c :: s =>
    if c = '/' ∨ c = '\\' then [] :: splitSegments s
    else
      match splitSegments s with
      | [] => [[c]]
      | seg :: segs => (c :: seg) :: segs

/-- A segment that a target or subpath must not contain. -/
def isInvalidSegment (seg : Str) : Bool :=
  decide (seg = ".".toList ∨ seg = "..".toList ∨ seg = "node_modules".toList)

/-! ## Example manifests -/

/-- A source for the examples: the lexer helpers give an identifier the length 4
and a string or a number the length 1. -/
def exampleSource : Source :=
  ⟨fun loc => ⟨loc, 4⟩, fun loc => ⟨loc, 1⟩, fun loc => ⟨loc, 1⟩⟩

/-- The Go map literal with the listed conditions set to `true`. -/
def conditionsOf (active : List Str) : Str → Bool :=
  fun key => active.contains key

/-- The JSON object of string targets with the given keys and targets, in that order;
the key of entry `i` stands at offset `2 * i + 1`, its value at `2 * i + 2`. -/
def objectOfStrings (pairs : List (String × String)) : Expr :=
  .EObject 0 ((List.range pairs.length).zip pairs |>.map fun (i, kv) =>
    Property.mk (2 * i + 1) kv.1.toList (.EString (2 * i + 2) kv.2.toList))

/-- The manifest `{"./x": "./x.js", "./b/": "./lib/b/", "./a*": "./lib/a*",
"./long/*": "./lib/long/*"}`. -/
def exampleExpansion : Expr :=
  objectOfStrings [("./x", "./x.js"), ("./b/", "./lib/b/"), ("./a*", "./lib/a*"),
    ("./long/*", "./lib/long/*")]

/-- The manifest `{"./a": "./a.js", "import": "./b.js"}`, which mixes a subpath key
and a condition. -/
def exampleMixed : List Property :=
  [.mk 1 "./a".toList (.EString 2 "./a.js".toList),
   .mk 3 "import".toList (.EString 4 "./b.js".toList)]

/-- The manifest `{"./a/": "./x/", "./a/b/": "./y/"}`. -/
def examplePrefixes : Expr :=
  objectOfStrings [("./a/", "./x/"), ("./a/b/", "./y/")]

/-- The manifest `{"./a/b/": "./y/", "./a/": "./x/"}`. -/
def examplePrefixesReversed : Expr :=
  objectOfStrings [("./a/b/", "./y/"), ("./a/", "./x/")]

/-- The manifest `{"./feature": "./src/feature.js", "./lib/": "./src/lib/"}`. -/
def exampleFeature : Expr :=
  objectOfStrings [("./feature", "./src/feature.js"), ("./lib/", "./src/lib/")]

/-- The manifest `{"./a": "./b//c"}`, whose target is not written in resolved form. -/
def exampleUnclean : Expr :=
  objectOfStrings [("./a", "./b//c")]

/-- The manifest `{"./x": {"import": "./other.js", "default": "./t.js"},
"./y": "./t.js"}`. -/
def exampleConditional : Expr :=
  .EObject 0 [
    .mk 1 "./x".toList (.EObject 2 [
      .mk 3 "import".toList (.EString 4 "./other.js".toList),
      .mk 5 "default".toList (.EString 6 "./t.js".toList)]),
    .mk 7 "./y".toList (.EString 8 "./t.js".toList)]

/-- The manifest `{"./x": "./a.js", "./x": "./t.js", "./y": "./t.js"}`, with a
repeated key. -/
def exampleRepeatedKey : Expr :=
  objectOfStrings [("./x", "./a.js"), ("./x", "./t.js"), ("./y", "./t.js")]

/-- The manifest `{"./f*": "./src/", "./g*": "./src/g*"}`. -/
def examplePatterns : Expr :=
  objectOfStrings [("./f*", "./src/"), ("./g*", "./src/g*")]

/-- The manifest `{"./a": "./b*"}`. -/
def exampleStarTarget : Expr :=
  objectOfStrings [("./a", "./b*")]

/-! ## Vocabulary of the specification: conditions and arrays -/

/-- The test of the condition loop: the key is "default" or an active condition. -/
def keyApplies (conditions : Str → Bool) (key : Str) : Bool :=
  key = "default".toList || conditions key

/-- A non-empty condition-form object: an object that has keys, the first of which
does not begin with ".". -/
def isConditionForm (e : pjEntry) : Bool :=
  e.kind = pjKind.pjObject && e.mapData.length > 0 && !e.keysStartWithDot

/-- The last entry, in source order, whose key applies. -/
def lastApplied (conditions : Str → Bool) : List pjMapEntry → Option pjMapEntry
  | [] => none
  | x :: rest =>
    match lastApplied conditions rest with
    | some e => some e
    | none => if keyApplies conditions x.key then some x else none

/-- The object whose keys the no-conditions-match diagnostic of the condition object
`target` names: the value of the last entry that applied when that value is itself a
non-empty condition-form object, and `target` otherwise. -/
def diagnosticTarget (conditions : Str → Bool) (target : pjEntry) : pjEntry :=
  match lastApplied conditions target.mapData with
  | some e => if isConditionForm e.value then e.value else target
  | none => target

/-- A chain of nested condition objects without a match, outermost first: every
object is a non-empty condition-form object, the last entry that applies in an
object has the next object of the chain as its value, every entry that applies in it
resolves to an undefined status, and no key of the innermost object applies. -/
def NoMatchChain (packageURL subpath : Str) (pattern internal : Bool)
    (conditions : Str → Bool) : List pjEntry → Prop
  | [] => False
  | [o] => isConditionForm o = true ∧ ∀ x ∈ o.mapData, keyApplies conditions x.key = false
  | o :: next :: rest =>
    isConditionForm o = true ∧
    (∀ x ∈ o.mapData, keyApplies conditions x.key = true →
      (esmPackageTargetResolve packageURL x.value subpath pattern internal
        conditions).2.1.isUndefined = true) ∧
    (lastApplied conditions o.mapData).map pjMapEntry.value = some next ∧
    NoMatchChain packageURL subpath pattern internal conditions (next :: rest)

/-- A status on which the array loop goes on to the next element and which it keeps
as `lastException`: `invalidPackageTarget` or `null`. -/
def isFallbackStatus (status : pjStatus) : Bool :=
  status = pjStatusInvalidPackageTarget || status = pjStatusNull

/-- An element result that the array loop returns at once: its status is none of
`invalidPackageTarget`, `null`, `undefined` and `undefinedNoConditionsMatch`. -/
def isReturnable (result : Str × pjStatus × pjDebug) : Bool :=
  !isFallbackStatus result.2.1 && !result.2.1.isUndefined

/-- The status and debug value of the last result, in order, with a fallback
status. -/
def lastFallback : List (Str × pjStatus × pjDebug) → Option (pjStatus × pjDebug)
  | [] => none
  | r :: rest =>
    match lastFallback rest with
    | some e => some e
    | none => if isFallbackStatus r.2.1 then some r.2 else none

/-- The one-entry object `{".": E}` as the parser builds it: "." is not an expansion
key. -/
def wrapUnderDot (firstToken keyRange : Range) (E : pjEntry) : pjEntry :=
  .object firstToken [.mk ".".toList keyRange E] []

/-- The manifest `{".": {"node": {"require": "./n.js"}}}`. -/
def exampleNodeRequire : Expr :=
  .EObject 0 [.mk 1 ".".toList (.EObject 2 [.mk 3 "node".toList
    (.EObject 4 [.mk 5 "require".toList (.EString 6 "./n.js".toList)])])]

/-- The innermost object of the example chain: `{"require": "./n.js"}`. -/
def exampleChainInner : pjEntry :=
  (visit exampleSource (.EObject 4 [.mk 5 "require".toList (.EString 6 "./n.js".toList)])).1

/-- The middle object of the example chain: `{"import": {"require": "./n.js"}}`. -/
def exampleChainMiddle : pjEntry :=
  (visit exampleSource (.EObject 2 [.mk 3 "import".toList
    (.EObject 4 [.mk 5 "require".toList (.EString 6 "./n.js".toList)])])).1

/-- The outermost object of the example chain:
`{"node": {"import": {"require": "./n.js"}}}`. -/
def exampleChainOuter : pjEntry :=
  (visit exampleSource (.EObject 0 [.mk 1 "node".toList (.EObject 2 [.mk 3 "import".toList
    (.EObject 4 [.mk 5 "require".toList (.EString 6 "./n.js".toList)])])])).1

/-- The manifest `{".": {"import": "./esm/i.js", "require": "./cjs/i.js"}}`. -/
def exampleImportRequire : Expr :=
  .EObject 0 [.mk 1 ".".toList (.EObject 2 [
    .mk 3 "import".toList (.EString 4 "./esm/i.js".toList),
    .mk 5 "require".toList (.EString 6 "./cjs/i.js".toList)])]

/-- The manifest `{"./a": null, "./*": "./src/*"}`. -/
def exampleNullHides : Expr :=
  .EObject 0 [.mk 1 "./a".toList (.ENull 2), .mk 3 "./*".toList (.EString 4 "./src/*".toList)]

/-! ## The package name of a specifier -/

namespace strings

/-- Go `strings.ContainsAny(s, chars)`: some byte of `s` occurs in `chars`. -/
def ContainsAny (s chars : Str) : Bool := s.any (fun c => chars.contains c)

/-- Go `strings.ContainsRune(s, r)` for a rune of one byte. -/
def ContainsRune (s : Str) (r : Char) : Bool := s.contains r

end strings

/-- The end of Go `esmParsePackageName`, once `packageName` is assigned: the check
of the name, then `packageSubpath` and `ok`. A bare `return` hands back the named
results as they stand, so a rejected name is returned with an empty subpath. -/
def esmParsePackageNameCheck (packageSpecifier packageName : Str) : Str × Str × Bool :=
  if strings.HasPrefix packageName ".".toList ||
      strings.ContainsAny packageName "\\%".toList then
    (packageName, [], false)
  else
    (packageName, ".".toList ++ packageSpecifier.drop packageName.length, true)

/-- Go `esmParsePackageName`; the results are `(packageName, packageSubpath, ok)`. -/
def esmParsePackageName (packageSpecifier : Str) : Str × Str × Bool :=
  if packageSpecifier = [] then ([], [], false)
  else
    let slash := strings.IndexByte packageSpecifier '/'
    if !strings.HasPrefix packageSpecifier "@".toList then
      let slash := match slash with
        | none => packageSpecifier.length
        | some slash => slash
      esmParsePackageNameCheck packageSpecifier (packageSpecifier.take slash)
    else
      match slash with
      | none => ([], [], false)
      | some slash =>
        let slash2 := match strings.IndexByte (packageSpecifier.drop (slash + 1)) '/' with
          | none => (packageSpecifier.drop (slash + 1)).length
          | some slash2 => slash2
        esmParsePackageNameCheck packageSpecifier (packageSpecifier.take (slash + 1 + slash2))

/-- The text of `s` before its `(n + 1)`-th "/", and all of `s` when it has at most
`n` of them. -/
def prefixUpToSlash : Nat → Str → Str
  | _, [] => []
  | n, c :: s =>
    if c = '/' then
      if n = 0 then [] else c :: prefixUpToSlash (n - 1) s
    else c :: prefixUpToSlash n s

/-- The package name of a specifier, as the reference definition words it: the
text up to the first "/", up to the second "/" when the specifier starts with "@",
and all of it when there is no such "/". -/
def referencePackageName (s : Str) : Str :=
  prefixUpToSlash (if strings.HasPrefix s "@".toList then 1 else 0) s

/-! ## The browser map -/

/-- Go `browserPathKind`. -/
inductive browserPathKind
  | absolutePathKind
  | packagePathKind
  deriving DecidableEq, Repr

open browserPathKind

/-- What `checkBrowserMap` reads of the directory that `enclosingBrowserScope` points
to: its `absPath` and the `browserMap` of its `packageJSON`. The Go map
`map[string]*string` is a function to `Option (Option Str)`: `none` for a key that
is absent, `some none` for a key whose value is `nil` (a disabled module). -/
structure browserScope where
  absPath : Str
  browserMap : Str → Option (Option Str)

/-- What `checkBrowserMap` reads of `resolveDirInfo` (the type is declared outside
this file): `enclosingBrowserScope`, `nil` being `none`, and the `isNodeModules`
flags of the directories that the walk `info = info.parent` visits, which are
`resolveDirInfo` and its ancestors below `enclosingBrowserScope`. -/
structure dirInfo where
  enclosingBrowserScope : Option browserScope
  isNodeModulesBelowScope : List Bool

/-- What `checkBrowserMap` reads of the resolver: whether `r.options.Platform` is
`config.PlatformBrowser`, `r.options.ExtensionOrder`, and two functions that are
defined outside this file and are parameters here, `r.fs.Rel` (`none` when its
second result is `false`) and `IsPackagePath`. -/
structure resolverQuery where
  platformIsBrowser : Bool
  ExtensionOrder : List Str
  Rel : Str → Str → Option Str
  IsPackagePath : Str → Bool

/-- One loop `for _, ext := range r.options.ExtensionOrder` of `checkPath`: the
value of `browserMap[base + ext]` at the first extension for which it is a key. -/
def checkExtensions (browserMap : Str → Option (Option Str)) (base : Str) :
    List Str → Option (Option Str)
  | [] => none
  | ext :: exts =>
    match browserMap (base ++ ext) with
    | some remapped => some remapped
    | none => checkExtensions browserMap base exts

/-- The closure `checkPath` of Go `checkBrowserMap`. It assigns the named results
`remapped, ok` of `checkBrowserMap`; the pair returned here is their value after the
call, `ok` being also the result of the closure. -/
def checkPath (r : resolverQuery) (browserMap : Str → Option (Option Str))
    (pathToCheck : Str) : Option Str × Bool :=
  -- Check for equality
  match browserMap pathToCheck with
  | some remapped => (remapped, true)
  | none =>
    -- If that failed, try adding implicit extensions
    match checkExtensions browserMap pathToCheck r.ExtensionOrder with
    | some remapped => (remapped, true)
    | none =>
      -- If that failed, try assuming this is a directory and looking for an "index" file
      let indexPath := path.Join pathToCheck "index".toList
      let indexPath :=
        if r.IsPackagePath indexPath && !r.IsPackagePath pathToCheck then
          "./".toList ++ indexPath
        else indexPath
      -- Check for equality
      match browserMap indexPath with
      | some remapped => (remapped, true)
      | none =>
        -- If that failed, try adding implicit extensions
        match checkExtensions browserMap indexPath r.ExtensionOrder with
        | some remapped => (remapped, true)
        | none => (none, false)

/-- The input path of `checkBrowserMap` as it is looked up: for `absolutePathKind`
the path relative to the "browser" map location with every "\\" turned into "/"
(`none` when `r.fs.Rel` fails), and otherwise the path as given. -/
def relativeInputPath (r : resolverQuery) (scope : browserScope) (inputPath : Str)
    (kind : browserPathKind) : Option Str :=
  if kind = absolutePathKind then
    match r.Rel scope.absPath inputPath with
    | none => none
    | some relPath => some (strings.ReplaceAll relPath '\\' "/".toList)
  else some inputPath

/-- Go `checkBrowserMap`; the results are `(remapped, ok)`, a `nil` pointer being
`none`. -/
def checkBrowserMap (r : resolverQuery) (resolveDirInfo : dirInfo) (inputPath : Str)
    (kind : browserPathKind) : Option Str × Bool :=
  -- This only applies if the current platform is "browser"
  if !r.platformIsBrowser then (none, false)
  else
    -- There must be an enclosing directory with a "package.json" file with a "browser" map
    match resolveDirInfo.enclosingBrowserScope with
    | none => (none, false)
    | some scope =>
      -- Turn absolute paths into paths relative to the "browser" map location
      match relativeInputPath r scope inputPath kind with
      | none => (none, false)
      | some inputPath =>
        if inputPath = ".".toList then
          -- No bundler supports remapping ".", so we don't either
          (none, false)
        else
          -- First try the import path as a package path
          let first := checkPath r scope.browserMap inputPath
          if !first.2 && r.IsPackagePath inputPath then
            -- If a package path didn't work, try the import path as a relative path
            match kind with
            | absolutePathKind => checkPath r scope.browserMap ("./".toList ++ inputPath)
            | packagePathKind =>
              let isInSamePackage := resolveDirInfo.isNodeModulesBelowScope.all (fun b => !b)
              if isInSamePackage then checkPath r scope.browserMap ("./".toList ++ inputPath)
              else first
          else first

/-- The browser map with the single key `key`, mapped to `v`. -/
def singleBrowserMap (key : Str) (v : Option Str) : Str → Option (Option Str) :=
  fun k => if k = key then some v else none

/-! ## The glob compiler of "sideEffects" -/

/-- The bytes of the first `case` of the `switch` in Go `globstarToEscapedRegexp`:
the ones that are written with a backslash before them. -/
def isEscapedByte (c : Char) : Bool := "\\^$.+|()[]{}".toList.contains c

/-- The loop `for i := 0; i < n; i++` of Go `globstarToEscapedRegexp`. `prevChar` is
`glob[i-1]` (`none` standing for `-1`, when `i = 0`), `rest` is `glob[i:]`, `sb` is
the text written so far. The inner loop over the following "*" is `takeWhile` and
`dropWhile`. Every round moves `i` forward, so `rest.length` rounds are enough. -/
def globstarLoop : Nat → Option Char → Str → Str → Bool → Str × Bool
  | 0, _, _, sb, hadWildcard => (sb, hadWildcard)
  | fuel + 1, prevChar, rest, sb, hadWildcard =>
    match rest with
    | [] => (sb, hadWildcard)
    | c :: rest1 =>
      if isEscapedByte c then
        -- escape
        globstarLoop fuel (some c) rest1 (sb ++ ['\\', c]) hadWildcard
      else if c = '?' then
        globstarLoop fuel (some c) rest1 (sb ++ ['.']) true
      else if c = '*' then
        -- Move over all consecutive "*"'s.
        let starCount := 1 + (rest1.takeWhile (· = '*')).length
        let after := rest1.dropWhile (· = '*')
        let nextChar := after.head?
        -- Determine if this is a globstar segment
        let isGlobstar := starCount > 1 ∧ (prevChar = some '/' ∨ prevChar = none) ∧
          (nextChar = some '/' ∨ nextChar = none)
        if isGlobstar then
          -- Match zero or more path segments; move over the "/"
          globstarLoop fuel nextChar after.tail (sb ++ "(?:[^/]*(?:/|$))*".toList) true
        else
          -- Match one path segment
          globstarLoop fuel (some '*') after (sb ++ "[^/]*".toList) true
      else
        globstarLoop fuel (some c) rest1 (sb ++ [c]) hadWildcard

/-- Go `globstarToEscapedRegexp`; the results are the regexp text and
`hadWildcard`. -/
def globstarToEscapedRegexp (glob : Str) : Str × Bool :=
  let result := globstarLoop glob.length none glob ['^'] false
  (result.1 ++ ['$'], result.2)

/-- The two fields of `packageJSON` that the "sideEffects" array fills. A compiled
`*regexp.Regexp` is kept as the regexp text it was compiled from. -/
structure sideEffectsFields where
  sideEffectsMap : Str → Bool
  sideEffectsRegexps : List Str

/-- The body of the loop over the "sideEffects" array in Go `parsePackageJSON`, for
an item that is a string: from `pattern := js_lexer.UTF16ToString(item.Value)` to
the end of the body. `fsJoin` is `r.fs.Join`, which is defined outside this file. -/
def addSideEffectsPattern (fsJoin : Str → Str → Str) (inputPath : Str)
    (packageJSON : sideEffectsFields) (pattern : Str) : sideEffectsFields :=
  let pattern :=
    if !strings.ContainsRune pattern '/' then "**/".toList ++ pattern else pattern
  let absPattern := fsJoin inputPath pattern
  let result := globstarToEscapedRegexp absPattern
  -- Wildcard patterns require more expensive matching
  if result.2 then
    { packageJSON with sideEffectsRegexps := packageJSON.sideEffectsRegexps ++ [result.1] }
  else
    -- Normal strings can be matched with a map lookup
    { packageJSON with
      sideEffectsMap := fun key => if key = absPattern then true else
        packageJSON.sideEffectsMap key }

/-- A piece of a glob: a maximal run of "*", with its length, or a single other
byte. -/
inductive globPiece
  | stars (count : Nat)
  | byte (c : Char)
  deriving DecidableEq, Repr

/-- The pieces of a glob, in order. -/
def globPieces : Str → List globPiece
  | [] => []
  | c :: s =>
    if c = '*' then
      match globPieces s with
      | .stars count :: pieces => .stars (count + 1) :: pieces
      | pieces => .stars 1 :: pieces
    else .byte c :: globPieces s

/-- The first byte of the text that a list of pieces stands for. -/
def firstByte : List globPiece → Option Char
  | [] => none
  | .stars _ :: _ => some '*'
  | .byte c :: _ => some c

/-- The regexp text for the pieces of a glob, as the reference wording has it.
`prevChar` is the byte before the pieces (`none` at the start of the glob) and
`afterGlobstar` tells that the piece before was compiled as a globstar. A run of two
or more "*" that starts the glob or follows "/", and ends the glob or is followed
by "/", is a globstar: it gives "(?:[^/]*(?:/|$))*" and the "/" after it gives
nothing. Every other run of "*" gives "[^/]*", "?" gives ".", an escaped byte the
byte after a backslash, and any other byte itself. -/
def emitPieces : Option Char → Bool → List globPiece → Str
  | _, _, [] => []
  | prevChar, _, .stars count :: pieces =>
    if 2 ≤ count ∧ (prevChar = none ∨ prevChar = some '/') ∧
        (firstByte pieces = none ∨ firstByte pieces = some '/') then
      "(?:[^/]*(?:/|$))*".toList ++ emitPieces (some '*') true pieces
    else "[^/]*".toList ++ emitPieces (some '*') false pieces
  | _, afterGlobstar, .byte c :: pieces =>
    (if afterGlobstar ∧ c = '/' then []
      else if isEscapedByte c then ['\\', c]
      else if c = '?' then ['.']
      else [c]) ++ emitPieces (some c) false pieces

/-- One byte of a glob that is neither "*" nor "?", as the compiler writes it. -/
def escapeByte (c : Char) : Str := if isEscapedByte c then ['\\', c] else [c]

/-- The text of a piece of a glob. -/
def globPiece.text : globPiece → Str
  | .stars count => List.replicate count '*'
  | .byte c => [c]

/-- A piece that is a run of "*". -/
def globPiece.isStars : globPiece → Bool
  | .stars _ => true
  | .byte _ => false

/-! ## The regexps of the glob compiler, as Go `regexp` reads them -/

/-- A piece of a regexp that the glob compiler writes: a literal byte, ".",
"[^/]*" or "(?:[^/]*(?:/|$))*". -/
inductive regexpPiece
  | byte (c : Char)
  | anyChar
  | segmentChars
  | globstar
  deriving DecidableEq, Repr

/-- The regexp text of a globstar. -/
def globstarText : Str := "(?:[^/]*(?:/|$))*".toList

/-- The regexp text of a run of "*" that is not a globstar. -/
def segmentText : Str := "[^/]*".toList

/-- The reading of a regexp text after its "^", up to and with its final "$", for
the regexps that the glob compiler writes: the two fragments, a backslash before an
escaped byte (the byte itself), "." (any character), and any other byte that is not
an operator of the regexp syntax (the byte itself). A text of another form has no
reading here. Every round reads at least one byte, so `re.length` rounds are
enough. -/
def parseRegexp : Nat → Str → Option (List regexpPiece)
  | 0, _ => none
  | fuel + 1, re =>
    if re = ['$'] then some []
    else if globstarText.isPrefixOf re then
      (parseRegexp fuel (re.drop globstarText.length)).map (regexpPiece.globstar :: ·)
    else if segmentText.isPrefixOf re then
      (parseRegexp fuel (re.drop segmentText.length)).map (regexpPiece.segmentChars :: ·)
    else
      match re with
      | [] => none
      | c :: rest =>
        if c = '\\' then
          match rest with
          | [] => none
          | e :: rest2 =>
            if isEscapedByte e then (parseRegexp fuel rest2).map (regexpPiece.byte e :: ·)
            else none
        else if c = '.' then (parseRegexp fuel rest).map (regexpPiece.anyChar :: ·)
        else if isEscapedByte c || c = '*' || c = '?' then none
        else (parseRegexp fuel rest).map (regexpPiece.byte c :: ·)

/-- The matching of "[^/]*" followed by `k`: `k` holds after some number of bytes
that `ok` accepts. -/
def matchAfterRun (ok : Char → Bool) (k : Str → Bool) : Str → Bool
  | [] => k []
  | c :: text => k (c :: text) || (ok c && matchAfterRun ok k text)

/-- The places of the text where a globstar "(?:[^/]*(?:/|$))*" can end when it has
taken at least one group: after a "/" of the text, or at the end of the text. -/
def matchAfterGroups (k : Str → Bool) : Str → Bool
  | [] => k []
  | c :: text => (c = '/' && k text) || matchAfterGroups k text

/-- The pieces match the whole of the text, as Go `regexp` has it: "." is any
character but the newline, "[^/]*" any run of characters other than "/", and a
globstar any run of groups, a group being a run of characters other than "/" that
is followed by a "/" or ends the text. The text is read byte by byte, which is the
reading of Go for ASCII text. -/
def matchPieces : List regexpPiece → Str → Bool
  | [], text => text.isEmpty
  | .byte c :: pieces, text =>
    match text with
    | [] => false
    | x :: rest => x = c && matchPieces pieces rest
  | .anyChar :: pieces, text =>
    match text with
    | [] => false
    | x :: rest => x ≠ '\n' && matchPieces pieces rest
  | .segmentChars :: pieces, text =>
    matchAfterRun (fun c => c ≠ '/') (fun rest => matchPieces pieces rest) text
  | .globstar :: pieces, text =>
    matchPieces pieces text || matchAfterGroups (fun rest => matchPieces pieces rest) text

/-- Go `(*regexp.Regexp).MatchString` for the compiled text `re`, which starts with
"^" and ends with "$"; a text without a reading matches nothing here. -/
def regexpMatchString (re text : Str) : Bool :=
  match re with
  | [] => false
  | c :: body =>
    if c = '^' then
      match parseRegexp body.length body with
      | some pieces => matchPieces pieces text
      | none => false
    else false

/-! ## Paths as lists of segments -/

/-- The pieces of a path between its "/". -/
def splitSlash : Str → List Str
  | [] => [[]]
  | c :: s =>
    if c = '/' then [] :: splitSlash s
    else
      match splitSlash s with
      | [] => [[c]]
      | seg :: segs => (c :: seg) :: segs

/-- The absolute path with the given segments: "/", the first segment, "/", the
second one, and so on. -/
def joinSegments (segs : List Str) : Str := segs.flatMap (fun seg => '/' :: seg)

/-- A segment of a clean path: not empty, not "." or "..", and without "/". -/
def isNormalSegment (seg : Str) : Bool :=
  decide (seg ≠ [] ∧ seg ≠ ".".toList ∧ seg ≠ "..".toList ∧ '/' ∉ seg)

/-- The segments of a path that `path.Clean` keeps when the path has no ".."
segment: the ones that are neither empty nor ".". -/
def keptSegments (p : Str) : List Str :=
  (splitSlash p).filter (fun seg => decide (seg ≠ [] ∧ seg ≠ ".".toList))

/-- A resolved path is inside the package: it is the package URL, or it begins with
the package URL followed by "/". -/
def insidePackage (packageURL resolved : Str) : Bool :=
  decide (resolved = packageURL) || strings.HasPrefix resolved (packageURL ++ "/".toList)

/-- The output of `path.Clean` for a rooted path with the given segments: "/" when
there is none. -/
def rootedPath (segs : List Str) : Str :=
  if segs = [] then ['/'] else joinSegments segs

/-! ## Theorems -/

/-! ### `sort.Stable` -/

theorem sort.insert_perm {α : Type} (less : α → α → Bool) (a : α) :
    ∀ l : List α, (sort.insert less a l).Perm (a :: l)
  | [] => List.Perm.refl _
  | b :: l => by
    unfold sort.insert
    split
    · exact ((sort.insert_perm less a l).cons b).trans (List.Perm.swap a b l)
    · exact List.Perm.refl _

theorem sort.Stable_perm {α : Type} (less : α → α → Bool) :
    ∀ l : List α, (sort.Stable less l).Perm l
  | [] => List.Perm.refl _
  | a :: l => (sort.insert_perm less a _).trans ((sort.Stable_perm less l).cons a)

theorem sort.insert_sorted {α : Type} (f : α → Nat) (a : α) :
    ∀ l : List α, l.Pairwise (fun x y => f y ≤ f x) →
      (sort.insert (fun x y => decide (f x > f y)) a l).Pairwise (fun x y => f y ≤ f x)
  | [], _ => by simp [sort.insert]
  | b :: l, h => by
    unfold sort.insert
    rw [List.pairwise_cons] at h
    by_cases hb : f b > f a
    · simp only [hb, decide_True, if_true]
      rw [List.pairwise_cons]
      refine ⟨?_, sort.insert_sorted f a l h.2⟩
      intro y hy
      rcases List.mem_cons.1 ((sort.insert_perm _ a l).subset hy) with rfl | hy
      · exact Nat.le_of_lt hb
      · exact h.1 y hy
    · simp only [hb, decide_False, Bool.false_eq_true, if_false]
      rw [List.pairwise_cons, List.pairwise_cons]
      have hba : f b ≤ f a := Nat.le_of_not_lt hb
      refine ⟨?_, h.1, h.2⟩
      intro y hy
      rcases List.mem_cons.1 hy with rfl | hy
      · exact hba
      · exact Nat.le_trans (h.1 y hy) hba

theorem sort.Stable_sorted {α : Type} (f : α → Nat) :
    ∀ l : List α,
      (sort.Stable (fun x y => decide (f x > f y)) l).Pairwise (fun x y => f y ≤ f x)
  | [] => List.Pairwise.nil
  | a :: l => sort.insert_sorted f a _ (sort.Stable_sorted f l)

theorem sort.insert_filter {α : Type} (f : α → Nat) (n : Nat) (a : α) :
    ∀ l : List α,
      (sort.insert (fun x y => decide (f x > f y)) a l).filter (fun x => decide (f x = n))
        = (a :: l).filter (fun x => decide (f x = n))
  | [] => by simp [sort.insert]
  | b :: l => by
    unfold sort.insert
    by_cases hb : f b > f a
    · simp only [hb, decide_True, if_true]
      rw [List.filter_cons, sort.insert_filter f n a l]
      by_cases h1 : f b = n
      · have h2 : ¬ f a = n := by omega
        simp [List.filter_cons, h1, h2]
      · simp [List.filter_cons, h1]
    · simp only [hb, decide_False, Bool.false_eq_true, if_false]

theorem sort.Stable_filter {α : Type} (f : α → Nat) (n : Nat) :
    ∀ l : List α,
      (sort.Stable (fun x y => decide (f x > f y)) l).filter (fun x => decide (f x = n))
        = l.filter (fun x => decide (f x = n))
  | [] => rfl
  | a :: l => by
    show (sort.insert _ a (sort.Stable _ l)).filter _ = _
    rw [sort.insert_filter, List.filter_cons, List.filter_cons, sort.Stable_filter f n l]

/-! ### The map parser -/

theorem visitProperties_some (source : Source) :
    ∀ (props : List Property) (i : Nat) (cs : Bool) (md ek md1 ek1 : List pjMapEntry),
      (visitProperties source props i cs md ek).1 = some (md1, ek1) →
        md1 = md ++ props.map (entryOf source) ∧
        ek1 = ek ++ (props.map (entryOf source)).filter (fun x => isExpansionKey x.key) ∧
        (i ≠ 0 → ∀ p ∈ props, (!startsWithDot p.key) = cs) ∧
        (i = 0 → ∀ p ∈ props, ∀ q ∈ props, startsWithDot p.key = startsWithDot q.key)
  | [], i, cs, md, ek, md1, ek1, h => by
    simp only [visitProperties, Option.some.injEq, Prod.mk.injEq] at h
    obtain ⟨rfl, rfl⟩ := h
    simp
  | .mk keyLoc key v :: rest, i, cs, md, ek, md1, ek1, h => by
    rw [visitProperties] at h
    by_cases hmix : i ≠ 0 ∧ cs ≠ !strings.HasPrefix key ".".toList
    · rw [if_pos hmix] at h
      exact absurd h (by simp)
    · rw [if_neg hmix] at h
      have ih := visitProperties_some source rest (i + 1) _ _ _ md1 ek1 h
      obtain ⟨h1, h2, h3, -⟩ := ih
      have h3 := h3 (Nat.succ_ne_zero i)
      have hent : entryOf source (.mk keyLoc key v)
          = .mk key (source.RangeOfString keyLoc) (visit source v).1 := rfl
      refine ⟨?_, ?_, ?_, ?_⟩
      · rw [h1, List.map_cons, hent, List.append_assoc]; rfl
      · rw [h2, List.map_cons, hent, List.filter_cons]
        simp only [pjMapEntry.key, isExpansionKey]
        split <;> simp
      · intro hi p hp
        have hcs : cs = !strings.HasPrefix key ".".toList := by
          by_contra hne
          exact hmix ⟨hi, hne⟩
        rcases List.mem_cons.1 hp with rfl | hp
        · simp [startsWithDot, Property.key, hcs]
        · have := h3 p hp
          rw [if_neg hi] at this
          exact this
      · intro hi p hp q hq
        rw [if_pos hi] at h3
        have key1 : ∀ r ∈ Property.mk keyLoc key v :: rest,
            (!startsWithDot r.key) = !strings.HasPrefix key ".".toList := by
          intro r hr
          rcases List.mem_cons.1 hr with rfl | hr
          · rfl
          · exact h3 r hr
        have a := key1 p hp
        have b := key1 q hq
        rw [← b] at a
        simpa using a

theorem mem_nodesOfMap : ∀ (l : List pjMapEntry) (n : pjEntry),
    n ∈ nodesOfMap l ↔ ∃ x ∈ l, n ∈ x.value.nodes
  | [], n => by simp [nodesOfMap]
  | .mk k r v :: xs, n => by
    rw [nodesOfMap, List.mem_append, mem_nodesOfMap xs n]
    simp [pjMapEntry.value]

theorem mem_nodesOfArray : ∀ (l : List pjEntry) (n : pjEntry),
    n ∈ nodesOfArray l ↔ ∃ x ∈ l, n ∈ x.nodes
  | [], n => by simp [nodesOfArray]
  | x :: xs, n => by
    rw [nodesOfArray, List.mem_append, mem_nodesOfArray xs n]
    simp

theorem visit_object (source : Source) (loc : Int) (props : List Property)
    (ft : Range) (md ek : List pjMapEntry)
    (h : (visit source (.EObject loc props)).1 = .object ft md ek) :
    ft = ⟨loc, 1⟩ ∧ md = props.map (entryOf source) ∧
      ek = sort.Stable expansionKeysArray.Less (md.filter (fun x => isExpansionKey x.key)) ∧
      (∀ p ∈ props, ∀ q ∈ props, startsWithDot p.key = startsWithDot q.key) := by
  rw [visit] at h
  rcases hvp : visitProperties source props 0 false [] [] with ⟨o, log⟩
  rw [hvp] at h
  cases o with
  | none => simp at h
  | some r =>
    obtain ⟨md1, ek1⟩ := r
    have hs := visitProperties_some source props 0 false [] [] md1 ek1 (by rw [hvp])
    obtain ⟨h1, h2, -, h4⟩ := hs
    simp only [List.nil_append] at h1 h2
    simp only [pjEntry.object.injEq] at h
    obtain ⟨hft, hmd, hek⟩ := h
    subst hmd
    refine ⟨hft.symm, h1, ?_, h4 rfl⟩
    rw [← hek, h2, h1]

theorem visit_kind_object (source : Source) (e : Expr) (ft : Range) (md ek : List pjMapEntry)
    (h : (visit source e).1 = .object ft md ek) : ∃ loc props, e = .EObject loc props := by
  cases e with
  | EObject loc props => exact ⟨loc, props, rfl⟩
  | ENull loc => simp [visit] at h
  | EString loc v => simp [visit] at h
  | EArray loc items => simp [visit] at h
  | EBoolean loc b => simp [visit] at h
  | ENumber loc => simp [visit] at h
  | EOther loc => simp [visit] at h

mutual
theorem visit_nodes (source : Source) :
    ∀ (e : Expr) (n : pjEntry), n ∈ (visit source e).1.nodes → ∃ e1, n = (visit source e1).1
  | .ENull loc, n, h => by
    simp only [visit, pjEntry.nodes, List.mem_singleton] at h
    exact ⟨.ENull loc, by rw [h]; rfl⟩
  | .EString loc v, n, h => by
    simp only [visit, pjEntry.nodes, List.mem_singleton] at h
    exact ⟨.EString loc v, by rw [h]; rfl⟩
  | .EBoolean loc b, n, h => by
    simp only [visit, pjEntry.nodes, List.mem_singleton] at h
    exact ⟨.EBoolean loc b, by rw [h]; rfl⟩
  | .ENumber loc, n, h => by
    simp only [visit, pjEntry.nodes, List.mem_singleton] at h
    exact ⟨.ENumber loc, by rw [h]; rfl⟩
  | .EOther loc, n, h => by
    simp only [visit, pjEntry.nodes, List.mem_singleton] at h
    exact ⟨.EOther loc, by rw [h]; rfl⟩
  | .EArray loc items, n, h => by
    simp only [visit, pjEntry.nodes, List.mem_cons] at h
    rcases h with h | h
    · exact ⟨.EArray loc items, by rw [h]; simp [visit]⟩
    · exact visitItems_nodes source items n h
  | .EObject loc props, n, h => by
    rcases hv : (visit source (.EObject loc props)).1 with ft | ⟨ft, s⟩ | ⟨ft, a⟩ | ⟨ft, md, ek⟩ | ft
    all_goals rw [hv] at h
    · simp only [pjEntry.nodes, List.mem_singleton] at h
      exact ⟨.EObject loc props, by rw [h, hv]⟩
    · simp only [pjEntry.nodes, List.mem_singleton] at h
      exact ⟨.EObject loc props, by rw [h, hv]⟩
    · exfalso
      rw [visit] at hv
      split at hv <;> simp at hv
    · obtain ⟨-, hmd, hek, -⟩ := visit_object source loc props ft md ek hv
      simp only [pjEntry.nodes, List.mem_cons, List.mem_append] at h
      rcases h with h | h | h
      · exact ⟨.EObject loc props, by rw [h, hv]⟩
      · rw [hmd] at h
        exact visitProperties_nodes source props n h
      · rw [mem_nodesOfMap] at h
        obtain ⟨x, hx, hn⟩ := h
        rw [hek] at hx
        have hx1 := (sort.Stable_perm _ _).subset hx
        have hx2 := List.mem_of_mem_filter hx1
        rw [hmd] at hx2
        exact visitProperties_nodes source props n ((mem_nodesOfMap _ _).2 ⟨x, hx2, hn⟩)
    · simp only [pjEntry.nodes, List.mem_singleton] at h
      exact ⟨.EObject loc props, by rw [h, hv]⟩
theorem visitItems_nodes (source : Source) :
    ∀ (items : List Expr) (n : pjEntry), n ∈ nodesOfArray (visitItems source items).1 →
      ∃ e1, n = (visit source e1).1
  | [], n, h => by simp [visitItems, nodesOfArray] at h
  | item :: rest, n, h => by
    simp only [visitItems, nodesOfArray, List.mem_append] at h
    rcases h with h | h
    · exact visit_nodes source item n h
    · exact visitItems_nodes source rest n h
theorem visitProperties_nodes (source : Source) :
    ∀ (props : List Property) (n : pjEntry), n ∈ nodesOfMap (props.map (entryOf source)) →
      ∃ e1, n = (visit source e1).1
  | [], n, h => by simp [nodesOfMap] at h
  | .mk keyLoc key v :: rest, n, h => by
    simp only [List.map_cons, entryOf, Property.valueOrNil, nodesOfMap, List.mem_append] at h
    rcases h with h | h
    · exact visit_nodes source v n h
    · exact visitProperties_nodes source rest n h
end

/-- C9: in every object node of a tree produced by `parseImportsExportsMap`,
`expansionKeys` holds exactly the entries of `mapData` whose key ends in "/" or "*"
(as a permutation, so with multiplicity), it is ordered by key length descending, and
for each length the entries with a key of that length stand in their source order. -/
theorem C9_expansionKeys_sorted_stable (source : Source) (json : Expr) (m : pjMap)
    (hparse : (parseImportsExportsMap source json).1 = some m)
    (node : pjEntry) (hnode : node ∈ m.root.nodes) (hkind : node.kind = pjKind.pjObject) :
    node.expansionKeys.Perm (node.mapData.filter (fun x => isExpansionKey x.key)) ∧
    node.expansionKeys.Pairwise (fun x y => y.key.length ≤ x.key.length) ∧
    ∀ n : Nat, node.expansionKeys.filter (fun x => decide (x.key.length = n)) =
      (node.mapData.filter (fun x => isExpansionKey x.key)).filter
        (fun x => decide (x.key.length = n)) := by
  have hroot : m.root = (visit source json).1 := by
    unfold parseImportsExportsMap at hparse
    dsimp only at hparse
    split at hparse
    · simp at hparse
    · simp only [Option.some.injEq] at hparse
      rw [← hparse]
  rw [hroot] at hnode
  obtain ⟨e1, he1⟩ := visit_nodes source json node hnode
  cases node with
  | object ft md ek =>
    obtain ⟨loc, props, rfl⟩ := visit_kind_object source e1 ft md ek he1.symm
    obtain ⟨-, -, hek, -⟩ := visit_object source loc props ft md ek he1.symm
    simp only [pjEntry.expansionKeys, pjEntry.mapData]
    rw [hek]
    exact ⟨sort.Stable_perm _ _, sort.Stable_sorted (fun x : pjMapEntry => x.key.length) _,
      fun n => sort.Stable_filter (fun x : pjMapEntry => x.key.length) n _⟩
  | null ft => simp [pjEntry.kind] at hkind
  | string ft s => simp [pjEntry.kind] at hkind
  | array ft a => simp [pjEntry.kind] at hkind
  | invalid ft => simp [pjEntry.kind] at hkind

theorem C9_expansionKeys_sorted_stable_witness :
    (visit exampleSource exampleExpansion).1.expansionKeys.map pjMapEntry.key =
        ["./long/*".toList, "./b/".toList, "./a*".toList] ∧
    (visit exampleSource exampleExpansion).1.expansionKeys.Perm
      ((visit exampleSource exampleExpansion).1.mapData.filter (fun x => isExpansionKey x.key)) ∧
    (visit exampleSource exampleExpansion).1.expansionKeys.Pairwise
      (fun x y => y.key.length ≤ x.key.length) ∧
    ∀ n : Nat, (visit exampleSource exampleExpansion).1.expansionKeys.filter
        (fun x => decide (x.key.length = n)) =
      ((visit exampleSource exampleExpansion).1.mapData.filter
        (fun x => isExpansionKey x.key)).filter (fun x => decide (x.key.length = n)) :=
  ⟨by decide,
    C9_expansionKeys_sorted_stable exampleSource exampleExpansion
      ⟨(visit exampleSource exampleExpansion).1⟩ rfl (visit exampleSource exampleExpansion).1
      (List.mem_cons_self _ _) rfl⟩

theorem parse_root (source : Source) (json : Expr) (m : pjMap)
    (hparse : (parseImportsExportsMap source json).1 = some m) :
    m.root = (visit source json).1 := by
  unfold parseImportsExportsMap at hparse
  dsimp only at hparse
  split at hparse
  · simp at hparse
  · simp only [Option.some.injEq] at hparse
    rw [← hparse]

/-- C7: the parser turns every JSON object that has both a key starting with "."
and a key not starting with "." into an `invalid` node (`visit` is the function the
parser applies to the value at every depth); and in every object node of a tree
produced by `parseImportsExportsMap`, either all keys start with "." or none does. -/
theorem C7_mixed_keys_rejected (source : Source) :
    (∀ (loc : Int) (props : List Property),
      (∃ p ∈ props, startsWithDot p.key = true) → (∃ q ∈ props, startsWithDot q.key = false) →
        (visit source (.EObject loc props)).1 = .invalid ⟨loc, 1⟩) ∧
    (∀ (json : Expr) (m : pjMap), (parseImportsExportsMap source json).1 = some m →
      ∀ node ∈ m.root.nodes, node.kind = pjKind.pjObject →
        (∀ x ∈ node.mapData, startsWithDot x.key = true) ∨
        (∀ x ∈ node.mapData, startsWithDot x.key = false)) := by
  constructor
  · intro loc props ⟨p, hp, hpd⟩ ⟨q, hq, hqd⟩
    rcases hv : (visit source (.EObject loc props)).1 with ft | ⟨ft, s⟩ | ⟨ft, a⟩ | ⟨ft, md, ek⟩ | ft
    · rw [visit] at hv; split at hv <;> simp at hv
    · rw [visit] at hv; split at hv <;> simp at hv
    · rw [visit] at hv; split at hv <;> simp at hv
    · obtain ⟨-, -, -, huni⟩ := visit_object source loc props ft md ek hv
      have := huni p hp q hq
      rw [hpd, hqd] at this
      exact absurd this (by decide)
    · rw [visit] at hv
      split at hv
      · simp only [pjEntry.invalid.injEq] at hv
        rw [← hv]
      · simp at hv
  · intro json m hparse node hnode hkind
    rw [parse_root source json m hparse] at hnode
    obtain ⟨e1, he1⟩ := visit_nodes source json node hnode
    cases node with
    | object ft md ek =>
      obtain ⟨loc, props, rfl⟩ := visit_kind_object source e1 ft md ek he1.symm
      obtain ⟨-, hmd, -, huni⟩ := visit_object source loc props ft md ek he1.symm
      simp only [pjEntry.mapData]
      have hkey : ∀ x ∈ md, ∃ p ∈ props, x.key = p.key := by
        intro x hx
        rw [hmd, List.mem_map] at hx
        obtain ⟨p, hp, rfl⟩ := hx
        exact ⟨p, hp, rfl⟩
      cases md with
      | nil => left; intro x hx; simp at hx
      | cons y ys =>
        obtain ⟨q, hq, hyq⟩ := hkey y (List.mem_cons_self _ _)
        cases hd : startsWithDot y.key with
        | true =>
          left
          intro x hx
          obtain ⟨p, hp, hxp⟩ := hkey x hx
          rw [hxp, huni p hp q hq, ← hyq, hd]
        | false =>
          right
          intro x hx
          obtain ⟨p, hp, hxp⟩ := hkey x hx
          rw [hxp, huni p hp q hq, ← hyq, hd]
    | null ft => simp [pjEntry.kind] at hkind
    | string ft s => simp [pjEntry.kind] at hkind
    | array ft a => simp [pjEntry.kind] at hkind
    | invalid ft => simp [pjEntry.kind] at hkind

theorem C7_mixed_keys_rejected_witness :
    (visit exampleSource (.EObject 0 exampleMixed)).1 = .invalid ⟨0, 1⟩ ∧
    ((∀ x ∈ (visit exampleSource exampleExpansion).1.mapData, startsWithDot x.key = true) ∨
      (∀ x ∈ (visit exampleSource exampleExpansion).1.mapData, startsWithDot x.key = false)) :=
  ⟨(C7_mixed_keys_rejected exampleSource).1 0 exampleMixed
      ⟨.mk 1 "./a".toList (.EString 2 "./a.js".toList), List.mem_cons_self _ _, by decide⟩
      ⟨.mk 3 "import".toList (.EString 4 "./b.js".toList),
        List.mem_cons_of_mem _ (List.mem_cons_self _ _), by decide⟩,
    (C7_mixed_keys_rejected exampleSource).2 exampleExpansion
      ⟨(visit exampleSource exampleExpansion).1⟩ rfl (visit exampleSource exampleExpansion).1
      (List.mem_cons_self _ _) rfl⟩

/-! ### Strings -/

theorem strings.HasPrefix_iff (s pre : Str) : strings.HasPrefix s pre = true ↔ pre <+: s := by
  unfold strings.HasPrefix
  exact List.isPrefixOf_iff_prefix

theorem strings.HasSuffix_iff (s suf : Str) : strings.HasSuffix s suf = true ↔ suf <:+ s := by
  unfold strings.HasSuffix
  exact List.isSuffixOf_iff_suffix

theorem strings.HasSuffix_char (s : Str) (c : Char) :
    strings.HasSuffix s [c] = true ↔ s = s.dropLast ++ [c] := by
  rw [strings.HasSuffix_iff]
  constructor
  · rintro ⟨t, rfl⟩
    simp
  · intro h
    exact ⟨s.dropLast, h.symm⟩

theorem strings.HasSuffix_char_unique (s : Str) (c d : Char)
    (hc : strings.HasSuffix s [c] = true) (hd : strings.HasSuffix s [d] = true) : c = d := by
  rw [strings.HasSuffix_char] at hc hd
  have h : s.dropLast ++ [c] = s.dropLast ++ [d] := by rw [← hc, ← hd]
  simpa using h

theorem take_length_pred (s : Str) : s.take (s.length - 1) = s.dropLast := by
  rw [List.dropLast_eq_take]

theorem star_key_prefix (key matchKey : Str) (hstar : strings.HasSuffix key "*".toList = true)
    (hpre : strings.HasPrefix matchKey key = true) :
    strings.HasPrefix matchKey key.dropLast = true ∧ matchKey ≠ key.dropLast := by
  have hk : key = key.dropLast ++ ['*'] := (strings.HasSuffix_char key '*').1 hstar
  rw [strings.HasPrefix_iff] at hpre ⊢
  obtain ⟨t, ht⟩ := hpre
  constructor
  · exact ⟨'*' :: t, by rw [← ht]; conv_rhs => rw [hk]; simp⟩
  · intro h
    have hlen := congrArg List.length ht
    rw [hk, h] at hlen
    simp at hlen

theorem loop_step (matchKey : Str) (ft : Range) (packageURL : Str) (isImports : Bool)
    (conditions : Str → Bool) (x : pjMapEntry) (rest : List pjMapEntry)
    (hx : isExpansionKey x.key = true) :
    esmPackageImportsExportsResolveLoop matchKey ft packageURL isImports conditions (x :: rest) =
      if expansionMatches x.key matchKey = true then
        resolveAgainst matchKey x packageURL isImports conditions
      else
        esmPackageImportsExportsResolveLoop matchKey ft packageURL isImports conditions
          rest := by
  rw [esmPackageImportsExportsResolveLoop, take_length_pred]
  unfold resolveAgainst expansionMatches
  have h1 : strings.HasSuffix x.key "*".toList = true →
      strings.HasSuffix x.key "/".toList = true → False := fun h h2 =>
    absurd (strings.HasSuffix_char_unique _ _ _ h h2) (by decide)
  have h2 : strings.HasSuffix x.key "*".toList = true →
      strings.HasPrefix matchKey x.key = true →
      strings.HasPrefix matchKey x.key.dropLast = true ∧ matchKey ≠ x.key.dropLast :=
    star_key_prefix _ _
  have h3 : strings.HasSuffix x.key "/".toList = true ∨
      strings.HasSuffix x.key "*".toList = true := by
    unfold isExpansionKey at hx
    simpa using hx
  generalize strings.HasSuffix x.key "*".toList = a at *
  generalize strings.HasSuffix x.key "/".toList = b at *
  generalize strings.HasPrefix matchKey x.key.dropLast = c at *
  generalize strings.HasPrefix matchKey x.key = e at *
  by_cases hd : matchKey = x.key.dropLast <;> cases a <;> cases b <;> cases c <;> cases e <;>
    simp_all

theorem loop_first_match (matchKey : Str) (ft : Range) (packageURL : Str) (isImports : Bool)
    (conditions : Str → Bool) :
    ∀ l : List pjMapEntry, (∀ x ∈ l, isExpansionKey x.key = true) →
      l.Pairwise (fun x y => y.key.length ≤ x.key.length) →
      ((∀ y ∈ l, expansionMatches y.key matchKey = false) ∧
        esmPackageImportsExportsResolveLoop matchKey ft packageURL isImports conditions l =
          ([], pjStatusNull, { token := ft })) ∨
      (∃ x ∈ l, expansionMatches x.key matchKey = true ∧
        (∀ y ∈ l, expansionMatches y.key matchKey = true → y.key.length ≤ x.key.length) ∧
        esmPackageImportsExportsResolveLoop matchKey ft packageURL isImports conditions l =
          resolveAgainst matchKey x packageURL isImports conditions)
  | [], _, _ => by
    left
    exact ⟨by simp, rfl⟩
  | x :: rest, hexp, hsorted => by
    rw [loop_step _ _ _ _ _ _ _ (hexp x (List.mem_cons_self _ _))]
    rw [List.pairwise_cons] at hsorted
    by_cases hm : expansionMatches x.key matchKey = true
    · right
      refine ⟨x, List.mem_cons_self _ _, hm, ?_, by rw [if_pos hm]⟩
      intro y hy _
      rcases List.mem_cons.1 hy with rfl | hy
      · exact Nat.le_refl _
      · exact hsorted.1 y hy
    · rw [if_neg hm]
      have hm2 : expansionMatches x.key matchKey = false := by simpa using hm
      rcases loop_first_match matchKey ft packageURL isImports conditions rest
          (fun y hy => hexp y (List.mem_cons_of_mem _ hy)) hsorted.2 with ⟨hnone, hres⟩ | ⟨z, hz, hzm, hmax, hres⟩
      · left
        refine ⟨?_, hres⟩
        intro y hy
        rcases List.mem_cons.1 hy with rfl | hy
        · exact hm2
        · exact hnone y hy
      · right
        refine ⟨z, List.mem_cons_of_mem _ hz, hzm, ?_, hres⟩
        intro y hy hym
        rcases List.mem_cons.1 hy with rfl | hy
        · rw [hm2] at hym; exact absurd hym (by decide)
        · exact hmax y hy hym

theorem object_longest_match (ft : Range) (md ek : List pjMapEntry)
    (hek : ek = sort.Stable expansionKeysArray.Less (md.filter (fun x => isExpansionKey x.key)))
    (matchKey packageURL : Str) (isImports : Bool) (conditions : Str → Bool)
    (hnohit : strings.HasSuffix matchKey "*".toList = true ∨
      (pjEntry.object ft md ek).valueForKey matchKey = none) :
    ((∀ y ∈ md, isExpansionKey y.key = true → expansionMatches y.key matchKey = false) ∧
      esmPackageImportsExportsResolve matchKey (.object ft md ek) packageURL isImports conditions =
        ([], pjStatusNull, { token := ft })) ∨
    (∃ x ∈ md, isExpansionKey x.key = true ∧ expansionMatches x.key matchKey = true ∧
      (∀ y ∈ md, isExpansionKey y.key = true → expansionMatches y.key matchKey = true →
        y.key.length ≤ x.key.length) ∧
      esmPackageImportsExportsResolve matchKey (.object ft md ek) packageURL isImports conditions =
        resolveAgainst matchKey x packageURL isImports conditions) := by
  have hmem : ∀ y, y ∈ ek ↔ y ∈ md ∧ isExpansionKey y.key = true := by
    intro y
    rw [hek, (sort.Stable_perm _ _).mem_iff, List.mem_filter]
  have hsorted : ek.Pairwise (fun x y => y.key.length ≤ x.key.length) := by
    rw [hek]
    exact sort.Stable_sorted (fun x : pjMapEntry => x.key.length) _
  have hres : esmPackageImportsExportsResolve matchKey (.object ft md ek) packageURL isImports
      conditions = esmPackageImportsExportsResolveLoop matchKey ft packageURL isImports
        conditions ek := by
    unfold esmPackageImportsExportsResolve
    rcases hnohit with h | h
    · rw [h]
      rfl
    · rw [h]
      simp [pjEntry.firstToken, pjEntry.expansionKeys]
  rw [hres]
  rcases loop_first_match matchKey ft packageURL isImports conditions ek
      (fun x hx => ((hmem x).1 hx).2) hsorted with ⟨hnone, hr⟩ | ⟨x, hx, hxm, hmax, hr⟩
  · left
    exact ⟨fun y hy hye => hnone y ((hmem y).2 ⟨hy, hye⟩), hr⟩
  · right
    exact ⟨x, ((hmem x).1 hx).1, ((hmem x).1 hx).2, hxm,
      fun y hy hye hym => hmax y ((hmem y).2 ⟨hy, hye⟩) hym, hr⟩

theorem two_prefix_keys (ft : Range) (first second : pjMapEntry) (ek : List pjMapEntry)
    (hek : ek = sort.Stable expansionKeysArray.Less
      ([first, second].filter (fun x => isExpansionKey x.key)))
    (x : pjMapEntry) (hx : x.key = "./a/b/".toList)
    (hkeys : (first = x ∧ second.key = "./a/".toList) ∨
      (first.key = "./a/".toList ∧ second = x))
    (packageURL : Str) (isImports : Bool) (conditions : Str → Bool) :
    esmPackageImportsExportsResolve "./a/b/c".toList (.object ft [first, second] ek) packageURL
      isImports conditions = resolveAgainst "./a/b/c".toList x packageURL isImports conditions := by
  have hnohit : (pjEntry.object ft [first, second] ek).valueForKey "./a/b/c".toList = none := by
    rcases hkeys with ⟨h1, h2⟩ | ⟨h1, h2⟩
    · subst h1
      simp [pjEntry.valueForKey, pjEntry.valueForKeyLoop, pjEntry.mapData, hx, h2]
    · subst h2
      simp [pjEntry.valueForKey, pjEntry.valueForKeyLoop, pjEntry.mapData, hx, h1]
  have hxm : x ∈ [first, second] := by
    rcases hkeys with ⟨h1, -⟩ | ⟨-, h2⟩
    · simp [h1]
    · simp [h2]
  have hxe : isExpansionKey x.key = true := by rw [hx]; decide
  have hxmatch : expansionMatches x.key "./a/b/c".toList = true := by rw [hx]; decide
  rcases object_longest_match ft [first, second] ek hek "./a/b/c".toList packageURL isImports
      conditions (Or.inr hnohit) with ⟨hnone, -⟩ | ⟨y, hy, -, -, hmax, hr⟩
  · have := hnone x hxm hxe
    rw [hxmatch] at this
    exact absurd this (by decide)
  · have hlen := hmax x hxm hxe hxmatch
    have hyx : y = x := by
      rcases hkeys with ⟨h1, h2⟩ | ⟨h1, h2⟩
      · subst h1
        simp only [List.mem_cons, List.mem_singleton, List.not_mem_nil, or_false] at hy
        rcases hy with h | h
        · exact h
        · rw [h, h2, hx] at hlen
          exact absurd hlen (by decide)
      · subst h2
        simp only [List.mem_cons, List.mem_singleton, List.not_mem_nil, or_false] at hy
        rcases hy with h | h
        · rw [h, h1, hx] at hlen
          exact absurd hlen (by decide)
        · exact h
    rw [hr, hyx]

theorem visitProperties_uniform (source : Source) :
    ∀ (props : List Property) (i : Nat) (cs : Bool) (md ek : List pjMapEntry),
      (i ≠ 0 → ∀ p ∈ props, (!startsWithDot p.key) = cs) →
      (i = 0 → ∀ p ∈ props, ∀ q ∈ props, startsWithDot p.key = startsWithDot q.key) →
      ∃ r, (visitProperties source props i cs md ek).1 = some r
  | [], i, cs, md, ek, _, _ => ⟨(md, ek), by simp [visitProperties]⟩
  | .mk keyLoc key v :: rest, i, cs, md, ek, h1, h2 => by
    rw [visitProperties]
    have hmix : ¬ (i ≠ 0 ∧ cs ≠ !strings.HasPrefix key ".".toList) := by
      rintro ⟨hi, hne⟩
      exact hne (h1 hi (.mk keyLoc key v) (List.mem_cons_self _ _)).symm
    rw [if_neg hmix]
    refine visitProperties_uniform source rest (i + 1) _ _ _ (fun _ p hp => ?_) (fun h => by omega)
    by_cases hi : i = 0
    · rw [if_pos hi]
      have := h2 hi p (List.mem_cons_of_mem _ hp) (.mk keyLoc key v) (List.mem_cons_self _ _)
      rw [this]
      rfl
    · rw [if_neg hi]
      exact h1 hi p (List.mem_cons_of_mem _ hp)

theorem visit_object_of_uniform (source : Source) (loc : Int) (props : List Property)
    (h : ∀ p ∈ props, ∀ q ∈ props, startsWithDot p.key = startsWithDot q.key) :
    (visit source (.EObject loc props)).1 =
      .object ⟨loc, 1⟩ (props.map (entryOf source))
        (sort.Stable expansionKeysArray.Less
          ((props.map (entryOf source)).filter (fun x => isExpansionKey x.key))) := by
  obtain ⟨r, hr⟩ := visitProperties_uniform source props 0 false [] [] (fun h0 => absurd rfl h0)
    (fun _ => h)
  have hv : (visit source (.EObject loc props)).1 = .object ⟨loc, 1⟩ r.1
      (sort.Stable expansionKeysArray.Less r.2) := by
    rw [visit]
    rcases hvp : visitProperties source props 0 false [] [] with ⟨o, log⟩
    rw [hvp] at hr
    simp only [Option.some.injEq] at hr
    subst hr
    rfl
  obtain ⟨-, hmd, hek, -⟩ := visit_object source loc props _ _ _ hv
  rw [hv, hek, hmd]

/-- C1: for every object node of a tree built by `parseImportsExportsMap` and every
`matchKey` without exact-key hit (the lookup is skipped because `matchKey` ends in
"*", or it finds no entry), `esmPackageImportsExportsResolve` gives status `null`
when no expansion key matches, and otherwise resolves against an entry whose key
matches and is at least as long as every matching expansion key of the node, whatever
the source order. In particular, for the object with the keys "./a/" and "./a/b/",
in either order and with any values, "./a/b/c" is resolved against the "./a/b/"
entry. -/
theorem C1_longest_match_wins (source : Source) :
    (∀ (json : Expr) (m : pjMap), (parseImportsExportsMap source json).1 = some m →
      ∀ node ∈ m.root.nodes, node.kind = pjKind.pjObject →
      ∀ (matchKey packageURL : Str) (isImports : Bool) (conditions : Str → Bool),
        (strings.HasSuffix matchKey "*".toList = true ∨ node.valueForKey matchKey = none) →
        ((∀ y ∈ node.mapData, isExpansionKey y.key = true →
            expansionMatches y.key matchKey = false) ∧
          esmPackageImportsExportsResolve matchKey node packageURL isImports conditions =
            ([], pjStatusNull, { token := node.firstToken })) ∨
        (∃ x ∈ node.mapData, isExpansionKey x.key = true ∧
          expansionMatches x.key matchKey = true ∧
          (∀ y ∈ node.mapData, isExpansionKey y.key = true →
            expansionMatches y.key matchKey = true → y.key.length ≤ x.key.length) ∧
          esmPackageImportsExportsResolve matchKey node packageURL isImports conditions =
            resolveAgainst matchKey x packageURL isImports conditions)) ∧
    (∀ (loc locA locAB : Int) (valueA valueAB : Expr) (packageURL : Str) (isImports : Bool)
        (conditions : Str → Bool),
      esmPackageImportsExportsResolve "./a/b/c".toList
          (visit source (.EObject loc [.mk locA "./a/".toList valueA,
            .mk locAB "./a/b/".toList valueAB])).1 packageURL isImports conditions =
        resolveAgainst "./a/b/c".toList
          (entryOf source (.mk locAB "./a/b/".toList valueAB)) packageURL isImports conditions ∧
      esmPackageImportsExportsResolve "./a/b/c".toList
          (visit source (.EObject loc [.mk locAB "./a/b/".toList valueAB,
            .mk locA "./a/".toList valueA])).1 packageURL isImports conditions =
        resolveAgainst "./a/b/c".toList
          (entryOf source (.mk locAB "./a/b/".toList valueAB)) packageURL isImports
          conditions) := by
  constructor
  · intro json m hparse node hnode hkind matchKey packageURL isImports conditions hnohit
    rw [parse_root source json m hparse] at hnode
    obtain ⟨e1, he1⟩ := visit_nodes source json node hnode
    cases node with
    | object ft md ek =>
      obtain ⟨loc, props, rfl⟩ := visit_kind_object source e1 ft md ek he1.symm
      obtain ⟨-, -, hek, -⟩ := visit_object source loc props ft md ek he1.symm
      exact object_longest_match ft md ek hek matchKey packageURL isImports conditions hnohit
    | null ft => simp [pjEntry.kind] at hkind
    | string ft s => simp [pjEntry.kind] at hkind
    | array ft a => simp [pjEntry.kind] at hkind
    | invalid ft => simp [pjEntry.kind] at hkind
  · intro loc locA locAB valueA valueAB packageURL isImports conditions
    have huni : ∀ props : List Property,
        (props = [.mk locA "./a/".toList valueA, .mk locAB "./a/b/".toList valueAB] ∨
          props = [.mk locAB "./a/b/".toList valueAB, .mk locA "./a/".toList valueA]) →
        ∀ p ∈ props, ∀ q ∈ props, startsWithDot p.key = startsWithDot q.key := by
      intro props hprops p hp q hq
      have hall : ∀ r ∈ props, startsWithDot r.key = true := by
        intro r hr
        rcases hprops with rfl | rfl <;>
          simp only [List.mem_cons, List.mem_singleton, List.not_mem_nil, or_false] at hr <;>
          rcases hr with rfl | rfl <;> rfl
      rw [hall p hp, hall q hq]
    constructor
    · rw [visit_object_of_uniform source loc _ (huni _ (Or.inl rfl))]
      exact two_prefix_keys _ (entryOf source (.mk locA "./a/".toList valueA))
        (entryOf source (.mk locAB "./a/b/".toList valueAB)) _ rfl
        (entryOf source (.mk locAB "./a/b/".toList valueAB)) rfl (Or.inr ⟨rfl, rfl⟩) _ _ _
    · rw [visit_object_of_uniform source loc _ (huni _ (Or.inr rfl))]
      exact two_prefix_keys _ (entryOf source (.mk locAB "./a/b/".toList valueAB))
        (entryOf source (.mk locA "./a/".toList valueA)) _ rfl
        (entryOf source (.mk locAB "./a/b/".toList valueAB)) rfl (Or.inl ⟨rfl, rfl⟩) _ _ _

theorem C1_longest_match_wins_witness :
    (((∀ y ∈ (visit exampleSource examplePrefixes).1.mapData, isExpansionKey y.key = true →
          expansionMatches y.key "./a/b/c".toList = false) ∧
        esmPackageImportsExportsResolve "./a/b/c".toList (visit exampleSource examplePrefixes).1
            "/pkg".toList false (conditionsOf []) =
          ([], pjStatusNull, { token := (visit exampleSource examplePrefixes).1.firstToken })) ∨
      (∃ x ∈ (visit exampleSource examplePrefixes).1.mapData, isExpansionKey x.key = true ∧
        expansionMatches x.key "./a/b/c".toList = true ∧
        (∀ y ∈ (visit exampleSource examplePrefixes).1.mapData, isExpansionKey y.key = true →
          expansionMatches y.key "./a/b/c".toList = true → y.key.length ≤ x.key.length) ∧
        esmPackageImportsExportsResolve "./a/b/c".toList (visit exampleSource examplePrefixes).1
            "/pkg".toList false (conditionsOf []) =
          resolveAgainst "./a/b/c".toList x "/pkg".toList false (conditionsOf []))) ∧
    esmPackageImportsExportsResolve "./a/b/c".toList (visit exampleSource examplePrefixes).1
        "/pkg".toList false (conditionsOf []) =
      ("/pkg/y/c".toList, pjStatusInexact, { token := ⟨4, 1⟩ }) ∧
    esmPackageImportsExportsResolve "./a/b/c".toList
        (visit exampleSource examplePrefixesReversed).1 "/pkg".toList false (conditionsOf []) =
      ("/pkg/y/c".toList, pjStatusInexact, { token := ⟨2, 1⟩ }) :=
  ⟨(C1_longest_match_wins exampleSource).1 examplePrefixes
      ⟨(visit exampleSource examplePrefixes).1⟩ rfl (visit exampleSource examplePrefixes).1
      (List.mem_cons_self _ _) rfl "./a/b/c".toList "/pkg".toList false (conditionsOf [])
      (Or.inr rfl),
    ((C1_longest_match_wins exampleSource).2 0 1 3 (.EString 2 "./x/".toList)
      (.EString 4 "./y/".toList) "/pkg".toList false (conditionsOf [])).1.trans (by decide),
    ((C1_longest_match_wins exampleSource).2 0 3 1 (.EString 4 "./x/".toList)
      (.EString 2 "./y/".toList) "/pkg".toList false (conditionsOf [])).2.trans (by decide)⟩

/-! ### `findInvalidSegment` -/

theorem splitSegments_of_IndexAny_none : ∀ p : Str,
    strings.IndexAny p "/\\".toList = none → splitSegments p = [p]
  | [], _ => rfl
  | c :: s, h => by
    rw [strings.IndexAny] at h
    by_cases hc : c ∈ "/\\".toList
    · rw [if_pos hc] at h
      exact absurd h (by simp)
    · rw [if_neg hc] at h
      have hs : strings.IndexAny s "/\\".toList = none := by
        cases hi : strings.IndexAny s "/\\".toList with
        | none => rfl
        | some k => rw [hi] at h; simp at h
      have hc2 : ¬ (c = '/' ∨ c = '\\') := by
        intro h2
        apply hc
        rcases h2 with rfl | rfl <;> decide
      rw [splitSegments, if_neg hc2, splitSegments_of_IndexAny_none s hs]

theorem splitSegments_of_IndexAny_some : ∀ (p : Str) (k : Nat),
    strings.IndexAny p "/\\".toList = some k →
      splitSegments p = p.take k :: splitSegments (p.drop (k + 1)) ∧ k < p.length
  | [], k, h => by simp [strings.IndexAny] at h
  | c :: s, k, h => by
    rw [strings.IndexAny] at h
    by_cases hc : c ∈ "/\\".toList
    · rw [if_pos hc] at h
      have hk : k = 0 := by simpa using h.symm
      subst hk
      have hc2 : c = '/' ∨ c = '\\' := by simpa using hc
      rw [splitSegments, if_pos hc2]
      simp
    · rw [if_neg hc] at h
      have hc2 : ¬ (c = '/' ∨ c = '\\') := by
        intro h2
        apply hc
        rcases h2 with rfl | rfl <;> decide
      cases hi : strings.IndexAny s "/\\".toList with
      | none => rw [hi] at h; simp at h
      | some j =>
        rw [hi] at h
        have hk : k = j + 1 := by simpa using h.symm
        subst hk
        obtain ⟨ih, hlt⟩ := splitSegments_of_IndexAny_some s j hi
        rw [splitSegments, if_neg hc2, ih]
        exact ⟨rfl, by simp only [List.length_cons]; omega⟩

theorem isInvalidSegment_iff (seg : Str) :
    isInvalidSegment seg = true ↔
      (seg = ".".toList ∨ seg = "..".toList ∨ seg = "node_modules".toList) := by
  unfold isInvalidSegment
  exact decide_eq_true_iff

theorem findInvalidSegmentLoop_eq : ∀ (fuel : Nat) (p : Str), p.length ≤ fuel →
    findInvalidSegmentLoop fuel p = ((splitSegments p).find? isInvalidSegment).getD []
  | 0, p, h => by
    have hp : p = [] := List.length_eq_zero.1 (Nat.le_zero.1 h)
    subst hp
    rfl
  | fuel + 1, p, h => by
    rw [findInvalidSegmentLoop]
    by_cases hp : p = []
    · subst hp
      rfl
    · rw [if_neg hp]
      cases hi : strings.IndexAny p "/\\".toList with
      | none =>
        rw [splitSegments_of_IndexAny_none p hi]
        simp only
        by_cases hinv : p = ".".toList ∨ p = "..".toList ∨ p = "node_modules".toList
        · rw [if_pos hinv, List.find?_cons, (isInvalidSegment_iff p).2 hinv]
          rfl
        · rw [if_neg hinv, List.find?_cons]
          have : isInvalidSegment p = false := by
            rw [← Bool.not_eq_true, isInvalidSegment_iff]; exact hinv
          rw [this]
          cases fuel <;> rfl
      | some k =>
        obtain ⟨hsplit, hlt⟩ := splitSegments_of_IndexAny_some p k hi
        rw [hsplit]
        simp only
        by_cases hinv : p.take k = ".".toList ∨ p.take k = "..".toList ∨
            p.take k = "node_modules".toList
        · rw [if_pos hinv, List.find?_cons, (isInvalidSegment_iff _).2 hinv]
          rfl
        · rw [if_neg hinv, List.find?_cons]
          have : isInvalidSegment (p.take k) = false := by
            rw [← Bool.not_eq_true, isInvalidSegment_iff]; exact hinv
          rw [this]
          exact findInvalidSegmentLoop_eq fuel (p.drop (k + 1)) (by
            rw [List.length_drop]; omega)

theorem findInvalidSegment_eq (p : Str) :
    findInvalidSegment p = ((splitSegments p).tail.find? isInvalidSegment).getD [] := by
  unfold findInvalidSegment
  cases hi : strings.IndexAny p "/\\".toList with
  | none => rw [splitSegments_of_IndexAny_none p hi]; rfl
  | some k =>
    obtain ⟨hsplit, _⟩ := splitSegments_of_IndexAny_some p k hi
    rw [hsplit]
    exact findInvalidSegmentLoop_eq _ _ (by rw [List.length_drop]; omega)

theorem findInvalidSegment_ne_nil_iff (p : Str) :
    findInvalidSegment p ≠ [] ↔ ∃ seg ∈ (splitSegments p).tail, isInvalidSegment seg = true := by
  rw [findInvalidSegment_eq]
  cases hf : (splitSegments p).tail.find? isInvalidSegment with
  | none =>
    simp only [Option.getD_none, ne_eq, not_true_eq_false, false_iff, not_exists, not_and]
    intro seg hseg
    have := List.find?_eq_none.1 hf seg hseg
    exact this
  | some seg =>
    have h1 : isInvalidSegment seg = true := List.find?_some hf
    have h2 : seg ∈ (splitSegments p).tail := List.mem_of_find?_eq_some hf
    simp only [Option.getD_some, ne_eq]
    constructor
    · intro _
      exact ⟨seg, h2, h1⟩
    · intro _ hnil
      rw [hnil] at h1
      exact absurd h1 (by decide)

/-! ### Invalid segments -/

/-- C4, as amended: for a string target with a second-or-later segment equal to ".",
".." or "node_modules", `esmPackageTargetResolve` returns `invalidModuleSpecifier`
when `pattern` is false, the subpath is not empty and the target does not end in
"/"; otherwise `packageResolve` when the target does not start with "./", `internal`
is set and the target starts with neither "../" nor "/"; and `invalidPackageTarget`
in every other case, in particular for every target that starts with "./" when
`pattern` is set, the subpath is empty or the target ends in "/". -/
theorem C4_invalid_target_segment (packageURL : Str) (firstToken : Range)
    (target subpath : Str) (pattern internal : Bool) (conditions : Str → Bool)
    (hseg : ∃ seg ∈ (splitSegments target).tail, isInvalidSegment seg = true) :
    (esmPackageTargetResolve packageURL (.string firstToken target) subpath pattern internal
        conditions).2.1 =
      if pattern = false ∧ subpath ≠ [] ∧ strings.HasSuffix target "/".toList = false then
        pjStatusInvalidModuleSpecifier
      else if strings.HasPrefix target "./".toList = false ∧ internal = true ∧
          strings.HasPrefix target "../".toList = false ∧
          strings.HasPrefix target "/".toList = false then
        pjStatusPackageResolve
      else pjStatusInvalidPackageTarget := by
  have hfind : findInvalidSegment target ≠ [] := (findInvalidSegment_ne_nil_iff target).2 hseg
  rw [esmPackageTargetResolve]
  unfold esmPackageTargetResolveString
  generalize strings.HasSuffix target "/".toList = a
  generalize strings.HasPrefix target "./".toList = b
  generalize strings.HasPrefix target "../".toList = c
  generalize strings.HasPrefix target "/".toList = d
  by_cases hs : subpath = [] <;> cases pattern <;> cases internal <;> cases a <;> cases b <;>
    cases c <;> cases d <;> simp [hs, hfind]

theorem C4_invalid_target_segment_witness :
    (∃ seg ∈ (splitSegments "./a/../b/".toList).tail, isInvalidSegment seg = true) ∧
    (esmPackageTargetResolve "/pkg".toList (.string ⟨2, 1⟩ "./a/../b/".toList) "x".toList false
        false (conditionsOf [])).2.1 = pjStatusInvalidPackageTarget :=
  ⟨by decide,
    (C4_invalid_target_segment "/pkg".toList ⟨2, 1⟩ "./a/../b/".toList "x".toList false false
      (conditionsOf []) (by decide)).trans (by decide)⟩

/-- C4 fails as stated: the target "./a/../b.js" has the second-or-later segment "..",
yet with a non-empty subpath and `pattern = false` the status is
`invalidModuleSpecifier`; and the imports target "pkg/node_modules/x" gives
`packageResolve`. -/
theorem C4_counterexample :
    ((∃ seg ∈ (splitSegments "./a/../b.js".toList).tail, isInvalidSegment seg = true) ∧
      (esmPackageTargetResolve "/pkg".toList (.string ⟨2, 1⟩ "./a/../b.js".toList) "x".toList
        false false (conditionsOf [])).2.1 = pjStatusInvalidModuleSpecifier) ∧
    ((∃ seg ∈ (splitSegments "pkg/node_modules/x".toList).tail, isInvalidSegment seg = true) ∧
      (esmPackageTargetResolve "/".toList (.string ⟨2, 1⟩ "pkg/node_modules/x".toList) []
        false true (conditionsOf [])).2.1 = pjStatusPackageResolve) := by
  decide

/-- C5: for every string target that starts with "./" and has no invalid segment
after its first one, and every subpath with a second-or-later segment equal to ".",
".." or "node_modules", `esmPackageTargetResolve` returns `invalidModuleSpecifier`,
for both values of `pattern` (and of `internal`, and every condition set). -/
theorem C5_invalid_subpath_segment (packageURL : Str) (firstToken : Range)
    (target subpath : Str) (pattern internal : Bool) (conditions : Str → Bool)
    (hdot : strings.HasPrefix target "./".toList = true)
    (htarget : ∀ seg ∈ (splitSegments target).tail, isInvalidSegment seg = false)
    (hsub : ∃ seg ∈ (splitSegments subpath).tail, isInvalidSegment seg = true) :
    (esmPackageTargetResolve packageURL (.string firstToken target) subpath pattern internal
        conditions).2.1 = pjStatusInvalidModuleSpecifier := by
  have hfind : findInvalidSegment subpath ≠ [] := (findInvalidSegment_ne_nil_iff subpath).2 hsub
  have htf : findInvalidSegment target = [] := by
    by_contra h
    obtain ⟨seg, hseg, hinv⟩ := (findInvalidSegment_ne_nil_iff target).1 h
    rw [htarget seg hseg] at hinv
    exact absurd hinv (by decide)
  rw [esmPackageTargetResolve]
  unfold esmPackageTargetResolveString
  rw [hdot]
  generalize strings.HasSuffix target "/".toList = a
  have hs : subpath ≠ [] := by
    intro h
    rw [h] at hfind
    exact hfind rfl
  cases pattern <;> cases a <;> simp [hs, hfind, htf]

theorem C5_invalid_subpath_segment_witness :
    (esmPackageTargetResolve "/pkg".toList (.string ⟨2, 1⟩ "./src/*".toList)
        "a/../b".toList true false (conditionsOf [])).2.1 = pjStatusInvalidModuleSpecifier ∧
    (esmPackageTargetResolve "/pkg".toList (.string ⟨2, 1⟩ "./src/".toList)
        "a/node_modules/b".toList false false (conditionsOf [])).2.1 =
      pjStatusInvalidModuleSpecifier :=
  ⟨C5_invalid_subpath_segment "/pkg".toList ⟨2, 1⟩ "./src/*".toList "a/../b".toList true false
      (conditionsOf []) (by decide) (by decide) (by decide),
    C5_invalid_subpath_segment "/pkg".toList ⟨2, 1⟩ "./src/".toList "a/node_modules/b".toList
      false false (conditionsOf []) (by decide) (by decide) (by decide)⟩

/-- C6, the code at the failing input: the subpath ".." consists of the one segment
"..", the target "./src/*" starts with "./" and has no invalid segment, and
`esmPackageTargetResolve` returns status `exact` with the path "/pkg/src/.."; the
same happens through `esmPackageExportsResolve` for the manifest
`{"./*": "./src/*"}` and the subpath "./..". -/
theorem C6_first_segment_not_checked :
    splitSegments "..".toList = ["..".toList] ∧ isInvalidSegment "..".toList = true ∧
    strings.HasPrefix "./src/*".toList "./".toList = true ∧
    (∀ seg ∈ (splitSegments "./src/*".toList).tail, isInvalidSegment seg = false) ∧
    esmPackageTargetResolve "/pkg".toList (.string ⟨2, 1⟩ "./src/*".toList) "..".toList true
        false (conditionsOf []) = ("/pkg/src/..".toList, pjStatusExact, { token := ⟨2, 1⟩ }) ∧
    esmPackageExportsResolve "/pkg".toList "./..".toList
        (visit exampleSource (objectOfStrings [("./*", "./src/*")])).1 (conditionsOf []) =
      ("/pkg/src/..".toList, pjStatusExact, { token := ⟨2, 1⟩ }) := by
  decide

/-! ### Invalid nodes -/

theorem valueForKey_hit (matchKey : Str) (matchObj target : pjEntry) (packageURL : Str)
    (isImports : Bool) (conditions : Str → Bool)
    (hstar : strings.HasSuffix matchKey "*".toList = false)
    (hkey : matchObj.valueForKey matchKey = some target) :
    esmPackageImportsExportsResolve matchKey matchObj packageURL isImports conditions =
      esmPackageTargetResolve packageURL target [] false isImports conditions := by
  unfold esmPackageImportsExportsResolve
  rw [hstar, hkey]
  rfl

theorem exports_key_hit (packageURL subpath : Str) (exports target : pjEntry)
    (conditions : Str → Bool) (hk : exports.kind = pjKind.pjObject)
    (hdot : exports.keysStartWithDot = true)
    (hstar : strings.HasSuffix subpath "*".toList = false)
    (hkey : exports.valueForKey subpath = some target) :
    esmPackageExportsResolve packageURL subpath exports conditions =
      if (esmPackageTargetResolve packageURL target [] false false conditions).2.1 ≠ pjStatusNull ∧
          (esmPackageTargetResolve packageURL target [] false false conditions).2.1 ≠
            pjStatusUndefined then
        esmPackageTargetResolve packageURL target [] false false conditions
      else ([], pjStatusPackagePathNotExported, { token := exports.firstToken }) := by
  unfold esmPackageExportsResolve
  dsimp only
  have hk1 : ¬ exports.kind = pjKind.pjInvalid := by rw [hk]; decide
  rw [if_neg hk1]
  by_cases hs : subpath = ".".toList
  · rw [if_pos hs]
    rw [hs] at hkey
    have hc1 : ¬ (exports.kind = pjKind.pjString ∨ exports.kind = pjKind.pjArray ∨
        (exports.kind = pjKind.pjObject ∧ (!exports.keysStartWithDot) = true)) := by
      rw [hk, hdot]; decide
    rw [if_neg hc1, if_pos hk, hkey]
    dsimp only
    by_cases hn : target.kind = pjKind.pjNull
    · have : ¬ target.kind ≠ pjKind.pjNull := fun h => h hn
      rw [if_neg this]
      cases target with
      | null ft =>
        rw [esmPackageTargetResolve]
        simp
      | string ft s => simp [pjEntry.kind] at hn
      | array ft a => simp [pjEntry.kind] at hn
      | object ft md ek => simp [pjEntry.kind] at hn
      | invalid ft => simp [pjEntry.kind] at hn
    · rw [if_pos hn]
  · rw [if_neg hs, if_pos ⟨hk, hdot⟩, valueForKey_hit subpath exports target packageURL false
      conditions hstar hkey]

/-- C8, as amended: an `invalid` root gives `invalidPackageConfiguration` in
`esmPackageExportsResolve`, and so does every imports root that is not an object in
`esmPackageImportsResolve`; an `invalid` node below the root is reported by
`esmPackageTargetResolve` as `invalidPackageTarget`: that is the status of
`esmPackageExportsResolve` when the node is the value of the subpath key that is hit
and of `esmPackageTargetResolve` when it is the value of the first applicable
condition, and an array takes it as a failed alternative and goes on with the
elements after it. -/
theorem C8_invalid_node_status (packageURL subpath : Str) (conditions : Str → Bool) :
    (∀ exports : pjEntry, exports.kind = pjKind.pjInvalid →
      (esmPackageExportsResolve packageURL subpath exports conditions).2.1 =
        pjStatusInvalidPackageConfiguration) ∧
    (∀ imports : pjEntry, imports.kind ≠ pjKind.pjObject →
      (esmPackageImportsResolve subpath imports conditions).2.1 =
        pjStatusInvalidPackageConfiguration) ∧
    (∀ (ft : Range) (pattern internal : Bool),
      esmPackageTargetResolve packageURL (.invalid ft) subpath pattern internal conditions =
        ([], pjStatusInvalidPackageTarget, { token := ft })) ∧
    (∀ (exports : pjEntry) (ft : Range), exports.kind = pjKind.pjObject →
      exports.keysStartWithDot = true → strings.HasSuffix subpath "*".toList = false →
      exports.valueForKey subpath = some (.invalid ft) →
      esmPackageExportsResolve packageURL subpath exports conditions =
        ([], pjStatusInvalidPackageTarget, { token := ft })) ∧
    (∀ (ft ft1 keyRange : Range) (key : Str) (rest ek : List pjMapEntry)
        (pattern internal : Bool),
      (key = "default".toList ∨ conditions key = true) →
      esmPackageTargetResolve packageURL (.object ft (.mk key keyRange (.invalid ft1) :: rest) ek)
          subpath pattern internal conditions =
        ([], pjStatusInvalidPackageTarget, { token := ft1 })) ∧
    (∀ (ft ft1 : Range) (rest : List pjEntry) (pattern internal : Bool),
      esmPackageTargetResolve packageURL (.array ft (.invalid ft1 :: rest)) subpath pattern
          internal conditions =
        esmPackageTargetResolveArray packageURL rest subpath pattern internal conditions
          pjStatusInvalidPackageTarget { token := ft1 }) := by
  refine ⟨?_, ?_, ?_, ?_, ?_, ?_⟩
  · intro exports hk
    unfold esmPackageExportsResolve
    simp [hk]
  · intro imports hk
    unfold esmPackageImportsResolve
    simp [hk]
  · intro ft pattern internal
    rw [esmPackageTargetResolve]
  · intro exports ft hk hdot hstar hkey
    rw [exports_key_hit packageURL subpath exports (.invalid ft) conditions hk hdot hstar hkey,
      esmPackageTargetResolve]
    simp
  · intro ft ft1 keyRange key rest ek pattern internal hcond
    have hc : (key = "default".toList || conditions key) = true := by
      rcases hcond with h | h
      · simp [h]
      · simp [h]
    rw [esmPackageTargetResolve, esmPackageTargetResolveObject, if_pos hc]
    simp [esmPackageTargetResolve, pjStatus.isUndefined]
  · intro ft ft1 rest pattern internal
    rw [esmPackageTargetResolve, esmPackageTargetResolveArray]
    simp [esmPackageTargetResolve]

theorem C8_invalid_node_status_witness :
    (esmPackageExportsResolve "/pkg".toList "./a".toList
        (visit exampleSource (.EObject 0 exampleMixed)).1 (conditionsOf [])).2.1 =
      pjStatusInvalidPackageConfiguration ∧
    (esmPackageImportsResolve "#a".toList (visit exampleSource (.EBoolean 0 true)).1
        (conditionsOf [])).2.1 = pjStatusInvalidPackageConfiguration ∧
    esmPackageExportsResolve "/pkg".toList "./a".toList
        (visit exampleSource (.EObject 0 [.mk 1 "./a".toList (.EBoolean 2 true)])).1
        (conditionsOf []) = ([], pjStatusInvalidPackageTarget, { token := ⟨2, 4⟩ }) ∧
    esmPackageTargetResolve "/pkg".toList
        (.object ⟨0, 1⟩ [.mk "default".toList ⟨1, 1⟩ (.invalid ⟨2, 4⟩)] []) [] false false
        (conditionsOf []) = ([], pjStatusInvalidPackageTarget, { token := ⟨2, 4⟩ }) :=
  ⟨(C8_invalid_node_status "/pkg".toList "./a".toList (conditionsOf [])).1 _ rfl,
    (C8_invalid_node_status "/pkg".toList "#a".toList (conditionsOf [])).2.1 _ (by decide),
    (C8_invalid_node_status "/pkg".toList "./a".toList (conditionsOf [])).2.2.2.1
      (visit exampleSource (.EObject 0 [.mk 1 "./a".toList (.EBoolean 2 true)])).1 ⟨2, 4⟩
      rfl rfl rfl rfl,
    (C8_invalid_node_status "/pkg".toList [] (conditionsOf [])).2.2.2.2.1 ⟨0, 1⟩ ⟨2, 4⟩ ⟨1, 1⟩
      "default".toList [] [] false false (Or.inl rfl)⟩

/-- C8 fails as stated: in the manifest `{"./a": true}` the value of "./a" is an
`invalid` node, and resolving "./a" reads it and returns `invalidPackageTarget`; in
`{"./a": [true, "./b.js"]}` the `invalid` element is read and skipped, and the
status is `exact`. -/
theorem C8_counterexample :
    (visit exampleSource (.EObject 0 [.mk 1 "./a".toList (.EBoolean 2 true)])).1.valueForKey
        "./a".toList = some (.invalid ⟨2, 4⟩) ∧
    (esmPackageExportsResolve "/pkg".toList "./a".toList
        (visit exampleSource (.EObject 0 [.mk 1 "./a".toList (.EBoolean 2 true)])).1
        (conditionsOf ["default".toList])).2.1 = pjStatusInvalidPackageTarget ∧
    esmPackageExportsResolve "/pkg".toList "./a".toList
        (visit exampleSource (.EObject 0 [.mk 1 "./a".toList
          (.EArray 2 [.EBoolean 3 true, .EString 4 "./b.js".toList])])).1
        (conditionsOf ["default".toList]) =
      ("/pkg/b.js".toList, pjStatusExact, { token := ⟨4, 1⟩ }) :=
  ⟨rfl, by decide, by decide⟩

/-! ### Post-conditions -/

/-- C10, as amended: for a status `exact` or `inexact` and a resolved string that
contains one of "%2f", "%2F", "%5c", "%5C", `esmHandlePostConditions` returns the
status `invalidModuleSpecifier`; for every other status it returns its three
arguments unchanged, whatever the resolved string contains. -/
theorem C10_percent_encoding_rejected (resolved : Str) (status : pjStatus) (debug : pjDebug) :
    ((status = pjStatusExact ∨ status = pjStatusInexact) →
      (strings.Contains resolved "%2f".toList = true ∨
        strings.Contains resolved "%2F".toList = true ∨
        strings.Contains resolved "%5c".toList = true ∨
        strings.Contains resolved "%5C".toList = true) →
      (esmHandlePostConditions resolved status debug).2.1 = pjStatusInvalidModuleSpecifier) ∧
    (status ≠ pjStatusExact → status ≠ pjStatusInexact →
      esmHandlePostConditions resolved status debug = (resolved, status, debug)) := by
  constructor
  · intro hst hcontains
    unfold esmHandlePostConditions
    have hguard : ¬ (status ≠ pjStatusExact ∧ status ≠ pjStatusInexact) := by
      rintro ⟨h1, h2⟩
      rcases hst with h | h
      · exact h1 h
      · exact h2 h
    rw [if_neg hguard]
    cases url.PathUnescape resolved with
    | none => rfl
    | some resolvedPath =>
      simp only
      generalize strings.Contains resolved "%2f".toList = a at *
      generalize strings.Contains resolved "%2F".toList = b at *
      generalize strings.Contains resolved "%5c".toList = c at *
      generalize strings.Contains resolved "%5C".toList = d at *
      cases a <;> cases b <;> cases c <;> cases d <;> simp at hcontains <;> simp
  · intro h1 h2
    unfold esmHandlePostConditions
    rw [if_pos ⟨h1, h2⟩]

theorem C10_percent_encoding_rejected_witness :
    (esmHandlePostConditions "/pkg/a%2Fb.js".toList pjStatusExact { token := ⟨2, 1⟩ }).2.1 =
      pjStatusInvalidModuleSpecifier ∧
    esmHandlePostConditions "pkg%2fy".toList pjStatusPackageResolve { token := ⟨2, 1⟩ } =
      ("pkg%2fy".toList, pjStatusPackageResolve, { token := ⟨2, 1⟩ }) :=
  ⟨(C10_percent_encoding_rejected "/pkg/a%2Fb.js".toList pjStatusExact { token := ⟨2, 1⟩ }).1
      (Or.inl rfl) (Or.inr (Or.inl (by decide))),
    (C10_percent_encoding_rejected "pkg%2fy".toList pjStatusPackageResolve
      { token := ⟨2, 1⟩ }).2 (by decide) (by decide)⟩

/-- C10 fails as stated: the imports manifest `{"#x": "pkg%2fy"}` resolves "#x" to
the string "pkg%2fy" with status `packageResolve`; that string contains "%2f", and
`esmHandlePostConditions` returns the status `packageResolve` for it. -/
theorem C10_counterexample :
    esmPackageImportsResolve "#x".toList
        (visit exampleSource (objectOfStrings [("#x", "pkg%2fy")])).1 (conditionsOf []) =
      ("pkg%2fy".toList, pjStatusPackageResolve, { token := ⟨2, 1⟩ }) ∧
    strings.Contains "pkg%2fy".toList "%2f".toList = true ∧
    (esmHandlePostConditions "pkg%2fy".toList pjStatusPackageResolve { token := ⟨2, 1⟩ }).2.1 =
      pjStatusPackageResolve := by
  decide

/-! ### Pattern keys -/

theorem exports_object_not_dot (packageURL subpath : Str) (exports : pjEntry)
    (conditions : Str → Bool) (hk : exports.kind = pjKind.pjObject)
    (hdot : exports.keysStartWithDot = true) (hs : subpath ≠ ".".toList) :
    esmPackageExportsResolve packageURL subpath exports conditions =
      if (esmPackageImportsExportsResolve subpath exports packageURL false conditions).2.1 ≠
            pjStatusNull ∧
          (esmPackageImportsExportsResolve subpath exports packageURL false conditions).2.1 ≠
            pjStatusUndefined then
        esmPackageImportsExportsResolve subpath exports packageURL false conditions
      else ([], pjStatusPackagePathNotExported, { token := exports.firstToken }) := by
  unfold esmPackageExportsResolve
  dsimp only
  have hk1 : ¬ exports.kind = pjKind.pjInvalid := by rw [hk]; decide
  rw [if_neg hk1, if_neg hs, if_pos ⟨hk, hdot⟩]

theorem exports_object_dot_none (packageURL : Str) (exports : pjEntry)
    (conditions : Str → Bool) (hk : exports.kind = pjKind.pjObject)
    (hdot : exports.keysStartWithDot = true)
    (hkey : exports.valueForKey ".".toList = none) :
    esmPackageExportsResolve packageURL ".".toList exports conditions =
      ([], pjStatusPackagePathNotExported, { token := exports.firstToken }) := by
  unfold esmPackageExportsResolve
  dsimp only
  have hk1 : ¬ exports.kind = pjKind.pjInvalid := by rw [hk]; decide
  have hc1 : ¬ (exports.kind = pjKind.pjString ∨ exports.kind = pjKind.pjArray ∨
      (exports.kind = pjKind.pjObject ∧ (!exports.keysStartWithDot) = true)) := by
    rw [hk, hdot]; decide
  rw [if_neg hk1, if_pos rfl, if_neg hc1, if_pos hk, hkey]
  dsimp only
  have : ¬ (pjEntry.null ⟨0, 0⟩).kind ≠ pjKind.pjNull := fun h => h rfl
  rw [if_neg this]

theorem no_key_hit (matchKey : Str) (matchObj : pjEntry) (packageURL : Str)
    (isImports : Bool) (conditions : Str → Bool)
    (hkey : strings.HasSuffix matchKey "*".toList = true ∨
      matchObj.valueForKey matchKey = none) :
    esmPackageImportsExportsResolve matchKey matchObj packageURL isImports conditions =
      esmPackageImportsExportsResolveLoop matchKey matchObj.firstToken packageURL isImports
        conditions matchObj.expansionKeys := by
  unfold esmPackageImportsExportsResolve
  rcases hkey with h | h
  · rw [h]
    rfl
  · rw [h]
    cases strings.HasSuffix matchKey "*".toList <;> rfl

theorem visit_single (source : Source) (loc keyLoc : Int) (key : Str) (value : Expr) :
    (visit source (.EObject loc [.mk keyLoc key value])).1 =
      .object ⟨loc, 1⟩ [.mk key (source.RangeOfString keyLoc) (visit source value).1]
        (if isExpansionKey key = true then
          [.mk key (source.RangeOfString keyLoc) (visit source value).1]
        else []) := by
  rw [visit_object_of_uniform source loc _ (by
    intro p hp q hq
    rw [List.mem_singleton] at hp hq
    rw [hp, hq])]
  have hkey : (entryOf source (.mk keyLoc key value)).key = key := rfl
  by_cases h : isExpansionKey key = true
  · rw [if_pos h]
    simp only [List.map_cons, List.map_nil, List.filter_cons, List.filter_nil, hkey, h, if_true]
    rfl
  · rw [if_neg h]
    simp only [List.map_cons, List.map_nil, List.filter_cons, List.filter_nil, hkey, h, if_false]
    rfl

theorem string_target_exact (packageURL : Str) (ft : Range) (target subpath : Str)
    (internal : Bool) (conditions : Str → Bool)
    (hdot : strings.HasPrefix target "./".toList = true)
    (htarget : ∀ seg ∈ (splitSegments target).tail, isInvalidSegment seg = false)
    (hsub : ∀ seg ∈ (splitSegments subpath).tail, isInvalidSegment seg = false) :
    esmPackageTargetResolve packageURL (.string ft target) subpath true internal conditions =
      (strings.ReplaceAll (path.Join packageURL target) '*' subpath, pjStatusExact,
        { token := ft }) := by
  have h1 : findInvalidSegment target = [] := by
    by_contra h
    obtain ⟨seg, hseg, hinv⟩ := (findInvalidSegment_ne_nil_iff target).1 h
    rw [htarget seg hseg] at hinv
    exact absurd hinv (by decide)
  have h2 : findInvalidSegment subpath = [] := by
    by_contra h
    obtain ⟨seg, hseg, hinv⟩ := (findInvalidSegment_ne_nil_iff subpath).1 h
    rw [hsub seg hseg] at hinv
    exact absurd hinv (by decide)
  rw [esmPackageTargetResolve]
  unfold esmPackageTargetResolveString
  rw [hdot]
  simp [h1, h2]

theorem startsWithDot_append (P rest : Str) (h : startsWithDot P = true) :
    startsWithDot (P ++ rest) = true := by
  unfold startsWithDot at *
  rw [strings.HasPrefix_iff] at *
  exact h.trans (List.prefix_append P rest)

theorem dot_append_ne (P m : Str) (h : startsWithDot P = true) (hm : m ≠ []) :
    P ++ m ≠ ".".toList := by
  unfold startsWithDot at h
  rw [strings.HasPrefix_iff] at h
  obtain ⟨t, ht⟩ := h
  intro heq
  have hlen := congrArg List.length heq
  have hlen2 := congrArg List.length ht
  simp only [List.length_append] at hlen hlen2
  have h1 : (".".toList).length = 1 := rfl
  have h2 : 0 < m.length := List.length_pos.2 hm
  omega

theorem pattern_entry_match (P m : Str) (keyRange : Range) (value : pjEntry) (hm : m ≠ []) :
    expansionMatches (pjMapEntry.mk (P ++ "*".toList) keyRange value).key (P ++ m) = true := by
  unfold expansionMatches
  have h1 : strings.HasSuffix (P ++ "*".toList) "*".toList = true :=
    (strings.HasSuffix_iff _ _).2 ⟨P, rfl⟩
  have h2 : (P ++ "*".toList).dropLast = P := by simp
  have h3 : strings.HasPrefix (P ++ m) P = true :=
    (strings.HasPrefix_iff _ _).2 (List.prefix_append P m)
  have h4 : P ++ m ≠ P := by
    intro h
    have := congrArg List.length h
    simp only [List.length_append] at this
    have h5 : 0 < m.length := List.length_pos.2 hm
    omega
  show (strings.HasSuffix (P ++ "*".toList) "/".toList &&
      strings.HasPrefix (P ++ m) (P ++ "*".toList) ||
    strings.HasSuffix (P ++ "*".toList) "*".toList &&
      strings.HasPrefix (P ++ m) (P ++ "*".toList).dropLast &&
      decide (P ++ m ≠ (P ++ "*".toList).dropLast)) = true
  rw [h1, h2, h3, decide_eq_true h4]
  simp

/-- C3, as amended: a pattern key is a key that ends in "*". For the one-entry
exports object with the key `P*` (`P` beginning with ".") and a string target `T` that
starts with "./" and has no invalid segment after its first one, every subpath
`P + m` with a non-empty `m` that has no invalid segment after its first one resolves
with status `exact` to the join of the package URL with `T`, in which every "*" is
then replaced by `m`. A key that does not end in "/" or "*", such as "./feat/*.js",
is an exact key only: in the one-entry object with such a key (beginning with "."),
every subpath other than the key itself gives `packagePathNotExported`. -/
theorem C3_pattern_key (source : Source) (loc keyLoc valueLoc : Int) (packageURL : Str)
    (conditions : Str → Bool) :
    (∀ P T m : Str, startsWithDot P = true → strings.HasPrefix T "./".toList = true →
      (∀ seg ∈ (splitSegments T).tail, isInvalidSegment seg = false) → m ≠ [] →
      (∀ seg ∈ (splitSegments m).tail, isInvalidSegment seg = false) →
      esmPackageExportsResolve packageURL (P ++ m)
          (visit source (.EObject loc [.mk keyLoc (P ++ "*".toList) (.EString valueLoc T)])).1
          conditions =
        (strings.ReplaceAll (path.Join packageURL T) '*' m, pjStatusExact,
          { token := source.RangeOfString valueLoc })) ∧
    (∀ (K : Str) (value : Expr) (subpath : Str), startsWithDot K = true →
      isExpansionKey K = false → subpath ≠ K →
      esmPackageExportsResolve packageURL subpath
          (visit source (.EObject loc [.mk keyLoc K value])).1 conditions =
        ([], pjStatusPackagePathNotExported, { token := ⟨loc, 1⟩ })) := by
  constructor
  · intro P T m hP hT hTseg hm hmseg
    have hexp : isExpansionKey (P ++ "*".toList) = true := by
      unfold isExpansionKey
      have : strings.HasSuffix (P ++ "*".toList) "*".toList = true :=
        (strings.HasSuffix_iff _ _).2 ⟨P, rfl⟩
      rw [this]
      simp
    have hvisit : (visit source (.EString valueLoc T)).1 =
        .string (source.RangeOfString valueLoc) T := by rw [visit]
    rw [visit_single, if_pos hexp, hvisit]
    generalize hx : pjMapEntry.mk (P ++ "*".toList) (source.RangeOfString keyLoc)
      (.string (source.RangeOfString valueLoc) T) = x
    have hxkey : x.key = P ++ "*".toList := by rw [← hx]; rfl
    have hxval : x.value = .string (source.RangeOfString valueLoc) T := by rw [← hx]; rfl
    have hkd : (pjEntry.object ⟨loc, 1⟩ [x] [x]).keysStartWithDot = true := by
      show strings.HasPrefix x.key ".".toList = true
      rw [hxkey]
      exact startsWithDot_append P _ hP
    have hstarkey : strings.HasSuffix x.key "*".toList = true := by
      rw [hxkey]
      exact (strings.HasSuffix_iff _ _).2 ⟨P, rfl⟩
    have hnokey : strings.HasSuffix (P ++ m) "*".toList = true ∨
        (pjEntry.object ⟨loc, 1⟩ [x] [x]).valueForKey (P ++ m) = none := by
      by_cases hstar : strings.HasSuffix (P ++ m) "*".toList = true
      · exact Or.inl hstar
      · right
        have hne : ¬ x.key = P ++ m := by
          intro heq
          apply hstar
          rw [← heq]
          exact hstarkey
        show pjEntry.valueForKeyLoop (P ++ m) [x] = none
        rw [pjEntry.valueForKeyLoop, if_neg hne]
        rfl
    have hres : esmPackageImportsExportsResolve (P ++ m) (pjEntry.object ⟨loc, 1⟩ [x] [x])
        packageURL false conditions =
        (strings.ReplaceAll (path.Join packageURL T) '*' m, pjStatusExact,
          { token := source.RangeOfString valueLoc }) := by
      rw [no_key_hit _ _ _ _ _ hnokey]
      show esmPackageImportsExportsResolveLoop (P ++ m) _ packageURL false conditions [x] = _
      rw [loop_step _ _ _ _ _ x _ (by rw [hxkey]; exact hexp)]
      have hmatch : expansionMatches x.key (P ++ m) = true := by
        rw [← hx]
        exact pattern_entry_match P m _ _ hm
      rw [if_pos hmatch]
      unfold resolveAgainst
      rw [if_pos hstarkey, hxval]
      have h2 : List.drop (x.key.length - 1) (P ++ m) = m := by
        rw [hxkey]
        simp
      rw [h2]
      exact string_target_exact packageURL _ T m false conditions hT hTseg hmseg
    rw [exports_object_not_dot _ _ (pjEntry.object ⟨loc, 1⟩ [x] [x]) _ rfl hkd
      (dot_append_ne P m hP hm), hres]
    simp
  · intro K value subpath hK hexp hne
    rw [visit_single, if_neg (by rw [hexp]; decide)]
    generalize hx : pjMapEntry.mk K (source.RangeOfString keyLoc) (visit source value).1 = x
    have hxkey : x.key = K := by rw [← hx]; rfl
    have hkd : (pjEntry.object ⟨loc, 1⟩ [x] []).keysStartWithDot = true := by
      show strings.HasPrefix x.key ".".toList = true
      rw [hxkey]
      exact hK
    have hnokey : (pjEntry.object ⟨loc, 1⟩ [x] []).valueForKey subpath = none := by
      show pjEntry.valueForKeyLoop subpath [x] = none
      rw [pjEntry.valueForKeyLoop, if_neg (by rw [hxkey]; exact Ne.symm hne)]
      rfl
    by_cases hs : subpath = ".".toList
    · rw [hs] at hnokey ⊢
      rw [exports_object_dot_none _ (pjEntry.object ⟨loc, 1⟩ [x] []) _ rfl hkd hnokey]
      rfl
    · rw [exports_object_not_dot _ _ (pjEntry.object ⟨loc, 1⟩ [x] []) _ rfl hkd hs,
        no_key_hit _ _ _ _ _ (Or.inr hnokey)]
      rfl

theorem C3_pattern_key_witness :
    esmPackageExportsResolve "/pkg".toList "./feat/x".toList
        (visit exampleSource (objectOfStrings [("./feat/*", "./src/feat/*.js")])).1
        (conditionsOf ["default".toList]) =
      ("/pkg/src/feat/x.js".toList, pjStatusExact, { token := ⟨2, 1⟩ }) ∧
    esmPackageExportsResolve "/pkg".toList "./feat/x.js".toList
        (visit exampleSource (objectOfStrings [("./feat/*.js", "./src/feat/*.js")])).1
        (conditionsOf ["default".toList]) =
      ([], pjStatusPackagePathNotExported, { token := ⟨0, 1⟩ }) :=
  ⟨((C3_pattern_key exampleSource 0 1 2 "/pkg".toList (conditionsOf ["default".toList])).1
      "./feat/".toList "./src/feat/*.js".toList "x".toList (by decide) (by decide) (by decide)
      (by decide) (by decide)).trans (by decide),
    (C3_pattern_key exampleSource 0 1 2 "/pkg".toList (conditionsOf ["default".toList])).2
      "./feat/*.js".toList (.EString 2 "./src/feat/*.js".toList) "./feat/x.js".toList
      (by decide) (by decide) (by decide)⟩

/-- C3 fails as stated: the key "./feat/*.js" does not end in "/" or "*", so it is not
an expansion key, and the subpath "./feat/x.js" of the manifest
`{"./feat/*.js": "./src/feat/*.js"}` is not exported. -/
theorem C3_counterexample :
    (visit exampleSource (objectOfStrings [("./feat/*.js", "./src/feat/*.js")])).1.expansionKeys
        = [] ∧
    esmPackageExportsResolve "/pkg".toList "./feat/x.js".toList
        (visit exampleSource (objectOfStrings [("./feat/*.js", "./src/feat/*.js")])).1
        (conditionsOf ["default".toList]) =
      ([], pjStatusPackagePathNotExported, { token := ⟨0, 1⟩ }) :=
  ⟨rfl, by decide⟩

/-! ### Round trip through the reverse resolver -/

theorem loop_not_exact (matchKey : Str) (ft : Range) (packageURL : Str) (isImports : Bool)
    (conditions : Str → Bool) :
    ∀ l : List pjMapEntry, (∀ x ∈ l, strings.HasSuffix x.key "*".toList = false) →
      (esmPackageImportsExportsResolveLoop matchKey ft packageURL isImports conditions l).2.1 ≠
        pjStatusExact
  | [], _ => by
    rw [esmPackageImportsExportsResolveLoop]
    show pjStatusNull ≠ pjStatusExact
    decide
  | x :: rest, h => by
    rw [esmPackageImportsExportsResolveLoop]
    have hx : ¬ (strings.HasSuffix x.key "*".toList = true ∧
        strings.HasPrefix matchKey (x.key.take (x.key.length - 1)) = true ∧
        matchKey ≠ x.key.take (x.key.length - 1)) := by
      rintro ⟨h1, -⟩
      rw [h x (List.mem_cons_self _ _)] at h1
      exact absurd h1 (by decide)
    rw [if_neg hx]
    dsimp only
    split
    · split
      · show pjStatusInexact ≠ pjStatusExact
        decide
      · assumption
    · exact loop_not_exact matchKey ft packageURL isImports conditions rest
        (fun y hy => h y (List.mem_cons_of_mem _ hy))

theorem valueForKeyLoop_mem (key : Str) : ∀ (l : List pjMapEntry) (v : pjEntry),
    pjEntry.valueForKeyLoop key l = some v → ∃ x ∈ l, x.key = key ∧ x.value = v
  | [], v, h => by simp [pjEntry.valueForKeyLoop] at h
  | x :: rest, v, h => by
    rw [pjEntry.valueForKeyLoop] at h
    by_cases hx : x.key = key
    · rw [if_pos hx] at h
      exact ⟨x, List.mem_cons_self _ _, hx, Option.some.inj h⟩
    · rw [if_neg hx] at h
      obtain ⟨y, hy, hk, hv⟩ := valueForKeyLoop_mem key rest v h
      exact ⟨y, List.mem_cons_of_mem _ hy, hk, hv⟩

theorem valueForKeyLoop_of_nodup : ∀ (l : List pjMapEntry) (y : pjMapEntry),
    (l.map pjMapEntry.key).Nodup → y ∈ l → pjEntry.valueForKeyLoop y.key l = some y.value
  | [], y, _, hy => by simp at hy
  | x :: rest, y, hnd, hy => by
    rw [pjEntry.valueForKeyLoop]
    rw [List.map_cons, List.nodup_cons] at hnd
    rcases List.mem_cons.1 hy with rfl | hy
    · rw [if_pos rfl]
    · have hne : ¬ x.key = y.key := by
        intro heq
        apply hnd.1
        rw [heq]
        exact List.mem_map_of_mem _ hy
      rw [if_neg hne]
      exact valueForKeyLoop_of_nodup rest y hnd.2 hy

theorem reverse_exact_loop (query : Str) (conditions : Str → Bool) :
    ∀ l : List pjMapEntry, (∀ x ∈ l, x.value.kind = pjKind.pjString) →
      (∃ x ∈ l, x.value.strData = query) →
      ∃ y ∈ l, y.value.strData = query ∧
        ∃ tok, esmPackageImportsExportsReverseResolveExact query conditions l =
          (true, y.key, tok)
  | [], _, h => by
    obtain ⟨x, hx, -⟩ := h
    simp at hx
  | x :: rest, hstr, hex => by
    rw [esmPackageImportsExportsReverseResolveExact]
    have hxs := hstr x (List.mem_cons_self _ _)
    cases hv : x.value with
    | string ft sd =>
      rw [esmPackageTargetReverseResolve]
      unfold esmPackageTargetReverseResolveString
      by_cases hq : query = sd
      · refine ⟨x, List.mem_cons_self _ _, ?_, ft, ?_⟩
        · rw [hv, hq]; rfl
        · simp [hq]
      · obtain ⟨z, hz, hzq⟩ := hex
        have hzr : z ∈ rest := by
          rcases List.mem_cons.1 hz with rfl | h
          · rw [hv] at hzq
            exact absurd hzq.symm hq
          · exact h
        obtain ⟨y, hy, hyq, tok, hres⟩ := reverse_exact_loop query conditions rest
          (fun w hw => hstr w (List.mem_cons_of_mem _ hw)) ⟨z, hzr, hzq⟩
        refine ⟨y, List.mem_cons_of_mem _ hy, hyq, tok, ?_⟩
        simp [hq, hres]
    | null ft => rw [hv] at hxs; simp [pjEntry.kind] at hxs
    | array ft a => rw [hv] at hxs; simp [pjEntry.kind] at hxs
    | object ft md ek => rw [hv] at hxs; simp [pjEntry.kind] at hxs
    | invalid ft => rw [hv] at hxs; simp [pjEntry.kind] at hxs

theorem string_target_token (packageURL : Str) (ft ft1 : Range) (target subpath : Str)
    (pattern internal : Bool) :
    (esmPackageTargetResolveString packageURL ft target subpath pattern internal).1 =
      (esmPackageTargetResolveString packageURL ft1 target subpath pattern internal).1 ∧
    (esmPackageTargetResolveString packageURL ft target subpath pattern internal).2.1 =
      (esmPackageTargetResolveString packageURL ft1 target subpath pattern internal).2.1 := by
  unfold esmPackageTargetResolveString
  constructor <;> (repeat' split) <;> rfl

theorem HasSuffix_cons (c d : Char) (p : Str) (h : strings.HasSuffix p [d] = false) (hcd : c ≠ d) :
    strings.HasSuffix (c :: p) [d] = false := by
  by_contra hne
  have ht : strings.HasSuffix (c :: p) [d] = true := by simpa using hne
  rw [strings.HasSuffix_iff] at ht
  obtain ⟨t, ht⟩ := ht
  cases p with
  | nil =>
    cases t with
    | nil => simp at ht; exact hcd ht.symm
    | cons a t => simp at ht
  | cons b p =>
    cases t with
    | nil => simp at ht
    | cons a t =>
      simp only [List.cons_append, List.cons.injEq] at ht
      have : strings.HasSuffix (b :: p) [d] = true :=
        (strings.HasSuffix_iff _ _).2 ⟨t, ht.2⟩
      rw [h] at this
      exact absurd this (by decide)

theorem forward_exact_key_hit (ft : Range) (md ek : List pjMapEntry)
    (hdot : (pjEntry.object ft md ek).keysStartWithDot = true)
    (hek : ∀ x ∈ ek, strings.HasSuffix x.key "*".toList = false)
    (conditions : Str → Bool) (packageURL s : Str)
    (hexact : (esmPackageExportsResolve packageURL s (.object ft md ek) conditions).2.1 =
      pjStatusExact) :
    strings.HasSuffix s "*".toList = false ∧
    ∃ target, (pjEntry.object ft md ek).valueForKey s = some target ∧
      esmPackageExportsResolve packageURL s (.object ft md ek) conditions =
        esmPackageTargetResolve packageURL target [] false false conditions := by
  by_cases hhit : strings.HasSuffix s "*".toList = false ∧
      ∃ target, (pjEntry.object ft md ek).valueForKey s = some target
  · obtain ⟨hstar, target, hkey⟩ := hhit
    refine ⟨hstar, target, hkey, ?_⟩
    have hf := exports_key_hit packageURL s (.object ft md ek) target conditions rfl hdot
      hstar hkey
    rw [hf] at hexact ⊢
    split
    · rfl
    · rename_i hno
      rw [if_neg hno] at hexact
      exact absurd hexact (show pjStatusPackagePathNotExported ≠ pjStatusExact by decide)
  · exfalso
    have hnokey : strings.HasSuffix s "*".toList = true ∨
        (pjEntry.object ft md ek).valueForKey s = none := by
      by_cases hstar : strings.HasSuffix s "*".toList = true
      · exact Or.inl hstar
      · right
        cases hv : (pjEntry.object ft md ek).valueForKey s with
        | none => rfl
        | some target =>
          exact absurd ⟨by simpa using hstar, target, hv⟩ hhit
    by_cases hs : s = ".".toList
    · subst hs
      have hnone : (pjEntry.object ft md ek).valueForKey ".".toList = none := by
        rcases hnokey with h | h
        · exact absurd h (by decide)
        · exact h
      rw [exports_object_dot_none _ (pjEntry.object ft md ek) _ rfl hdot hnone] at hexact
      exact absurd hexact (show pjStatusPackagePathNotExported ≠ pjStatusExact by decide)
    · rw [exports_object_not_dot _ _ (pjEntry.object ft md ek) _ rfl hdot hs,
        no_key_hit _ _ _ _ _ hnokey] at hexact
      have hloop := loop_not_exact s (pjEntry.object ft md ek).firstToken packageURL false
        conditions (pjEntry.object ft md ek).expansionKeys hek
      split at hexact
      · exact hloop hexact
      · exact absurd hexact (show pjStatusPackagePathNotExported ≠ pjStatusExact by decide)

theorem round_trip_object (ft : Range) (md ek : List pjMapEntry)
    (hdot : (pjEntry.object ft md ek).keysStartWithDot = true)
    (hek : ∀ x ∈ ek, x ∈ md)
    (hstrings : ∀ x ∈ md, x.value.kind = pjKind.pjString)
    (hdistinct : (md.map pjMapEntry.key).Nodup)
    (hnostar : ∀ x ∈ md, strings.HasSuffix x.key "*".toList = false)
    (conditions : Str → Bool) (s p : Str)
    (hpath : (esmPackageExportsResolve "/".toList s (.object ft md ek) conditions).1 = p)
    (hexact : (esmPackageExportsResolve "/".toList s (.object ft md ek) conditions).2.1 =
      pjStatusExact)
    (hform : ∀ target, (pjEntry.object ft md ek).valueForKey s = some target →
      target.strData = '.' :: p)
    (hpstar : strings.HasSuffix p "*".toList = false) :
    ∃ s1 tok, esmPackageExportsReverseResolve ('.' :: p) (.object ft md ek) conditions =
        (true, s1, tok) ∧
      (esmPackageExportsResolve "/".toList s1 (.object ft md ek) conditions).1 = p ∧
      (esmPackageExportsResolve "/".toList s1 (.object ft md ek) conditions).2.1 =
        pjStatusExact := by
  obtain ⟨-, target, hkey, hfwd⟩ := forward_exact_key_hit ft md ek hdot
    (fun x hx => hnostar x (hek x hx)) conditions "/".toList s hexact
  obtain ⟨x, hx, -, hxv⟩ := valueForKeyLoop_mem s md target hkey
  have htq := hform target hkey
  have hq : strings.HasSuffix ('.' :: p) "*".toList = false :=
    HasSuffix_cons '.' '*' p hpstar (by decide)
  -- the reverse resolver finds the first entry whose target is the query
  obtain ⟨y, hy, hyq, tok, hrev⟩ := reverse_exact_loop ('.' :: p) conditions md hstrings
    ⟨x, hx, by rw [hxv]; exact htq⟩
  refine ⟨y.key, tok, ?_, ?_⟩
  · unfold esmPackageExportsReverseResolve
    rw [if_pos ⟨rfl, hdot⟩]
    unfold esmPackageImportsExportsReverseResolve
    rw [hq]
    simp [pjEntry.mapData, hrev]
  · -- forward resolution of the key that was found hits that entry
    have hykey : (pjEntry.object ft md ek).valueForKey y.key = some y.value :=
      valueForKeyLoop_of_nodup md y hdistinct hy
    have hf := exports_key_hit "/".toList y.key (.object ft md ek) y.value conditions rfl hdot
      (hnostar y hy) hykey
    -- both targets are the same string
    have hts : ∃ ft1, target = .string ft1 ('.' :: p) := by
      have hk := hstrings x hx
      rw [hxv] at hk
      cases target with
      | string ft1 sd => exact ⟨ft1, by rw [show sd = '.' :: p from htq]⟩
      | null ft1 => simp [pjEntry.kind] at hk
      | array ft1 a => simp [pjEntry.kind] at hk
      | object ft1 a b => simp [pjEntry.kind] at hk
      | invalid ft1 => simp [pjEntry.kind] at hk
    have hys : ∃ ft2, y.value = .string ft2 ('.' :: p) := by
      have hk := hstrings y hy
      cases hv : y.value with
      | string ft2 sd => rw [hv] at hyq; exact ⟨ft2, by rw [show sd = '.' :: p from hyq]⟩
      | null ft2 => rw [hv] at hk; simp [pjEntry.kind] at hk
      | array ft2 a => rw [hv] at hk; simp [pjEntry.kind] at hk
      | object ft2 a b => rw [hv] at hk; simp [pjEntry.kind] at hk
      | invalid ft2 => rw [hv] at hk; simp [pjEntry.kind] at hk
    obtain ⟨ft1, rfl⟩ := hts
    obtain ⟨ft2, hyv⟩ := hys
    rw [hfwd, esmPackageTargetResolve] at hpath hexact
    obtain ⟨h1, h2⟩ := string_target_token "/".toList ft2 ft1 ('.' :: p) [] false false
    have hr1 : (esmPackageTargetResolve "/".toList y.value [] false false conditions).1 = p := by
      rw [hyv, esmPackageTargetResolve, h1, hpath]
    have hr2 : (esmPackageTargetResolve "/".toList y.value [] false false conditions).2.1 =
        pjStatusExact := by
      rw [hyv, esmPackageTargetResolve, h2, hexact]
    have hok : (esmPackageTargetResolve "/".toList y.value [] false false conditions).2.1 ≠
          pjStatusNull ∧
        (esmPackageTargetResolve "/".toList y.value [] false false conditions).2.1 ≠
          pjStatusUndefined := by
      rw [hr2]
      decide
    rw [hf, if_pos hok]
    exact ⟨hr1, hr2⟩

/-- C2, as amended: take a subpath-form exports object from the parser whose values
are all string targets and whose keys are pairwise distinct and do not end in "*". If
`esmPackageExportsResolve` with the package URL "/" resolves `s` to the path `p`
with status `exact`, the target of the key `s` is written in resolved form (it is the
string "." + `p`) and `p` does not end in "*", then
`esmPackageExportsReverseResolve` of "." + `p` under the same conditions succeeds with
some subpath `s1`, and `esmPackageExportsResolve` of `s1` again yields `p` with status
`exact`. -/
theorem C2_round_trip (source : Source) (json : Expr) (m : pjMap)
    (hparse : (parseImportsExportsMap source json).1 = some m)
    (hkind : m.root.kind = pjKind.pjObject) (hdot : m.root.keysStartWithDot = true)
    (hstrings : ∀ x ∈ m.root.mapData, x.value.kind = pjKind.pjString)
    (hdistinct : (m.root.mapData.map pjMapEntry.key).Nodup)
    (hnostar : ∀ x ∈ m.root.mapData, strings.HasSuffix x.key "*".toList = false)
    (conditions : Str → Bool) (s p : Str)
    (hpath : (esmPackageExportsResolve "/".toList s m.root conditions).1 = p)
    (hexact : (esmPackageExportsResolve "/".toList s m.root conditions).2.1 = pjStatusExact)
    (hform : (m.root.valueForKey s).map pjEntry.strData = some (".".toList ++ p))
    (hpstar : strings.HasSuffix p "*".toList = false) :
    ∃ s1 tok, esmPackageExportsReverseResolve (".".toList ++ p) m.root conditions =
        (true, s1, tok) ∧
      (esmPackageExportsResolve "/".toList s1 m.root conditions).1 = p ∧
      (esmPackageExportsResolve "/".toList s1 m.root conditions).2.1 = pjStatusExact := by
  have hroot := parse_root source json m hparse
  cases hr : m.root with
  | object ft md ek =>
    rw [hr] at hdot hstrings hdistinct hnostar hpath hexact hform hroot
    obtain ⟨loc, props, rfl⟩ := visit_kind_object source json ft md ek hroot.symm
    obtain ⟨-, -, hek, -⟩ := visit_object source loc props ft md ek hroot.symm
    have hsub : ∀ x ∈ ek, x ∈ md := by
      intro x hx
      rw [hek] at hx
      exact List.mem_of_mem_filter ((sort.Stable_perm _ _).subset hx)
    refine round_trip_object ft md ek hdot hsub hstrings hdistinct hnostar conditions s p hpath
      hexact ?_ hpstar
    intro target htarget
    rw [htarget] at hform
    exact Option.some.inj hform
  | null ft => rw [hr] at hkind; simp [pjEntry.kind] at hkind
  | string ft sd => rw [hr] at hkind; simp [pjEntry.kind] at hkind
  | array ft a => rw [hr] at hkind; simp [pjEntry.kind] at hkind
  | invalid ft => rw [hr] at hkind; simp [pjEntry.kind] at hkind

theorem C2_round_trip_witness :
    ∃ s1 tok, esmPackageExportsReverseResolve (".".toList ++ "/src/feature.js".toList)
        (visit exampleSource exampleFeature).1 (conditionsOf ["default".toList]) =
        (true, s1, tok) ∧
      (esmPackageExportsResolve "/".toList s1 (visit exampleSource exampleFeature).1
        (conditionsOf ["default".toList])).1 = "/src/feature.js".toList ∧
      (esmPackageExportsResolve "/".toList s1 (visit exampleSource exampleFeature).1
        (conditionsOf ["default".toList])).2.1 = pjStatusExact :=
  C2_round_trip exampleSource exampleFeature ⟨(visit exampleSource exampleFeature).1⟩ rfl rfl
    rfl (by decide) (by decide) (by decide) (conditionsOf ["default".toList])
    "./feature".toList "/src/feature.js".toList (by decide) (by decide) (by decide) (by decide)

/-- C2 fails as stated: the manifest `{"./a": "./b//c"}` is in subpath form and
resolves "./a" to the path "/b/c" with status `exact`, and the reverse resolution of
"./b/c" does not succeed, because the reverse resolver compares the query with the
target "./b//c" as it is written. -/
theorem C2_counterexample :
    (visit exampleSource exampleUnclean).1.kind = pjKind.pjObject ∧
    (visit exampleSource exampleUnclean).1.keysStartWithDot = true ∧
    esmPackageExportsResolve "/".toList "./a".toList (visit exampleSource exampleUnclean).1
        (conditionsOf ["default".toList]) =
      ("/b/c".toList, pjStatusExact, { token := ⟨2, 1⟩ }) ∧
    esmPackageExportsReverseResolve (".".toList ++ "/b/c".toList)
        (visit exampleSource exampleUnclean).1 (conditionsOf ["default".toList]) =
      (false, [], ⟨0, 0⟩) := by
  decide

/-- The restrictions of the amended round-trip law are needed. With a condition
object, the key that the reverse resolver finds ("./x", through "default") resolves
forward to another path (through "import"); with a repeated key it resolves forward
through the first entry of that key; with pattern keys the reverse resolver returns
"./f*gx" (prefix mode on the first expansion key), which resolves to "/src"; and a
path that ends in "*" is not searched in exact mode at all. -/
theorem round_trip_restrictions :
    (esmPackageExportsResolve "/".toList "./y".toList (visit exampleSource exampleConditional).1
        (conditionsOf ["import".toList]) =
        ("/t.js".toList, pjStatusExact, { token := ⟨8, 1⟩ }) ∧
      esmPackageExportsReverseResolve "./t.js".toList (visit exampleSource exampleConditional).1
        (conditionsOf ["import".toList]) = (true, "./x".toList, ⟨6, 1⟩) ∧
      esmPackageExportsResolve "/".toList "./x".toList (visit exampleSource exampleConditional).1
        (conditionsOf ["import".toList]) =
        ("/other.js".toList, pjStatusExact, { token := ⟨4, 1⟩ })) ∧
    (esmPackageExportsResolve "/".toList "./y".toList (visit exampleSource exampleRepeatedKey).1
        (conditionsOf []) = ("/t.js".toList, pjStatusExact, { token := ⟨6, 1⟩ }) ∧
      esmPackageExportsReverseResolve "./t.js".toList (visit exampleSource exampleRepeatedKey).1
        (conditionsOf []) = (true, "./x".toList, ⟨4, 1⟩) ∧
      esmPackageExportsResolve "/".toList "./x".toList (visit exampleSource exampleRepeatedKey).1
        (conditionsOf []) = ("/a.js".toList, pjStatusExact, { token := ⟨2, 1⟩ })) ∧
    (esmPackageExportsResolve "/".toList "./gx".toList (visit exampleSource examplePatterns).1
        (conditionsOf []) = ("/src/gx".toList, pjStatusExact, { token := ⟨4, 1⟩ }) ∧
      esmPackageExportsReverseResolve "./src/gx".toList (visit exampleSource examplePatterns).1
        (conditionsOf []) = (true, "./f*gx".toList, ⟨2, 1⟩) ∧
      esmPackageExportsResolve "/".toList "./f*gx".toList (visit exampleSource examplePatterns).1
        (conditionsOf []) = ("/src".toList, pjStatusExact, { token := ⟨2, 1⟩ })) ∧
    (esmPackageExportsResolve "/".toList "./a".toList (visit exampleSource exampleStarTarget).1
        (conditionsOf []) = ("/b*".toList, pjStatusExact, { token := ⟨2, 1⟩ }) ∧
      esmPackageExportsReverseResolve "./b*".toList (visit exampleSource exampleStarTarget).1
        (conditionsOf []) = (false, [], ⟨0, 0⟩)) := by
  decide

/-! ### Condition objects -/

theorem objectLoop_first (packageURL subpath : Str) (pattern internal : Bool)
    (conditions : Str → Bool) (x : pjMapEntry) (post : List pjMapEntry)
    (hx : keyApplies conditions x.key = true)
    (hres : (esmPackageTargetResolve packageURL x.value subpath pattern internal
      conditions).2.1.isUndefined = false) :
    ∀ (pre : List pjMapEntry) (didFind : Bool) (last : pjMapEntry),
      (∀ y ∈ pre, keyApplies conditions y.key = true →
        (esmPackageTargetResolve packageURL y.value subpath pattern internal
          conditions).2.1.isUndefined = true) →
      esmPackageTargetResolveObject packageURL (pre ++ x :: post) subpath pattern internal
          conditions didFind last =
        .inl (esmPackageTargetResolve packageURL x.value subpath pattern internal conditions)
  | [], didFind, last, _ => by
    cases x with
    | mk key keyRange value =>
      rw [List.nil_append, esmPackageTargetResolveObject]
      have hx1 : (key = "default".toList || conditions key) = true := hx
      rw [if_pos hx1]
      have hres1 : (esmPackageTargetResolve packageURL value subpath pattern internal
          conditions).2.1.isUndefined = false := hres
      simp only [hres1, Bool.false_eq_true, if_false]
      rfl
  | y :: pre, didFind, last, hpre => by
    cases y with
    | mk key keyRange value =>
      rw [List.cons_append, esmPackageTargetResolveObject]
      have ih := objectLoop_first packageURL subpath pattern internal conditions x post hx hres
        pre
      have hpre1 : ∀ z ∈ pre, keyApplies conditions z.key = true →
          (esmPackageTargetResolve packageURL z.value subpath pattern internal
            conditions).2.1.isUndefined = true :=
        fun z hz => hpre z (List.mem_cons_of_mem _ hz)
      by_cases hk : (key = "default".toList || conditions key) = true
      · rw [if_pos hk]
        have hu : (esmPackageTargetResolve packageURL value subpath pattern internal
            conditions).2.1.isUndefined = true :=
          hpre (.mk key keyRange value) (List.mem_cons_self _ _) hk
        simp only [hu, if_true]
        exact ih _ _ hpre1
      · rw [if_neg hk]
        exact ih _ _ hpre1

theorem objectLoop_none (packageURL subpath : Str) (pattern internal : Bool)
    (conditions : Str → Bool) :
    ∀ (md : List pjMapEntry) (didFind : Bool) (last : pjMapEntry),
      (∀ y ∈ md, keyApplies conditions y.key = true →
        (esmPackageTargetResolve packageURL y.value subpath pattern internal
          conditions).2.1.isUndefined = true) →
      esmPackageTargetResolveObject packageURL md subpath pattern internal conditions
          didFind last =
        .inr (match lastApplied conditions md with
          | some e => (true, e)
          | none => (didFind, last))
  | [], didFind, last, _ => by
    rw [esmPackageTargetResolveObject]
    rfl
  | y :: rest, didFind, last, h => by
    cases y with
    | mk key keyRange value =>
      rw [esmPackageTargetResolveObject, lastApplied]
      have hrest : ∀ z ∈ rest, keyApplies conditions z.key = true →
          (esmPackageTargetResolve packageURL z.value subpath pattern internal
            conditions).2.1.isUndefined = true :=
        fun z hz => h z (List.mem_cons_of_mem _ hz)
      have ih := objectLoop_none packageURL subpath pattern internal conditions rest
      by_cases hk : (key = "default".toList || conditions key) = true
      · rw [if_pos hk]
        have hu : (esmPackageTargetResolve packageURL value subpath pattern internal
            conditions).2.1.isUndefined = true :=
          h (.mk key keyRange value) (List.mem_cons_self _ _) hk
        simp only [hu, if_true]
        rw [ih _ _ hrest]
        have hk1 : keyApplies conditions (pjMapEntry.mk key keyRange value).key = true := hk
        rw [if_pos hk1]
        cases lastApplied conditions rest <;> rfl
      · rw [if_neg hk, ih _ _ hrest]
        have hk1 : ¬ keyApplies conditions (pjMapEntry.mk key keyRange value).key = true := hk
        rw [if_neg hk1]
        cases lastApplied conditions rest <;> rfl

theorem object_no_match (packageURL subpath : Str) (pattern internal : Bool)
    (conditions : Str → Bool) (target : pjEntry) (hform : isConditionForm target = true)
    (hnone : ∀ y ∈ target.mapData, keyApplies conditions y.key = true →
      (esmPackageTargetResolve packageURL y.value subpath pattern internal
        conditions).2.1.isUndefined = true) :
    esmPackageTargetResolve packageURL target subpath pattern internal conditions =
      ([], pjStatusUndefinedNoConditionsMatch,
        { token := (diagnosticTarget conditions target).firstToken,
          unmatchedConditions := keysOf (diagnosticTarget conditions target).mapData }) := by
  cases target with
  | object ft md ek =>
    have hform1 : (decide (md.length > 0) &&
        !(pjEntry.object ft md ek).keysStartWithDot) = true := by
      unfold isConditionForm at hform
      simpa [pjEntry.kind, pjEntry.mapData] using hform
    rw [esmPackageTargetResolve, objectLoop_none packageURL subpath pattern internal conditions
      md false _ hnone]
    cases hl : lastApplied conditions md with
    | none =>
      have hd : diagnosticTarget conditions (.object ft md ek) = .object ft md ek := by
        unfold diagnosticTarget
        show (match lastApplied conditions md with
          | some e => if isConditionForm e.value = true then e.value else .object ft md ek
          | none => .object ft md ek) = _
        rw [hl]
      rw [hd]
      simp only [hform1, if_true, Bool.false_and, Bool.false_eq_true, if_false]
    | some e =>
      have hd : diagnosticTarget conditions (.object ft md ek) =
          if isConditionForm e.value = true then e.value else .object ft md ek := by
        unfold diagnosticTarget
        show (match lastApplied conditions md with
          | some e => if isConditionForm e.value = true then e.value else .object ft md ek
          | none => .object ft md ek) = _
        rw [hl]
      rw [hd]
      simp only [hform1, if_true, Bool.true_and]
      by_cases he : isConditionForm e.value = true
      · have he1 : (decide (e.value.kind = pjKind.pjObject) &&
            decide (e.value.mapData.length > 0) && !e.value.keysStartWithDot) = true := he
        rw [if_pos he, if_pos he1]
      · have he1 : ¬ (decide (e.value.kind = pjKind.pjObject) &&
            decide (e.value.mapData.length > 0) && !e.value.keysStartWithDot) = true := he
        rw [if_neg he, if_neg he1]
  | null ft => simp [isConditionForm, pjEntry.kind] at hform
  | string ft s => simp [isConditionForm, pjEntry.kind] at hform
  | array ft a => simp [isConditionForm, pjEntry.kind] at hform
  | invalid ft => simp [isConditionForm, pjEntry.kind] at hform

theorem lastApplied_none (conditions : Str → Bool) :
    ∀ md : List pjMapEntry, (∀ x ∈ md, keyApplies conditions x.key = false) →
      lastApplied conditions md = none
  | [], _ => rfl
  | x :: rest, h => by
    rw [lastApplied, lastApplied_none conditions rest
      (fun y hy => h y (List.mem_cons_of_mem _ hy))]
    have hx := h x (List.mem_cons_self _ _)
    simp [hx]

theorem NoMatchChain_head (packageURL subpath : Str) (pattern internal : Bool)
    (conditions : Str → Bool) (o : pjEntry) (rest : List pjEntry)
    (h : NoMatchChain packageURL subpath pattern internal conditions (o :: rest)) :
    isConditionForm o = true := by
  cases rest with
  | nil => exact h.1
  | cons next rest => exact h.1

/-- C11, as amended: for every chain of nested condition objects without a match,
of any depth, `esmPackageTargetResolve` on the outermost object returns
`undefinedNoConditionsMatch`, and the unmatched conditions are the keys of the second
object of the chain (the value of the last entry that applies in the outermost
object), or of the outermost object itself when the chain has one level only. For
chains of one or two levels this is the innermost object; in a deeper chain it is
not. -/
theorem C11_no_match_chain (packageURL subpath : Str) (pattern internal : Bool)
    (conditions : Str → Bool) (o : pjEntry) (rest : List pjEntry)
    (hchain : NoMatchChain packageURL subpath pattern internal conditions (o :: rest)) :
    esmPackageTargetResolve packageURL o subpath pattern internal conditions =
        ([], pjStatusUndefinedNoConditionsMatch,
          { token := (rest.headD o).firstToken,
            unmatchedConditions := keysOf (rest.headD o).mapData }) ∧
    (rest.length ≤ 1 → rest.headD o = (o :: rest).getLast (List.cons_ne_nil o rest)) := by
  constructor
  · cases rest with
    | nil =>
      obtain ⟨hform, hkeys⟩ := hchain
      have hd : diagnosticTarget conditions o = o := by
        unfold diagnosticTarget
        rw [lastApplied_none conditions _ hkeys]
      rw [object_no_match packageURL subpath pattern internal conditions o hform
        (fun y hy hk => by rw [hkeys y hy] at hk; exact absurd hk (by decide)), hd]
      rfl
    | cons next rest =>
      obtain ⟨hform, hnone, hlast, hnext⟩ := hchain
      have hnf := NoMatchChain_head _ _ _ _ _ next rest hnext
      have hd : diagnosticTarget conditions o = next := by
        unfold diagnosticTarget
        cases hl : lastApplied conditions o.mapData with
        | none => rw [hl] at hlast; simp at hlast
        | some e =>
          rw [hl] at hlast
          have hv : e.value = next := by simpa using hlast
          simp only [hv, hnf, if_true]
      rw [object_no_match packageURL subpath pattern internal conditions o hform hnone, hd]
      rfl
  · intro hlen
    cases rest with
    | nil => rfl
    | cons next rest =>
      cases rest with
      | nil => rfl
      | cons a b => simp at hlen

theorem C11_no_match_chain_witness :
    esmPackageTargetResolve "/pkg".toList exampleChainMiddle [] false false
        (conditionsOf ["node".toList, "import".toList]) =
      ([], pjStatusUndefinedNoConditionsMatch,
        { token := ⟨4, 1⟩, unmatchedConditions := ["require".toList] }) ∧
    esmPackageTargetResolve "/pkg".toList exampleChainOuter [] false false
        (conditionsOf ["node".toList, "import".toList]) =
      ([], pjStatusUndefinedNoConditionsMatch,
        { token := ⟨2, 1⟩, unmatchedConditions := ["import".toList] }) :=
  ⟨(C11_no_match_chain "/pkg".toList [] false false
      (conditionsOf ["node".toList, "import".toList]) exampleChainMiddle [exampleChainInner]
      ⟨by decide, by decide, rfl, by decide, by decide⟩).1,
    (C11_no_match_chain "/pkg".toList [] false false
      (conditionsOf ["node".toList, "import".toList]) exampleChainOuter
      [exampleChainMiddle, exampleChainInner]
      ⟨by decide, by decide, rfl, by decide, by decide, rfl, by decide, by decide⟩).1⟩

/-- C11 fails as stated: in the chain `{"node": {"import": {"require": "./n.js"}}}`
with the active conditions "node" and "import", every level has an active condition
that leads to the next and the innermost object `{"require": ...}` has no active or
default key; `esmPackageTargetResolve` on the outermost object names the keys of the
middle object, "import", and not the key "require" of the innermost one. -/
theorem C11_counterexample :
    NoMatchChain "/pkg".toList [] false false (conditionsOf ["node".toList, "import".toList])
      [exampleChainOuter, exampleChainMiddle, exampleChainInner] ∧
    keysOf exampleChainInner.mapData = ["require".toList] ∧
    (esmPackageTargetResolve "/pkg".toList exampleChainOuter [] false false
        (conditionsOf ["node".toList, "import".toList])).2.1 =
      pjStatusUndefinedNoConditionsMatch ∧
    (esmPackageTargetResolve "/pkg".toList exampleChainOuter [] false false
        (conditionsOf ["node".toList, "import".toList])).2.2.unmatchedConditions =
      ["import".toList] :=
  ⟨⟨by decide, by decide, rfl, by decide, by decide, rfl, by decide, by decide⟩,
    by decide, by decide, by decide⟩

/-- C12: when `esmPackageTargetResolve` on a non-empty condition-form object finds no
returnable result (every entry whose key applies resolves to an undefined status),
it returns `undefinedNoConditionsMatch`, and the unmatched conditions are the keys,
in source order, of the value of the last entry that applied when that value is
itself a non-empty condition-form object, and the keys of the object itself
otherwise. For the exports `{".": {"node": {"require": "./n.js"}}}` with the
conditions default, import and node and the subpath ".", `esmPackageExportsResolve`
returns `undefinedNoConditionsMatch` with the unmatched conditions ["require"], for
every package URL. -/
theorem C12_unmatched_conditions (packageURL subpath : Str) (pattern internal : Bool)
    (conditions : Str → Bool) (target : pjEntry) (hform : isConditionForm target = true)
    (hnone : ∀ y ∈ target.mapData, keyApplies conditions y.key = true →
      (esmPackageTargetResolve packageURL y.value subpath pattern internal
        conditions).2.1.isUndefined = true) :
    esmPackageTargetResolve packageURL target subpath pattern internal conditions =
        ([], pjStatusUndefinedNoConditionsMatch,
          { token := (diagnosticTarget conditions target).firstToken,
            unmatchedConditions := keysOf (diagnosticTarget conditions target).mapData }) ∧
    diagnosticTarget conditions target =
      (match lastApplied conditions target.mapData with
        | some e => if isConditionForm e.value = true then e.value else target
        | none => target) ∧
    esmPackageExportsResolve packageURL ".".toList (visit exampleSource exampleNodeRequire).1
        (conditionsOf ["default".toList, "import".toList, "node".toList]) =
      ([], pjStatusUndefinedNoConditionsMatch,
        { token := ⟨4, 1⟩, unmatchedConditions := ["require".toList] }) :=
  ⟨object_no_match packageURL subpath pattern internal conditions target hform hnone, rfl, rfl⟩

theorem C12_unmatched_conditions_witness :
    esmPackageTargetResolve "/pkg".toList
        (visit exampleSource (.EObject 0 [
          .mk 1 "node".toList (.EObject 2 [.mk 3 "require".toList (.EString 4 "./n.js".toList)]),
          .mk 5 "browser".toList (.EString 6 "./b.js".toList)])).1
        [] false false (conditionsOf ["default".toList, "import".toList, "node".toList]) =
      ([], pjStatusUndefinedNoConditionsMatch,
        { token := ⟨2, 1⟩, unmatchedConditions := ["require".toList] }) ∧
    esmPackageTargetResolve "/pkg".toList
        (visit exampleSource (.EObject 0 [
          .mk 1 "node".toList (.EObject 2 [.mk 3 "require".toList (.EString 4 "./n.js".toList)]),
          .mk 5 "browser".toList (.EString 6 "./b.js".toList)])).1
        [] false false (conditionsOf ["import".toList]) =
      ([], pjStatusUndefinedNoConditionsMatch,
        { token := ⟨0, 1⟩, unmatchedConditions := ["node".toList, "browser".toList] }) :=
  ⟨(C12_unmatched_conditions "/pkg".toList [] false false
      (conditionsOf ["default".toList, "import".toList, "node".toList]) _ (by decide)
      (by decide)).1.trans (by decide),
    (C12_unmatched_conditions "/pkg".toList [] false false (conditionsOf ["import".toList]) _
      (by decide) (by decide)).1.trans (by decide)⟩

theorem conditionsOf_perm (l1 l2 : List Str) (h : l1.Perm l2) :
    conditionsOf l1 = conditionsOf l2 := by
  funext key
  unfold conditionsOf
  rw [Bool.eq_iff_iff]
  exact List.elem_iff.trans (h.mem_iff.trans List.elem_iff.symm)

/-- C15: `esmPackageTargetResolve` on a condition object returns the result of the
first entry, in source order, whose key is "default" or an active condition and
whose own resolution does not have an undefined status (`undefined` or
`undefinedNoConditionsMatch`): if the entries before `x` that apply all resolve to an
undefined status, and `x` applies and does not, the result is that of the value of
`x`. The active conditions matter only as a set: listing them in another order gives
the same result, for every target. -/
theorem C15_source_order (packageURL subpath : Str) (pattern internal : Bool) :
    (∀ (conditions : Str → Bool) (ft : Range) (pre post ek : List pjMapEntry) (x : pjMapEntry),
      (∀ y ∈ pre, keyApplies conditions y.key = true →
        (esmPackageTargetResolve packageURL y.value subpath pattern internal
          conditions).2.1.isUndefined = true) →
      keyApplies conditions x.key = true →
      (esmPackageTargetResolve packageURL x.value subpath pattern internal
        conditions).2.1.isUndefined = false →
      esmPackageTargetResolve packageURL (.object ft (pre ++ x :: post) ek) subpath pattern
          internal conditions =
        esmPackageTargetResolve packageURL x.value subpath pattern internal conditions) ∧
    (∀ (target : pjEntry) (active1 active2 : List Str), active1.Perm active2 →
      esmPackageTargetResolve packageURL target subpath pattern internal
          (conditionsOf active1) =
        esmPackageTargetResolve packageURL target subpath pattern internal
          (conditionsOf active2)) := by
  constructor
  · intro conditions ft pre post ek x hpre hx hres
    rw [esmPackageTargetResolve, objectLoop_first packageURL subpath pattern internal conditions
      x post hx hres pre false _ hpre]
  · intro target active1 active2 hperm
    rw [conditionsOf_perm active1 active2 hperm]

theorem C15_source_order_witness :
    esmPackageTargetResolve "/pkg".toList
        (.object ⟨2, 1⟩
          ([.mk "import".toList ⟨3, 1⟩ (.string ⟨4, 1⟩ "./esm/i.js".toList)] ++
            .mk "require".toList ⟨5, 1⟩ (.string ⟨6, 1⟩ "./cjs/i.js".toList) :: []) [])
        [] false false (conditionsOf ["require".toList, "default".toList]) =
      ("/pkg/cjs/i.js".toList, pjStatusExact, { token := ⟨6, 1⟩ }) ∧
    esmPackageExportsResolve "/pkg".toList ".".toList
        (visit exampleSource exampleImportRequire).1
        (conditionsOf ["require".toList, "default".toList]) =
      ("/pkg/cjs/i.js".toList, pjStatusExact, { token := ⟨6, 1⟩ }) ∧
    esmPackageExportsResolve "/pkg".toList ".".toList
        (visit exampleSource exampleImportRequire).1
        (conditionsOf ["default".toList, "require".toList]) =
      ("/pkg/cjs/i.js".toList, pjStatusExact, { token := ⟨6, 1⟩ }) :=
  ⟨((C15_source_order "/pkg".toList [] false false).1
      (conditionsOf ["require".toList, "default".toList]) ⟨2, 1⟩
      [.mk "import".toList ⟨3, 1⟩ (.string ⟨4, 1⟩ "./esm/i.js".toList)] [] []
      (.mk "require".toList ⟨5, 1⟩ (.string ⟨6, 1⟩ "./cjs/i.js".toList))
      (by decide) (by decide) (by decide)).trans (by decide),
    by decide, by decide⟩

/-! ### Reverse resolution of a pattern -/

/-- C13, as amended: a pattern key ends in "*". For the exports object
`{"./feat/*": "./src/feat/*.js"}` and any condition set,
`esmPackageExportsReverseResolve` of the query "./src/feat/widget.js" succeeds and
returns the subpath "./feat/widget" together with the source range of the pattern's
target; for the object `{"./feat/*.js": "./src/feat/*.js"}`, whose key is not an
expansion key, the same query does not succeed. -/
theorem C13_reverse_pattern (source : Source) (conditions : Str → Bool) :
    esmPackageExportsReverseResolve "./src/feat/widget.js".toList
        (visit source (objectOfStrings [("./feat/*", "./src/feat/*.js")])).1 conditions =
      (true, "./feat/widget".toList, source.RangeOfString 2) ∧
    esmPackageExportsReverseResolve "./src/feat/widget.js".toList
        (visit source (objectOfStrings [("./feat/*.js", "./src/feat/*.js")])).1 conditions =
      (false, [], ⟨0, 0⟩) :=
  ⟨rfl, rfl⟩

/-- C13 fails as stated: the key "./feat/*.js" does not end in "/" or "*", so the
reverse resolver never tries it in pattern mode, and the query
"./src/feat/widget.js" does not succeed on the manifest
`{"./feat/*.js": "./src/feat/*.js"}`. -/
theorem C13_counterexample :
    (visit exampleSource
      (objectOfStrings [("./feat/*.js", "./src/feat/*.js")])).1.expansionKeys = [] ∧
    (esmPackageExportsReverseResolve "./src/feat/widget.js".toList
      (visit exampleSource (objectOfStrings [("./feat/*.js", "./src/feat/*.js")])).1
      (conditionsOf ["default".toList])).1 = false :=
  ⟨rfl, by decide⟩

/-! ### Conditional sugar -/

theorem exports_sugar_dot (packageURL : Str) (E : pjEntry) (conditions : Str → Bool)
    (hE : E.kind = pjKind.pjString ∨ E.kind = pjKind.pjArray ∨
      (E.kind = pjKind.pjObject ∧ E.keysStartWithDot = false)) :
    esmPackageExportsResolve packageURL ".".toList E conditions =
      if (esmPackageTargetResolve packageURL E [] false false conditions).2.1 ≠ pjStatusNull ∧
          (esmPackageTargetResolve packageURL E [] false false conditions).2.1 ≠
            pjStatusUndefined then
        esmPackageTargetResolve packageURL E [] false false conditions
      else ([], pjStatusPackagePathNotExported, { token := E.firstToken }) := by
  unfold esmPackageExportsResolve
  dsimp only
  have hk1 : ¬ E.kind = pjKind.pjInvalid := by
    rcases hE with h | h | ⟨h, -⟩ <;> rw [h] <;> decide
  have hc1 : E.kind = pjKind.pjString ∨ E.kind = pjKind.pjArray ∨
      (E.kind = pjKind.pjObject ∧ (!E.keysStartWithDot) = true) := by
    rcases hE with h | h | ⟨h, h2⟩
    · exact Or.inl h
    · exact Or.inr (Or.inl h)
    · exact Or.inr (Or.inr ⟨h, by rw [h2]; rfl⟩)
  have hn : E.kind ≠ pjKind.pjNull := by
    rcases hE with h | h | ⟨h, -⟩ <;> rw [h] <;> decide
  rw [if_neg hk1, if_pos rfl, if_pos hc1, if_pos hn]

theorem exports_sugar_other (packageURL subpath : Str) (E : pjEntry) (conditions : Str → Bool)
    (hE : E.kind = pjKind.pjString ∨ E.kind = pjKind.pjArray ∨
      (E.kind = pjKind.pjObject ∧ E.keysStartWithDot = false))
    (hs : subpath ≠ ".".toList) :
    esmPackageExportsResolve packageURL subpath E conditions =
      ([], pjStatusPackagePathNotExported, { token := E.firstToken }) := by
  unfold esmPackageExportsResolve
  dsimp only
  have hk1 : ¬ E.kind = pjKind.pjInvalid := by
    rcases hE with h | h | ⟨h, -⟩ <;> rw [h] <;> decide
  have hc : ¬ (E.kind = pjKind.pjObject ∧ E.keysStartWithDot = true) := by
    rintro ⟨h1, h2⟩
    rcases hE with h | h | ⟨-, h⟩
    · rw [h] at h1; exact absurd h1 (by decide)
    · rw [h] at h1; exact absurd h1 (by decide)
    · rw [h] at h2; exact absurd h2 (by decide)
  rw [if_neg hk1, if_neg hs, if_neg hc]

theorem visit_wrap (source : Source) (loc keyLoc : Int) (json : Expr) :
    (visit source (.EObject loc [.mk keyLoc ".".toList json])).1 =
      wrapUnderDot ⟨loc, 1⟩ (source.RangeOfString keyLoc) (visit source json).1 := by
  rw [visit_single, if_neg (by decide)]
  rfl

/-- C14: for every exports node `E` that is a string, an array or a condition-form
object, every package URL, subpath and condition set, `esmPackageExportsResolve` on
`E` and on the one-entry object `{".": E}` return the same result string and the same
status; and `{".": E}` is the node the parser builds for the JSON object that wraps
the JSON value of `E` under ".". -/
theorem C14_conditional_sugar (packageURL subpath : Str) (conditions : Str → Bool)
    (E : pjEntry) (firstToken keyRange : Range)
    (hE : E.kind = pjKind.pjString ∨ E.kind = pjKind.pjArray ∨
      (E.kind = pjKind.pjObject ∧ E.keysStartWithDot = false)) :
    (esmPackageExportsResolve packageURL subpath E conditions).1 =
      (esmPackageExportsResolve packageURL subpath (wrapUnderDot firstToken keyRange E)
        conditions).1 ∧
    (esmPackageExportsResolve packageURL subpath E conditions).2.1 =
      (esmPackageExportsResolve packageURL subpath (wrapUnderDot firstToken keyRange E)
        conditions).2.1 ∧
    (∀ (source : Source) (loc keyLoc : Int) (json : Expr), (visit source json).1 = E →
      (visit source (.EObject loc [.mk keyLoc ".".toList json])).1 =
        wrapUnderDot ⟨loc, 1⟩ (source.RangeOfString keyLoc) E) := by
  have hdot : (wrapUnderDot firstToken keyRange E).keysStartWithDot = true := rfl
  have hparse : ∀ (source : Source) (loc keyLoc : Int) (json : Expr), (visit source json).1 = E →
      (visit source (.EObject loc [.mk keyLoc ".".toList json])).1 =
        wrapUnderDot ⟨loc, 1⟩ (source.RangeOfString keyLoc) E := by
    intro source loc keyLoc json hj
    rw [visit_wrap, hj]
  by_cases hs : subpath = ".".toList
  · subst hs
    have hkey : (wrapUnderDot firstToken keyRange E).valueForKey ".".toList = some E := rfl
    rw [exports_sugar_dot packageURL E conditions hE,
      exports_key_hit packageURL ".".toList (wrapUnderDot firstToken keyRange E) E conditions
        rfl hdot (by decide) hkey]
    refine ⟨?_, ?_, hparse⟩ <;> split <;> rfl
  · have hnokey : (wrapUnderDot firstToken keyRange E).valueForKey subpath = none := by
      show pjEntry.valueForKeyLoop subpath [.mk ".".toList keyRange E] = none
      rw [pjEntry.valueForKeyLoop,
        if_neg (show ¬ (pjMapEntry.mk ".".toList keyRange E).key = subpath from Ne.symm hs)]
      rfl
    rw [exports_sugar_other packageURL subpath E conditions hE hs,
      exports_object_not_dot packageURL subpath (wrapUnderDot firstToken keyRange E) conditions
        rfl hdot hs,
      no_key_hit _ _ _ _ _ (Or.inr hnokey)]
    exact ⟨rfl, rfl, hparse⟩

theorem C14_conditional_sugar_witness :
    (esmPackageExportsResolve "/pkg".toList ".".toList
        (visit exampleSource (.EString 2 "./main.js".toList)).1 (conditionsOf [])).1 =
      (esmPackageExportsResolve "/pkg".toList ".".toList
        (visit exampleSource (.EObject 0 [.mk 1 ".".toList (.EString 2 "./main.js".toList)])).1
        (conditionsOf [])).1 ∧
    (esmPackageExportsResolve "/pkg".toList ".".toList
        (visit exampleSource (.EString 2 "./main.js".toList)).1 (conditionsOf [])).2.1 =
      (esmPackageExportsResolve "/pkg".toList ".".toList
        (visit exampleSource (.EObject 0 [.mk 1 ".".toList (.EString 2 "./main.js".toList)])).1
        (conditionsOf [])).2.1 ∧
    esmPackageExportsResolve "/pkg".toList ".".toList
        (visit exampleSource (.EString 2 "./main.js".toList)).1 (conditionsOf []) =
      ("/pkg/main.js".toList, pjStatusExact, { token := ⟨2, 1⟩ }) :=
  ⟨(C14_conditional_sugar "/pkg".toList ".".toList (conditionsOf [])
      (visit exampleSource (.EString 2 "./main.js".toList)).1 ⟨0, 1⟩ ⟨1, 1⟩ (Or.inl rfl)).1,
    (C14_conditional_sugar "/pkg".toList ".".toList (conditionsOf [])
      (visit exampleSource (.EString 2 "./main.js".toList)).1 ⟨0, 1⟩ ⟨1, 1⟩ (Or.inl rfl)).2.1,
    by decide⟩

/-! ### Null targets and arrays -/

/-- C16: in a subpath-form exports object in which the first entry with the key `k`
(`k` not ending in "*") has the value `null`, `esmPackageExportsResolve` of `k` returns
`packagePathNotExported`, whatever the other keys of the object are. -/
theorem C16_null_target_hides (packageURL k : Str) (exports : pjEntry)
    (conditions : Str → Bool) (ft : Range)
    (hkind : exports.kind = pjKind.pjObject) (hdot : exports.keysStartWithDot = true)
    (hstar : strings.HasSuffix k "*".toList = false)
    (hnull : exports.valueForKey k = some (.null ft)) :
    esmPackageExportsResolve packageURL k exports conditions =
      ([], pjStatusPackagePathNotExported, { token := exports.firstToken }) := by
  rw [exports_key_hit packageURL k exports (.null ft) conditions hkind hdot hstar hnull,
    esmPackageTargetResolve]
  simp

theorem C16_null_target_hides_witness :
    expansionMatches "./*".toList "./a".toList = true ∧
    esmPackageExportsResolve "/pkg".toList "./b".toList
        (visit exampleSource exampleNullHides).1 (conditionsOf []) =
      ("/pkg/src/b".toList, pjStatusExact, { token := ⟨4, 1⟩ }) ∧
    esmPackageExportsResolve "/pkg".toList "./a".toList
        (visit exampleSource exampleNullHides).1 (conditionsOf []) =
      ([], pjStatusPackagePathNotExported, { token := ⟨0, 1⟩ }) :=
  ⟨by decide, by decide,
    C16_null_target_hides "/pkg".toList "./a".toList (visit exampleSource exampleNullHides).1
      (conditionsOf []) ⟨2, 4⟩ rfl rfl (by decide) rfl⟩

theorem arrayLoop_first (packageURL subpath : Str) (pattern internal : Bool)
    (conditions : Str → Bool) (x : pjEntry) (post : List pjEntry)
    (hx : isReturnable (esmPackageTargetResolve packageURL x subpath pattern internal
      conditions) = true) :
    ∀ (pre : List pjEntry) (lastException : pjStatus) (lastDebug : pjDebug),
      (∀ y ∈ pre, isReturnable (esmPackageTargetResolve packageURL y subpath pattern internal
        conditions) = false) →
      esmPackageTargetResolveArray packageURL (pre ++ x :: post) subpath pattern internal
          conditions lastException lastDebug =
        esmPackageTargetResolve packageURL x subpath pattern internal conditions
  | [], lastException, lastDebug, _ => by
    rw [List.nil_append, esmPackageTargetResolveArray]
    unfold isReturnable isFallbackStatus at hx
    generalize esmPackageTargetResolve packageURL x subpath pattern internal conditions = r at *
    have h1 : ¬ (r.2.1 = pjStatusInvalidPackageTarget ∨ r.2.1 = pjStatusNull) := by
      intro h
      rcases h with h | h <;> rw [h] at hx <;> exact absurd hx (by decide)
    have h2 : ¬ r.2.1.isUndefined = true := by
      intro h
      rw [h] at hx
      simp at hx
    simp only [h1, h2, if_false, Bool.false_eq_true]
  | y :: pre, lastException, lastDebug, hpre => by
    rw [List.cons_append, esmPackageTargetResolveArray]
    have ih := arrayLoop_first packageURL subpath pattern internal conditions x post hx pre
    have hpre1 : ∀ z ∈ pre, isReturnable (esmPackageTargetResolve packageURL z subpath pattern
        internal conditions) = false := fun z hz => hpre z (List.mem_cons_of_mem _ hz)
    have hy := hpre y (List.mem_cons_self _ _)
    unfold isReturnable isFallbackStatus at hy
    generalize esmPackageTargetResolve packageURL y subpath pattern internal conditions = r at *
    by_cases h1 : r.2.1 = pjStatusInvalidPackageTarget ∨ r.2.1 = pjStatusNull
    · simp only [h1, if_true]
      exact ih _ _ hpre1
    · have h2 : r.2.1.isUndefined = true := by
        have h3 : r.2.1 ≠ pjStatusInvalidPackageTarget := fun h => h1 (Or.inl h)
        have h4 : r.2.1 ≠ pjStatusNull := fun h => h1 (Or.inr h)
        simpa [h3, h4] using hy
      simp only [h1, h2, if_true, if_false]
      exact ih _ _ hpre1

theorem arrayLoop_none (packageURL subpath : Str) (pattern internal : Bool)
    (conditions : Str → Bool) :
    ∀ (arr : List pjEntry) (lastException : pjStatus) (lastDebug : pjDebug),
      (∀ y ∈ arr, isReturnable (esmPackageTargetResolve packageURL y subpath pattern internal
        conditions) = false) →
      esmPackageTargetResolveArray packageURL arr subpath pattern internal conditions
          lastException lastDebug =
        ([], (lastFallback (arr.map fun y =>
          esmPackageTargetResolve packageURL y subpath pattern internal conditions)).getD
            (lastException, lastDebug))
  | [], lastException, lastDebug, _ => by
    rw [esmPackageTargetResolveArray]
    rfl
  | y :: rest, lastException, lastDebug, h => by
    rw [esmPackageTargetResolveArray, List.map_cons, lastFallback]
    have ih := arrayLoop_none packageURL subpath pattern internal conditions rest
    have hrest : ∀ z ∈ rest, isReturnable (esmPackageTargetResolve packageURL z subpath pattern
        internal conditions) = false := fun z hz => h z (List.mem_cons_of_mem _ hz)
    have hy := h y (List.mem_cons_self _ _)
    unfold isReturnable at hy
    generalize esmPackageTargetResolve packageURL y subpath pattern internal conditions = r at *
    by_cases h1 : r.2.1 = pjStatusInvalidPackageTarget ∨ r.2.1 = pjStatusNull
    · have hf : isFallbackStatus r.2.1 = true := by
        unfold isFallbackStatus
        rcases h1 with h | h <;> rw [h] <;> rfl
      simp only [h1, if_true, hf]
      rw [ih _ _ hrest]
      cases lastFallback (rest.map fun y =>
        esmPackageTargetResolve packageURL y subpath pattern internal conditions) <;> rfl
    · have hf : isFallbackStatus r.2.1 = false := by
        unfold isFallbackStatus
        have h3 : r.2.1 ≠ pjStatusInvalidPackageTarget := fun h => h1 (Or.inl h)
        have h4 : r.2.1 ≠ pjStatusNull := fun h => h1 (Or.inr h)
        simp [h3, h4]
      have h2 : r.2.1.isUndefined = true := by
        rw [hf] at hy
        simpa using hy
      simp only [h1, h2, if_true, if_false, hf, Bool.false_eq_true]
      rw [ih _ _ hrest]
      cases lastFallback (rest.map fun y =>
        esmPackageTargetResolve packageURL y subpath pattern internal conditions) <;> rfl

/-- C17: on a non-empty array, `esmPackageTargetResolve` returns the result of the
first element whose status is none of `invalidPackageTarget`, `null`, `undefined`
and `undefinedNoConditionsMatch`; when no element has such a status it returns the
empty string with the status (and debug value) of the last element that gave
`invalidPackageTarget` or `null`, or with the status `undefined` when there was
none; on the empty array it returns the status `null`. -/
theorem C17_array_fallback (packageURL subpath : Str) (pattern internal : Bool)
    (conditions : Str → Bool) (ft : Range) :
    (∀ (pre post : List pjEntry) (x : pjEntry),
      (∀ y ∈ pre, isReturnable (esmPackageTargetResolve packageURL y subpath pattern internal
        conditions) = false) →
      isReturnable (esmPackageTargetResolve packageURL x subpath pattern internal
        conditions) = true →
      esmPackageTargetResolve packageURL (.array ft (pre ++ x :: post)) subpath pattern internal
          conditions =
        esmPackageTargetResolve packageURL x subpath pattern internal conditions) ∧
    (∀ arr : List pjEntry, arr ≠ [] →
      (∀ y ∈ arr, isReturnable (esmPackageTargetResolve packageURL y subpath pattern internal
        conditions) = false) →
      esmPackageTargetResolve packageURL (.array ft arr) subpath pattern internal conditions =
        ([], (lastFallback (arr.map fun y =>
          esmPackageTargetResolve packageURL y subpath pattern internal conditions)).getD
            (pjStatusUndefined, { token := ft }))) ∧
    esmPackageTargetResolve packageURL (.array ft []) subpath pattern internal conditions =
      ([], pjStatusNull, { token := ft }) := by
  refine ⟨?_, ?_, ?_⟩
  · intro pre post x hpre hx
    have hne : ¬ (pre ++ x :: post).length = 0 := by simp
    rw [esmPackageTargetResolve, if_neg hne]
    exact arrayLoop_first packageURL subpath pattern internal conditions x post hx pre _ _ hpre
  · intro arr hne hall
    have hlen : ¬ arr.length = 0 := fun h => hne (List.length_eq_zero.1 h)
    rw [esmPackageTargetResolve, if_neg hlen]
    exact arrayLoop_none packageURL subpath pattern internal conditions arr _ _ hall
  · rw [esmPackageTargetResolve]
    rfl

theorem C17_array_fallback_witness :
    esmPackageTargetResolve "/pkg".toList
        (.array ⟨0, 1⟩ ([.string ⟨1, 1⟩ "missing.js".toList, .null ⟨2, 4⟩] ++
          .string ⟨3, 1⟩ "./b.js".toList :: [.string ⟨4, 1⟩ "./c.js".toList]))
        [] false false (conditionsOf []) =
      ("/pkg/b.js".toList, pjStatusExact, { token := ⟨3, 1⟩ }) ∧
    esmPackageTargetResolve "/pkg".toList
        (.array ⟨0, 1⟩ [.null ⟨1, 4⟩, .string ⟨2, 1⟩ "missing.js".toList,
          .object ⟨3, 1⟩ [.mk "require".toList ⟨4, 1⟩ (.string ⟨5, 1⟩ "./r.js".toList)] []])
        [] false false (conditionsOf []) =
      ([], pjStatusInvalidPackageTarget, { token := ⟨2, 1⟩ }) ∧
    esmPackageTargetResolve "/pkg".toList
        (.array ⟨0, 1⟩
          [.object ⟨3, 1⟩ [.mk "require".toList ⟨4, 1⟩ (.string ⟨5, 1⟩ "./r.js".toList)] []])
        [] false false (conditionsOf []) =
      ([], pjStatusUndefined, { token := ⟨0, 1⟩ }) :=
  ⟨((C17_array_fallback "/pkg".toList [] false false (conditionsOf []) ⟨0, 1⟩).1
      [.string ⟨1, 1⟩ "missing.js".toList, .null ⟨2, 4⟩] [.string ⟨4, 1⟩ "./c.js".toList]
      (.string ⟨3, 1⟩ "./b.js".toList) (by decide) (by decide)).trans (by decide),
    ((C17_array_fallback "/pkg".toList [] false false (conditionsOf []) ⟨0, 1⟩).2.1
      [.null ⟨1, 4⟩, .string ⟨2, 1⟩ "missing.js".toList,
        .object ⟨3, 1⟩ [.mk "require".toList ⟨4, 1⟩ (.string ⟨5, 1⟩ "./r.js".toList)] []]
      (List.cons_ne_nil _ _) (by decide)).trans (by decide),
    ((C17_array_fallback "/pkg".toList [] false false (conditionsOf []) ⟨0, 1⟩).2.1
      [.object ⟨3, 1⟩ [.mk "require".toList ⟨4, 1⟩ (.string ⟨5, 1⟩ "./r.js".toList)] []]
      (List.cons_ne_nil _ _) (by decide)).trans (by decide)⟩

/-! ### The "./" prefix of exports targets -/

theorem string_target_not_internal (packageURL : Str) (ft : Range) (target subpath : Str)
    (pattern : Bool) :
    (esmPackageTargetResolveString packageURL ft target subpath pattern false).2.1 ≠
      pjStatusPackageResolve := by
  unfold esmPackageTargetResolveString
  simp only [Bool.false_and, Bool.false_eq_true, if_false]
  repeat' split
  all_goals (intro h; cases h)

mutual
theorem targetResolve_not_packageResolve (packageURL : Str) :
    ∀ (e : pjEntry) (subpath : Str) (pattern : Bool) (conditions : Str → Bool),
      (esmPackageTargetResolve packageURL e subpath pattern false conditions).2.1 ≠
        pjStatusPackageResolve
  | .string ft s, subpath, pattern, conditions => by
    rw [esmPackageTargetResolve]
    exact string_target_not_internal packageURL ft s subpath pattern
  | .object ft md ek, subpath, pattern, conditions => by
    rw [esmPackageTargetResolve]
    have hloop := objectLoop_not_packageResolve packageURL md subpath pattern conditions false
      (.mk [] ⟨0, 0⟩ (.null ⟨0, 0⟩))
    cases hl : esmPackageTargetResolveObject packageURL md subpath pattern false conditions
        false (.mk [] ⟨0, 0⟩ (.null ⟨0, 0⟩)) with
    | inl r => exact hloop r hl
    | inr p =>
      dsimp only
      split <;> (intro h; cases h)
  | .array ft arr, subpath, pattern, conditions => by
    rw [esmPackageTargetResolve]
    split
    · intro h; cases h
    · exact arrayLoop_not_packageResolve packageURL arr subpath pattern conditions _ _
        (by decide)
  | .null ft, subpath, pattern, conditions => by
    rw [esmPackageTargetResolve]
    intro h; cases h
  | .invalid ft, subpath, pattern, conditions => by
    rw [esmPackageTargetResolve]
    intro h; cases h
theorem objectLoop_not_packageResolve (packageURL : Str) :
    ∀ (md : List pjMapEntry) (subpath : Str) (pattern : Bool) (conditions : Str → Bool)
      (didFind : Bool) (last : pjMapEntry) (r : Str × pjStatus × pjDebug),
      esmPackageTargetResolveObject packageURL md subpath pattern false conditions didFind
          last = .inl r →
        r.2.1 ≠ pjStatusPackageResolve
  | [], subpath, pattern, conditions, didFind, last, r, h => by
    rw [esmPackageTargetResolveObject] at h
    cases h
  | .mk key keyRange value :: rest, subpath, pattern, conditions, didFind, last, r, h => by
    rw [esmPackageTargetResolveObject] at h
    split at h
    · dsimp only at h
      split at h
      · exact objectLoop_not_packageResolve packageURL rest subpath pattern conditions _ _ r h
      · have hr : esmPackageTargetResolve packageURL value subpath pattern false conditions = r :=
          Sum.inl.inj h
        rw [← hr]
        exact targetResolve_not_packageResolve packageURL value subpath pattern conditions
    · exact objectLoop_not_packageResolve packageURL rest subpath pattern conditions _ _ r h
theorem arrayLoop_not_packageResolve (packageURL : Str) :
    ∀ (arr : List pjEntry) (subpath : Str) (pattern : Bool) (conditions : Str → Bool)
      (lastException : pjStatus) (lastDebug : pjDebug),
      lastException ≠ pjStatusPackageResolve →
        (esmPackageTargetResolveArray packageURL arr subpath pattern false conditions
          lastException lastDebug).2.1 ≠ pjStatusPackageResolve
  | [], subpath, pattern, conditions, lastException, lastDebug, h => by
    rw [esmPackageTargetResolveArray]
    exact h
  | x :: rest, subpath, pattern, conditions, lastException, lastDebug, h => by
    rw [esmPackageTargetResolveArray]
    have hx := targetResolve_not_packageResolve packageURL x subpath pattern conditions
    split
    · exact arrayLoop_not_packageResolve packageURL rest subpath pattern conditions _ _ hx
    · split
      · exact arrayLoop_not_packageResolve packageURL rest subpath pattern conditions _ _ h
      · exact hx
end

theorem loop_not_packageResolve (matchKey : Str) (ft : Range) (packageURL : Str)
    (conditions : Str → Bool) :
    ∀ l : List pjMapEntry,
      (esmPackageImportsExportsResolveLoop matchKey ft packageURL false conditions l).2.1 ≠
        pjStatusPackageResolve
  | [] => by
    rw [esmPackageImportsExportsResolveLoop]
    intro h; cases h
  | x :: rest => by
    rw [esmPackageImportsExportsResolveLoop]
    split
    · exact targetResolve_not_packageResolve packageURL _ _ _ _
    · split
      · dsimp only
        split
        · intro h; cases h
        · exact targetResolve_not_packageResolve packageURL _ _ _ _
      · exact loop_not_packageResolve matchKey ft packageURL conditions rest

theorem importsExports_not_packageResolve (matchKey : Str) (matchObj : pjEntry)
    (packageURL : Str) (conditions : Str → Bool) :
    (esmPackageImportsExportsResolve matchKey matchObj packageURL false conditions).2.1 ≠
      pjStatusPackageResolve := by
  unfold esmPackageImportsExportsResolve
  split
  · exact targetResolve_not_packageResolve packageURL _ _ _ _
  · exact loop_not_packageResolve matchKey _ packageURL conditions _

/-- C18: with `internal = false`, for every string target that does not start with
"./" and every subpath, pattern flag and condition set, `esmPackageTargetResolve`
returns `invalidPackageTarget` or `invalidModuleSpecifier`, so neither `exact` nor
`packageResolve`; and `esmPackageExportsResolve` never returns the status
`packageResolve`, for any exports tree. -/
theorem C18_dot_slash_required (packageURL : Str) (conditions : Str → Bool) :
    (∀ (ft : Range) (target subpath : Str) (pattern : Bool),
      strings.HasPrefix target "./".toList = false →
      ((esmPackageTargetResolve packageURL (.string ft target) subpath pattern false
          conditions).2.1 = pjStatusInvalidPackageTarget ∨
        (esmPackageTargetResolve packageURL (.string ft target) subpath pattern false
          conditions).2.1 = pjStatusInvalidModuleSpecifier) ∧
      (esmPackageTargetResolve packageURL (.string ft target) subpath pattern false
        conditions).2.1 ≠ pjStatusExact ∧
      (esmPackageTargetResolve packageURL (.string ft target) subpath pattern false
        conditions).2.1 ≠ pjStatusPackageResolve) ∧
    (∀ (subpath : Str) (exports : pjEntry),
      (esmPackageExportsResolve packageURL subpath exports conditions).2.1 ≠
        pjStatusPackageResolve) := by
  constructor
  · intro ft target subpath pattern hdot
    have hst : (esmPackageTargetResolve packageURL (.string ft target) subpath pattern false
          conditions).2.1 = pjStatusInvalidPackageTarget ∨
        (esmPackageTargetResolve packageURL (.string ft target) subpath pattern false
          conditions).2.1 = pjStatusInvalidModuleSpecifier := by
      rw [esmPackageTargetResolve]
      unfold esmPackageTargetResolveString
      rw [hdot]
      simp only [Bool.not_false, Bool.false_and, Bool.false_eq_true, if_true, if_false]
      split
      · exact Or.inr rfl
      · exact Or.inl rfl
    refine ⟨hst, ?_, ?_⟩
    · rcases hst with h | h <;> rw [h] <;> decide
    · rcases hst with h | h <;> rw [h] <;> decide
  · intro subpath exports
    unfold esmPackageExportsResolve
    dsimp only
    repeat' split
    all_goals first
      | exact targetResolve_not_packageResolve packageURL _ _ _ _
      | exact importsExports_not_packageResolve subpath exports packageURL conditions
      | (intro h; cases h)

theorem C18_dot_slash_required_witness :
    (esmPackageTargetResolve "/pkg".toList (.string ⟨2, 1⟩ "pkg-y/sub".toList) [] false false
        (conditionsOf [])).2.1 = pjStatusInvalidPackageTarget ∧
    (esmPackageTargetResolve "/pkg".toList (.string ⟨2, 1⟩ "../up.js".toList) "x".toList false
        false (conditionsOf [])).2.1 = pjStatusInvalidModuleSpecifier ∧
    (esmPackageTargetResolve "/pkg".toList (.string ⟨2, 1⟩ "pkg-y/sub".toList) [] false false
        (conditionsOf [])).2.1 ≠ pjStatusPackageResolve :=
  ⟨by decide, by decide,
    ((C18_dot_slash_required "/pkg".toList (conditionsOf [])).1 ⟨2, 1⟩ "pkg-y/sub".toList [] false
      (by decide)).2.2⟩

/-! ### Imports -/

theorem string_target_package (packageURL : Str) (ft : Range) (t subpath : Str)
    (pattern : Bool) (conditions : Str → Bool)
    (hsub : pattern = true ∨ subpath = [])
    (h1 : strings.HasPrefix t "./".toList = false)
    (h2 : strings.HasPrefix t "../".toList = false)
    (h3 : strings.HasPrefix t "/".toList = false) :
    esmPackageTargetResolve packageURL (.string ft t) subpath pattern true conditions =
      (if pattern = true then strings.ReplaceAll t '*' subpath else t, pjStatusPackageResolve,
        { token := ft }) := by
  rw [esmPackageTargetResolve]
  unfold esmPackageTargetResolveString
  rw [h1, h2, h3]
  rcases hsub with h | h
  · subst h
    simp
  · subst h
    cases pattern <;> simp

/-- C19: in an imports object in which the first entry with the key `k` (`k` not
ending in "*") is a string target `t` that starts with none of "./", "../" and "/",
`esmPackageImportsResolve` of `k` returns the result `t` with status
`packageResolve`. For a pattern match the result is `t` with every "*" replaced by
the matched tail: this is what `esmPackageTargetResolve` returns for such a target
with `pattern` and `internal` set, and what `esmPackageImportsResolve` returns for
the specifier `P + m` (`m` not empty) on the one-entry imports object with the
key `P*`. -/
theorem C19_imports_package_target (conditions : Str → Bool) :
    (∀ (imports : pjEntry) (k : Str) (ft : Range) (t : Str),
      imports.kind = pjKind.pjObject → strings.HasSuffix k "*".toList = false →
      imports.valueForKey k = some (.string ft t) →
      strings.HasPrefix t "./".toList = false → strings.HasPrefix t "../".toList = false →
      strings.HasPrefix t "/".toList = false →
      esmPackageImportsResolve k imports conditions =
        (t, pjStatusPackageResolve, { token := ft })) ∧
    (∀ (packageURL : Str) (ft : Range) (t m : Str),
      strings.HasPrefix t "./".toList = false → strings.HasPrefix t "../".toList = false →
      strings.HasPrefix t "/".toList = false →
      esmPackageTargetResolve packageURL (.string ft t) m true true conditions =
        (strings.ReplaceAll t '*' m, pjStatusPackageResolve, { token := ft })) ∧
    (∀ (source : Source) (loc keyLoc valueLoc : Int) (P t m : Str),
      strings.HasPrefix t "./".toList = false → strings.HasPrefix t "../".toList = false →
      strings.HasPrefix t "/".toList = false → m ≠ [] →
      esmPackageImportsResolve (P ++ m)
          (visit source (.EObject loc [.mk keyLoc (P ++ "*".toList) (.EString valueLoc t)])).1
          conditions =
        (strings.ReplaceAll t '*' m, pjStatusPackageResolve,
          { token := source.RangeOfString valueLoc })) := by
  refine ⟨?_, ?_, ?_⟩
  · intro imports k ft t hk hstar hkey h1 h2 h3
    unfold esmPackageImportsResolve
    have hk1 : ¬ imports.kind ≠ pjKind.pjObject := fun h => h hk
    rw [if_neg hk1]
    dsimp only
    rw [valueForKey_hit k imports (.string ft t) "/".toList true conditions hstar hkey,
      string_target_package "/".toList ft t [] false conditions (Or.inr rfl) h1 h2 h3]
    simp
  · intro packageURL ft t m h1 h2 h3
    rw [string_target_package packageURL ft t m true conditions (Or.inl rfl) h1 h2 h3]
    simp
  · intro source loc keyLoc valueLoc P t m h1 h2 h3 hm
    have hexp : isExpansionKey (P ++ "*".toList) = true := by
      unfold isExpansionKey
      have : strings.HasSuffix (P ++ "*".toList) "*".toList = true :=
        (strings.HasSuffix_iff _ _).2 ⟨P, rfl⟩
      rw [this]
      simp
    have hvisit : (visit source (.EString valueLoc t)).1 =
        .string (source.RangeOfString valueLoc) t := by rw [visit]
    rw [visit_single, if_pos hexp, hvisit]
    generalize hx : pjMapEntry.mk (P ++ "*".toList) (source.RangeOfString keyLoc)
      (.string (source.RangeOfString valueLoc) t) = x
    have hxkey : x.key = P ++ "*".toList := by rw [← hx]; rfl
    have hxval : x.value = .string (source.RangeOfString valueLoc) t := by rw [← hx]; rfl
    have hstarkey : strings.HasSuffix x.key "*".toList = true := by
      rw [hxkey]
      exact (strings.HasSuffix_iff _ _).2 ⟨P, rfl⟩
    have hnokey : strings.HasSuffix (P ++ m) "*".toList = true ∨
        (pjEntry.object ⟨loc, 1⟩ [x] [x]).valueForKey (P ++ m) = none := by
      by_cases hstar : strings.HasSuffix (P ++ m) "*".toList = true
      · exact Or.inl hstar
      · right
        have hne : ¬ x.key = P ++ m := by
          intro heq
          apply hstar
          rw [← heq]
          exact hstarkey
        show pjEntry.valueForKeyLoop (P ++ m) [x] = none
        rw [pjEntry.valueForKeyLoop, if_neg hne]
        rfl
    have hres : esmPackageImportsExportsResolve (P ++ m) (pjEntry.object ⟨loc, 1⟩ [x] [x])
        "/".toList true conditions =
        (strings.ReplaceAll t '*' m, pjStatusPackageResolve,
          { token := source.RangeOfString valueLoc }) := by
      rw [no_key_hit _ _ _ _ _ hnokey]
      show esmPackageImportsExportsResolveLoop (P ++ m) _ "/".toList true conditions [x] = _
      rw [loop_step _ _ _ _ _ x _ (by rw [hxkey]; exact hexp)]
      have hmatch : expansionMatches x.key (P ++ m) = true := by
        rw [← hx]
        exact pattern_entry_match P m _ _ hm
      rw [if_pos hmatch]
      unfold resolveAgainst
      rw [if_pos hstarkey, hxval]
      have h4 : List.drop (x.key.length - 1) (P ++ m) = m := by
        rw [hxkey]
        simp
      rw [h4, string_target_package "/".toList _ t m true conditions (Or.inl rfl) h1 h2 h3]
      simp
    unfold esmPackageImportsResolve
    have hk1 : ¬ (pjEntry.object ⟨loc, 1⟩ [x] [x]).kind ≠ pjKind.pjObject := fun h => h rfl
    rw [if_neg hk1]
    dsimp only
    rw [hres]
    simp

theorem C19_imports_package_target_witness :
    esmPackageImportsResolve "#x".toList
        (visit exampleSource (objectOfStrings [("#x", "pkg-y/sub")])).1 (conditionsOf []) =
      ("pkg-y/sub".toList, pjStatusPackageResolve, { token := ⟨2, 1⟩ }) ∧
    esmPackageImportsResolve "#lib/util".toList
        (visit exampleSource (objectOfStrings [("#lib/*", "pkg-y/*.js")])).1 (conditionsOf []) =
      ("pkg-y/util.js".toList, pjStatusPackageResolve, { token := ⟨2, 1⟩ }) :=
  ⟨(C19_imports_package_target (conditionsOf [])).1
      (visit exampleSource (objectOfStrings [("#x", "pkg-y/sub")])).1 "#x".toList ⟨2, 1⟩
      "pkg-y/sub".toList rfl (by decide) rfl (by decide) (by decide) (by decide),
    ((C19_imports_package_target (conditionsOf [])).2.2 exampleSource 0 1 2 "#lib/".toList
      "pkg-y/*.js".toList "util".toList (by decide) (by decide) (by decide)
      (by decide)).trans (by decide)⟩

/-! ### The entry points -/

theorem guard_status (r fallback : Str × pjStatus × pjDebug)
    (h1 : fallback.2.1 ≠ pjStatusNull) (h2 : fallback.2.1 ≠ pjStatusUndefined) :
    (if r.2.1 ≠ pjStatusNull ∧ r.2.1 ≠ pjStatusUndefined then r else fallback).2.1 ≠
        pjStatusNull ∧
      (if r.2.1 ≠ pjStatusNull ∧ r.2.1 ≠ pjStatusUndefined then r else fallback).2.1 ≠
        pjStatusUndefined := by
  split
  · assumption
  · exact ⟨h1, h2⟩

/-- C20: `esmPackageExportsResolve` never returns the status `null` or `undefined`,
and neither does `esmPackageImportsResolve`; `esmPackageImportsResolve` returns
`invalidPackageConfiguration` whenever the imports node is not an object. Where the
resolution below gives `null` or `undefined`, the entry point returns
`packagePathNotExported` (for the main export of a string, array or condition-form
exports node, and for a subpath of a subpath-form object), or
`packageImportNotDefined` with the specifier as result (for an imports object). -/
theorem C20_no_intermediate_status (conditions : Str → Bool) :
    (∀ (packageURL subpath : Str) (exports : pjEntry),
      (esmPackageExportsResolve packageURL subpath exports conditions).2.1 ≠ pjStatusNull ∧
      (esmPackageExportsResolve packageURL subpath exports conditions).2.1 ≠
        pjStatusUndefined) ∧
    (∀ (specifier : Str) (imports : pjEntry),
      (esmPackageImportsResolve specifier imports conditions).2.1 ≠ pjStatusNull ∧
      (esmPackageImportsResolve specifier imports conditions).2.1 ≠ pjStatusUndefined) ∧
    (∀ (specifier : Str) (imports : pjEntry), imports.kind ≠ pjKind.pjObject →
      (esmPackageImportsResolve specifier imports conditions).2.1 =
        pjStatusInvalidPackageConfiguration) ∧
    (∀ (packageURL : Str) (exports : pjEntry),
      (exports.kind = pjKind.pjString ∨ exports.kind = pjKind.pjArray ∨
        (exports.kind = pjKind.pjObject ∧ exports.keysStartWithDot = false)) →
      ((esmPackageTargetResolve packageURL exports [] false false conditions).2.1 =
          pjStatusNull ∨
        (esmPackageTargetResolve packageURL exports [] false false conditions).2.1 =
          pjStatusUndefined) →
      esmPackageExportsResolve packageURL ".".toList exports conditions =
        ([], pjStatusPackagePathNotExported, { token := exports.firstToken })) ∧
    (∀ (packageURL subpath : Str) (exports : pjEntry),
      exports.kind = pjKind.pjObject → exports.keysStartWithDot = true →
      subpath ≠ ".".toList →
      ((esmPackageImportsExportsResolve subpath exports packageURL false conditions).2.1 =
          pjStatusNull ∨
        (esmPackageImportsExportsResolve subpath exports packageURL false conditions).2.1 =
          pjStatusUndefined) →
      esmPackageExportsResolve packageURL subpath exports conditions =
        ([], pjStatusPackagePathNotExported, { token := exports.firstToken })) ∧
    (∀ (specifier : Str) (imports : pjEntry), imports.kind = pjKind.pjObject →
      ((esmPackageImportsExportsResolve specifier imports "/".toList true conditions).2.1 =
          pjStatusNull ∨
        (esmPackageImportsExportsResolve specifier imports "/".toList true conditions).2.1 =
          pjStatusUndefined) →
      esmPackageImportsResolve specifier imports conditions =
        (specifier, pjStatusPackageImportNotDefined, { token := imports.firstToken })) := by
  refine ⟨?_, ?_, ?_, ?_, ?_, ?_⟩
  · intro packageURL subpath exports
    unfold esmPackageExportsResolve
    dsimp only
    have hmain : ∀ mainExport : pjEntry,
        (if mainExport.kind ≠ pjKind.pjNull then
            if (esmPackageTargetResolve packageURL mainExport [] false false conditions).2.1 ≠
                  pjStatusNull ∧
                (esmPackageTargetResolve packageURL mainExport [] false false conditions).2.1 ≠
                  pjStatusUndefined then
              esmPackageTargetResolve packageURL mainExport [] false false conditions
            else ([], pjStatusPackagePathNotExported, { token := exports.firstToken })
          else (([], pjStatusPackagePathNotExported, { token := exports.firstToken }) :
            Str × pjStatus × pjDebug)).2.1 ≠ pjStatusNull ∧
        (if mainExport.kind ≠ pjKind.pjNull then
            if (esmPackageTargetResolve packageURL mainExport [] false false conditions).2.1 ≠
                  pjStatusNull ∧
                (esmPackageTargetResolve packageURL mainExport [] false false conditions).2.1 ≠
                  pjStatusUndefined then
              esmPackageTargetResolve packageURL mainExport [] false false conditions
            else ([], pjStatusPackagePathNotExported, { token := exports.firstToken })
          else (([], pjStatusPackagePathNotExported, { token := exports.firstToken }) :
            Str × pjStatus × pjDebug)).2.1 ≠ pjStatusUndefined := by
      intro mainExport
      by_cases hk : mainExport.kind ≠ pjKind.pjNull
      · rw [if_pos hk]
        exact guard_status _ _ (fun h => (by cases h)) (fun h => (by cases h))
      · rw [if_neg hk]
        exact ⟨fun h => (by cases h), fun h => (by cases h)⟩
    by_cases h1 : exports.kind = pjKind.pjInvalid
    · rw [if_pos h1]
      exact ⟨fun h => (by cases h), fun h => (by cases h)⟩
    · rw [if_neg h1]
      by_cases h2 : subpath = ".".toList
      · rw [if_pos h2]
        exact hmain _
      · rw [if_neg h2]
        by_cases h3 : exports.kind = pjKind.pjObject ∧ exports.keysStartWithDot = true
        · rw [if_pos h3]
          exact guard_status _ _ (fun h => (by cases h)) (fun h => (by cases h))
        · rw [if_neg h3]
          exact ⟨fun h => (by cases h), fun h => (by cases h)⟩
  · intro specifier imports
    unfold esmPackageImportsResolve
    dsimp only
    by_cases h1 : imports.kind ≠ pjKind.pjObject
    · rw [if_pos h1]
      exact ⟨fun h => (by cases h), fun h => (by cases h)⟩
    · rw [if_neg h1]
      exact guard_status _ _ (fun h => (by cases h)) (fun h => (by cases h))
  · intro specifier imports hk
    unfold esmPackageImportsResolve
    rw [if_pos hk]
  · intro packageURL exports hE hst
    rw [exports_sugar_dot packageURL exports conditions hE]
    have hno : ¬ ((esmPackageTargetResolve packageURL exports [] false false conditions).2.1 ≠
          pjStatusNull ∧
        (esmPackageTargetResolve packageURL exports [] false false conditions).2.1 ≠
          pjStatusUndefined) := by
      rintro ⟨h1, h2⟩
      rcases hst with h | h
      · exact h1 h
      · exact h2 h
    rw [if_neg hno]
  · intro packageURL subpath exports hk hdot hs hst
    rw [exports_object_not_dot packageURL subpath exports conditions hk hdot hs]
    have hno : ¬ ((esmPackageImportsExportsResolve subpath exports packageURL false
          conditions).2.1 ≠ pjStatusNull ∧
        (esmPackageImportsExportsResolve subpath exports packageURL false conditions).2.1 ≠
          pjStatusUndefined) := by
      rintro ⟨h1, h2⟩
      rcases hst with h | h
      · exact h1 h
      · exact h2 h
    rw [if_neg hno]
  · intro specifier imports hk hst
    unfold esmPackageImportsResolve
    have hk1 : ¬ imports.kind ≠ pjKind.pjObject := fun h => h hk
    rw [if_neg hk1]
    dsimp only
    have hno : ¬ ((esmPackageImportsExportsResolve specifier imports "/".toList true
          conditions).2.1 ≠ pjStatusNull ∧
        (esmPackageImportsExportsResolve specifier imports "/".toList true conditions).2.1 ≠
          pjStatusUndefined) := by
      rintro ⟨h1, h2⟩
      rcases hst with h | h
      · exact h1 h
      · exact h2 h
    rw [if_neg hno]

theorem C20_no_intermediate_status_witness :
    esmPackageExportsResolve "/pkg".toList "./a".toList
        (visit exampleSource (.EObject 0 [.mk 1 "./a".toList (.ENull 2)])).1
        (conditionsOf ["default".toList]) =
      ([], pjStatusPackagePathNotExported, { token := ⟨0, 1⟩ }) ∧
    esmPackageImportsResolve "#a".toList
        (visit exampleSource (.EObject 0 [.mk 1 "#a".toList (.ENull 2)])).1
        (conditionsOf ["default".toList]) =
      ("#a".toList, pjStatusPackageImportNotDefined, { token := ⟨0, 1⟩ }) ∧
    (esmPackageImportsResolve "#a".toList (visit exampleSource (.EString 0 "./a.js".toList)).1
        (conditionsOf ["default".toList])).2.1 = pjStatusInvalidPackageConfiguration :=
  ⟨(C20_no_intermediate_status (conditionsOf ["default".toList])).2.2.2.2.1 "/pkg".toList
      "./a".toList (visit exampleSource (.EObject 0 [.mk 1 "./a".toList (.ENull 2)])).1 rfl rfl
      (by decide) (Or.inl (by decide)),
    (C20_no_intermediate_status (conditionsOf ["default".toList])).2.2.2.2.2 "#a".toList
      (visit exampleSource (.EObject 0 [.mk 1 "#a".toList (.ENull 2)])).1 rfl
      (Or.inl (by decide)),
    (C20_no_intermediate_status (conditionsOf ["default".toList])).2.2.1 "#a".toList
      (visit exampleSource (.EString 0 "./a.js".toList)).1 (by decide)⟩


/-! ### Directory imports, the segment scan, prefix keys -/

/-- C28: for a status `exact` or `inexact` and a resolved string that URL-decodes to
`resolvedPath` and contains none of "%2f", "%2F", "%5c", "%5C",
`esmHandlePostConditions` returns the status `unsupportedDirectoryImport` (with the
resolved string and the debug record as given) when `resolvedPath` ends in "/" or
"\\", and otherwise returns `resolvedPath` with the status and the debug record
unchanged; for every status other than `exact` and `inexact` it returns its three
arguments unchanged. -/
theorem C28_directory_import_rejected (resolved : Str) (status : pjStatus) (debug : pjDebug) :
    (∀ resolvedPath : Str, (status = pjStatusExact ∨ status = pjStatusInexact) →
      url.PathUnescape resolved = some resolvedPath →
      strings.Contains resolved "%2f".toList = false →
      strings.Contains resolved "%2F".toList = false →
      strings.Contains resolved "%5c".toList = false →
      strings.Contains resolved "%5C".toList = false →
      esmHandlePostConditions resolved status debug =
        if strings.HasSuffix resolvedPath "/".toList = true ∨
            strings.HasSuffix resolvedPath "\\".toList = true then
          (resolved, pjStatusUnsupportedDirectoryImport, debug)
        else (resolvedPath, status, debug)) ∧
    (status ≠ pjStatusExact → status ≠ pjStatusInexact →
      esmHandlePostConditions resolved status debug = (resolved, status, debug)) := by
  constructor
  · intro resolvedPath hst hdec h1 h2 h3 h4
    unfold esmHandlePostConditions
    have hguard : ¬ (status ≠ pjStatusExact ∧ status ≠ pjStatusInexact) := by
      rintro ⟨g1, g2⟩
      rcases hst with h | h
      · exact g1 h
      · exact g2 h
    rw [if_neg hguard, hdec]
    simp only [h1, h2, h3, h4]
    generalize strings.HasSuffix resolvedPath "/".toList = a
    generalize strings.HasSuffix resolvedPath "\\".toList = b
    cases a <;> cases b <;> simp
  · intro h1 h2
    unfold esmHandlePostConditions
    rw [if_pos ⟨h1, h2⟩]

theorem C28_directory_import_rejected_witness :
    esmHandlePostConditions "/pkg/dir/".toList pjStatusInexact { token := ⟨2, 1⟩ } =
      ("/pkg/dir/".toList, pjStatusUnsupportedDirectoryImport, { token := ⟨2, 1⟩ }) ∧
    esmHandlePostConditions "/pkg/a%20b.js".toList pjStatusExact { token := ⟨2, 1⟩ } =
      ("/pkg/a b.js".toList, pjStatusExact, { token := ⟨2, 1⟩ }) ∧
    esmHandlePostConditions "/pkg/dir/".toList pjStatusNull { token := ⟨2, 1⟩ } =
      ("/pkg/dir/".toList, pjStatusNull, { token := ⟨2, 1⟩ }) :=
  ⟨(C28_directory_import_rejected "/pkg/dir/".toList pjStatusInexact { token := ⟨2, 1⟩ }).1
      "/pkg/dir/".toList (Or.inr rfl) (by decide) (by decide) (by decide) (by decide)
      (by decide),
    (C28_directory_import_rejected "/pkg/a%20b.js".toList pjStatusExact { token := ⟨2, 1⟩ }).1
      "/pkg/a b.js".toList (Or.inl rfl) (by decide) (by decide) (by decide) (by decide)
      (by decide),
    (C28_directory_import_rejected "/pkg/dir/".toList pjStatusNull { token := ⟨2, 1⟩ }).2
      (by decide) (by decide)⟩

/-- C29: with `splitSegments p` the list of pieces of `p` between the separators "/"
and "\\", `findInvalidSegment p` is the first piece after the first one that is ".",
".." or "node_modules", and the empty string when there is none; it is the empty
string exactly when there is none. The loop ends: a round that goes on continues
with a strictly shorter path, and with any number of rounds of at least the length
of the path the loop returns the first such piece of the path it is given. -/
theorem C29_findInvalidSegment_reference (p : Str) :
    findInvalidSegment p = ((splitSegments p).tail.find? isInvalidSegment).getD [] ∧
    (findInvalidSegment p = [] ↔
      ∀ seg ∈ (splitSegments p).tail, isInvalidSegment seg = false) ∧
    (∀ seg : Str, isInvalidSegment seg = true ↔
      (seg = ".".toList ∨ seg = "..".toList ∨ seg = "node_modules".toList)) ∧
    (∀ slash : Nat, strings.IndexAny p "/\\".toList = some slash →
      (p.drop (slash + 1)).length < p.length) ∧
    (∀ fuel : Nat, p.length ≤ fuel →
      findInvalidSegmentLoop fuel p = ((splitSegments p).find? isInvalidSegment).getD []) := by
  refine ⟨findInvalidSegment_eq p, ?_, isInvalidSegment_iff, ?_, fun fuel h =>
    findInvalidSegmentLoop_eq fuel p h⟩
  · have h := findInvalidSegment_ne_nil_iff p
    constructor
    · intro h0 seg hseg
      by_contra hne
      exact (h.2 ⟨seg, hseg, by simpa using hne⟩) h0
    · intro hall
      by_contra hne
      obtain ⟨seg, hseg, hinv⟩ := h.1 hne
      rw [hall seg hseg] at hinv
      cases hinv
  · intro slash hs
    have := (splitSegments_of_IndexAny_some p slash hs).2
    rw [List.length_drop]
    omega


/-- The loop walks over the expansion entries that do not match. -/
theorem loop_skip (matchKey : Str) (ft : Range) (packageURL : Str) (isImports : Bool)
    (conditions : Str → Bool) (rest : List pjMapEntry) :
    ∀ pre : List pjMapEntry,
      (∀ y ∈ pre, isExpansionKey y.key = true ∧ expansionMatches y.key matchKey = false) →
      esmPackageImportsExportsResolveLoop matchKey ft packageURL isImports conditions
          (pre ++ rest) =
        esmPackageImportsExportsResolveLoop matchKey ft packageURL isImports conditions rest
  | [], _ => rfl
  | y :: pre, h => by
    have hy := h y (List.mem_cons_self _ _)
    rw [List.cons_append, loop_step _ _ _ _ _ _ _ hy.1, hy.2]
    exact loop_skip matchKey ft packageURL isImports conditions rest pre
      (fun z hz => h z (List.mem_cons_of_mem _ hz))

/-- A status `exact` of the loop comes from a pattern key. -/
theorem loop_exact_pattern (matchKey : Str) (ft : Range) (packageURL : Str) (isImports : Bool)
    (conditions : Str → Bool) :
    ∀ l : List pjMapEntry,
      (esmPackageImportsExportsResolveLoop matchKey ft packageURL isImports conditions l).2.1 =
        pjStatusExact →
      ∃ x ∈ l, strings.HasSuffix x.key "*".toList = true ∧
        esmPackageImportsExportsResolveLoop matchKey ft packageURL isImports conditions l =
          esmPackageTargetResolve packageURL x.value (matchKey.drop (x.key.length - 1)) true
            isImports conditions
  | [], h => by
    rw [esmPackageImportsExportsResolveLoop] at h
    cases h
  | x :: rest, h => by
    rw [esmPackageImportsExportsResolveLoop] at h ⊢
    split
    · rename_i hc
      exact ⟨x, List.mem_cons_self _ _, hc.1, rfl⟩
    · rename_i hc
      rw [if_neg hc] at h
      split
      · rename_i hp
        rw [if_pos hp] at h
        exfalso
        revert h
        simp only
        split
        · intro h
          cases h
        · rename_i hne
          exact hne
      · rename_i hp
        rw [if_neg hp] at h
        obtain ⟨z, hz, hzs, hres⟩ :=
          loop_exact_pattern matchKey ft packageURL isImports conditions rest h
        exact ⟨z, List.mem_cons_of_mem _ hz, hzs, hres⟩

/-- C21: when the first expansion key of an object node that matches `matchKey` ends
in "/" (no exact-key hit, the entries before it do not match), the result of
`esmPackageImportsExportsResolve` is the result of resolving that key's target with
the rest of `matchKey` as subpath, with the status `inexact` in place of `exact` and
every other status as it is; and whenever `esmPackageImportsExportsResolve` returns
the status `exact`, it returns the result of an exact-key hit or of a key ending in
"*" resolved as a pattern. -/
theorem C21_inexact_on_slash_key (matchKey : Str) (matchObj : pjEntry) (packageURL : Str)
    (isImports : Bool) (conditions : Str → Bool) :
    (∀ (pre post : List pjMapEntry) (x : pjMapEntry),
      matchObj.expansionKeys = pre ++ x :: post →
      (∀ y ∈ pre, isExpansionKey y.key = true ∧ expansionMatches y.key matchKey = false) →
      strings.HasSuffix x.key "/".toList = true →
      strings.HasPrefix matchKey x.key = true →
      (strings.HasSuffix matchKey "*".toList = true ∨ matchObj.valueForKey matchKey = none) →
      esmPackageImportsExportsResolve matchKey matchObj packageURL isImports conditions =
        ((esmPackageTargetResolve packageURL x.value (matchKey.drop x.key.length) false
            isImports conditions).1,
          (if (esmPackageTargetResolve packageURL x.value (matchKey.drop x.key.length) false
              isImports conditions).2.1 = pjStatusExact then pjStatusInexact
            else (esmPackageTargetResolve packageURL x.value (matchKey.drop x.key.length)
              false isImports conditions).2.1),
          (esmPackageTargetResolve packageURL x.value (matchKey.drop x.key.length) false
            isImports conditions).2.2)) ∧
    ((esmPackageImportsExportsResolve matchKey matchObj packageURL isImports conditions).2.1 =
        pjStatusExact →
      (strings.HasSuffix matchKey "*".toList = false ∧
        ∃ target, matchObj.valueForKey matchKey = some target ∧
          esmPackageImportsExportsResolve matchKey matchObj packageURL isImports conditions =
            esmPackageTargetResolve packageURL target [] false isImports conditions) ∨
      (∃ x ∈ matchObj.expansionKeys, strings.HasSuffix x.key "*".toList = true ∧
        esmPackageImportsExportsResolve matchKey matchObj packageURL isImports conditions =
          esmPackageTargetResolve packageURL x.value (matchKey.drop (x.key.length - 1)) true
            isImports conditions)) := by
  constructor
  · intro pre post x hek hpre hslash hprefix hnohit
    rw [no_key_hit matchKey matchObj packageURL isImports conditions hnohit, hek,
      loop_skip _ _ _ _ _ _ pre hpre,
      loop_step _ _ _ _ _ _ _ (by unfold isExpansionKey; rw [hslash]; rfl)]
    have hm : expansionMatches x.key matchKey = true := by
      unfold expansionMatches
      rw [hslash, hprefix]
      rfl
    have hstar : strings.HasSuffix x.key "*".toList = false := by
      cases hs : strings.HasSuffix x.key "*".toList
      · rfl
      · exact absurd (strings.HasSuffix_char_unique _ _ _ hs hslash) (by decide)
    rw [if_pos hm]
    unfold resolveAgainst
    rw [hstar]
    simp only [Bool.false_eq_true, if_false]
    split <;> rfl
  · intro hexact
    unfold esmPackageImportsExportsResolve at hexact ⊢
    cases hs : strings.HasSuffix matchKey "*".toList
    · rw [hs] at hexact
      simp only [Bool.not_false, if_true] at hexact ⊢
      cases hv : matchObj.valueForKey matchKey with
      | some target =>
        left
        exact ⟨trivial, target, rfl, rfl⟩
      | none =>
        rw [hv] at hexact
        right
        exact loop_exact_pattern _ _ _ _ _ _ hexact
    · rw [hs] at hexact
      right
      simp only [Bool.not_true, Bool.false_eq_true, if_false] at hexact ⊢
      exact loop_exact_pattern _ _ _ _ _ _ hexact

theorem C21_inexact_on_slash_key_witness :
    esmPackageImportsExportsResolve "./features/x.js".toList
        (visit exampleSource (objectOfStrings [("./features/", "./src/")])).1
        "/pkg".toList false (conditionsOf []) =
      ("/pkg/src/x.js".toList, pjStatusInexact, { token := ⟨2, 1⟩ }) ∧
    ∃ x ∈ (visit exampleSource
        (objectOfStrings [("./lib/*", "./src/*")])).1.expansionKeys,
      strings.HasSuffix x.key "*".toList = true ∧
      esmPackageImportsExportsResolve "./lib/x.js".toList
          (visit exampleSource
            (objectOfStrings [("./lib/*", "./src/*")])).1
          "/pkg".toList false (conditionsOf []) =
        esmPackageTargetResolve "/pkg".toList x.value
          ("./lib/x.js".toList.drop (x.key.length - 1)) true false (conditionsOf []) :=
  ⟨((C21_inexact_on_slash_key "./features/x.js".toList
      (visit exampleSource (objectOfStrings [("./features/", "./src/")])).1
      "/pkg".toList false (conditionsOf [])).1 []
      [] (pjMapEntry.mk "./features/".toList ⟨1, 1⟩ (.string ⟨2, 1⟩ "./src/".toList)) rfl
      (fun y hy => absurd hy (List.not_mem_nil y)) (by decide) (by decide)
      (Or.inr rfl)).trans rfl,
    ((C21_inexact_on_slash_key "./lib/x.js".toList
      (visit exampleSource (objectOfStrings [("./lib/*", "./src/*")])).1
      "/pkg".toList false (conditionsOf [])).2 rfl).resolve_left
      (fun h => by
        obtain ⟨_, target, ht, _⟩ := h
        cases ht)⟩


/-! ### The browser map -/

theorem checkExtensions_single_none (key base : Str) (v : Option Str) :
    ∀ exts : List Str, (∀ ext ∈ exts, base ++ ext ≠ key) →
      checkExtensions (singleBrowserMap key v) base exts = none
  | [], _ => rfl
  | ext :: exts, h => by
    rw [checkExtensions]
    have h1 : singleBrowserMap key v (base ++ ext) = none := by
      unfold singleBrowserMap
      rw [if_neg (h ext (List.mem_cons_self _ _))]
    rw [h1]
    exact checkExtensions_single_none key base v exts
      (fun e he => h e (List.mem_cons_of_mem _ he))

theorem checkExtensions_single_some (key base : Str) (v : Option Str) :
    ∀ exts : List Str, (∃ ext ∈ exts, base ++ ext = key) →
      checkExtensions (singleBrowserMap key v) base exts = some v
  | [], h => by
    obtain ⟨ext, hext, _⟩ := h
    cases hext
  | ext :: exts, h => by
    rw [checkExtensions]
    by_cases he : base ++ ext = key
    · have h1 : singleBrowserMap key v (base ++ ext) = some v := by
        unfold singleBrowserMap
        rw [if_pos he]
      rw [h1]
    · have h1 : singleBrowserMap key v (base ++ ext) = none := by
        unfold singleBrowserMap
        rw [if_neg he]
      rw [h1]
      apply checkExtensions_single_some key base v exts
      obtain ⟨e, hemem, heq⟩ := h
      rcases List.mem_cons.1 hemem with rfl | hmem
      · exact absurd heq he
      · exact ⟨e, hmem, heq⟩

theorem checkPath_hit (r : resolverQuery) (browserMap : Str → Option (Option Str))
    (pathToCheck : Str) (v : Option Str) (h : browserMap pathToCheck = some v) :
    checkPath r browserMap pathToCheck = (v, true) := by
  unfold checkPath
  rw [h]

/-- A path longer than the only key, whose "index" file path is longer too, is not
found by `checkPath`. -/
theorem checkPath_single_miss (r : resolverQuery) (key : Str) (v : Option Str)
    (pathToCheck : Str) (h1 : key.length < pathToCheck.length)
    (h2 : key.length < (path.Join pathToCheck "index".toList).length) :
    checkPath r (singleBrowserMap key v) pathToCheck = (none, false) := by
  have hne : ∀ p : Str, key.length < p.length → singleBrowserMap key v p = none := by
    intro p hp
    unfold singleBrowserMap
    rw [if_neg]
    intro h
    rw [h] at hp
    exact Nat.lt_irrefl _ hp
  have hext : ∀ p : Str, key.length < p.length →
      checkExtensions (singleBrowserMap key v) p r.ExtensionOrder = none := by
    intro p hp
    apply checkExtensions_single_none
    intro ext _ h
    have := congrArg List.length h
    rw [List.length_append] at this
    omega
  unfold checkPath
  rw [hne _ h1, hext _ h1]
  simp only
  have h3 : key.length <
      (if (r.IsPackagePath (path.Join pathToCheck "index".toList) &&
          !r.IsPackagePath pathToCheck) = true then
        "./".toList ++ path.Join pathToCheck "index".toList
      else path.Join pathToCheck "index".toList).length := by
    split
    · rw [List.length_append]
      omega
    · exact h2
  rw [hne _ h3, hext _ h3]

/-- The second lookup of `checkBrowserMap` changes nothing when both lookups miss. -/
theorem checkBrowserMap_of_miss (r : resolverQuery) (resolveDirInfo : dirInfo)
    (scope : browserScope) (inputPath looked : Str) (kind : browserPathKind)
    (hplat : r.platformIsBrowser = true)
    (hscope : resolveDirInfo.enclosingBrowserScope = some scope)
    (hrel : relativeInputPath r scope inputPath kind = some looked)
    (hdot : looked ≠ ".".toList)
    (h1 : checkPath r scope.browserMap looked = (none, false))
    (h2 : checkPath r scope.browserMap ("./".toList ++ looked) = (none, false)) :
    checkBrowserMap r resolveDirInfo inputPath kind = (none, false) := by
  unfold checkBrowserMap
  rw [hplat, hscope]
  simp only [Bool.not_true, Bool.false_eq_true, if_false]
  rw [hrel]
  simp only
  rw [if_neg hdot, h1, h2]
  cases kind <;> simp

/-- A first lookup that hits is the result of `checkBrowserMap`. -/
theorem checkBrowserMap_of_hit (r : resolverQuery) (resolveDirInfo : dirInfo)
    (scope : browserScope) (inputPath looked : Str) (kind : browserPathKind)
    (v : Option Str) (hplat : r.platformIsBrowser = true)
    (hscope : resolveDirInfo.enclosingBrowserScope = some scope)
    (hrel : relativeInputPath r scope inputPath kind = some looked)
    (hdot : looked ≠ ".".toList)
    (h1 : checkPath r scope.browserMap looked = (v, true)) :
    checkBrowserMap r resolveDirInfo inputPath kind = (v, true) := by
  unfold checkBrowserMap
  rw [hplat, hscope]
  simp only [Bool.not_true, Bool.false_eq_true, if_false]
  rw [hrel]
  simp only
  rw [if_neg hdot, h1]
  simp

/-- C23: on the browser platform, whatever the extension order, `IsPackagePath` and
the path kind are, with `q` the input path as it is looked up: when the browser map
is `{"./no-ext": v}`, `checkBrowserMap` returns `(v, true)` for `q = "./no-ext"` and
`(nil, false)` for `q = "./no-ext.js"`; when the browser map is `{"./ext.js": v}`
and ".js" is in the extension order, it returns `(v, true)` for `q = "./ext.js"` and
for `q = "./ext"`. -/
theorem C23_browser_map_extensions (r : resolverQuery) (resolveDirInfo : dirInfo)
    (scope : browserScope) (inputPath : Str) (kind : browserPathKind) (v : Option Str)
    (hplat : r.platformIsBrowser = true)
    (hscope : resolveDirInfo.enclosingBrowserScope = some scope) :
    (scope.browserMap = singleBrowserMap "./no-ext".toList v →
      (relativeInputPath r scope inputPath kind = some "./no-ext".toList →
        checkBrowserMap r resolveDirInfo inputPath kind = (v, true)) ∧
      (relativeInputPath r scope inputPath kind = some "./no-ext.js".toList →
        checkBrowserMap r resolveDirInfo inputPath kind = (none, false))) ∧
    (scope.browserMap = singleBrowserMap "./ext.js".toList v →
      ".js".toList ∈ r.ExtensionOrder →
      (relativeInputPath r scope inputPath kind = some "./ext.js".toList →
        checkBrowserMap r resolveDirInfo inputPath kind = (v, true)) ∧
      (relativeInputPath r scope inputPath kind = some "./ext".toList →
        checkBrowserMap r resolveDirInfo inputPath kind = (v, true))) := by
  refine ⟨fun hmap => ⟨fun hrel => ?_, fun hrel => ?_⟩,
    fun hmap hjs => ⟨fun hrel => ?_, fun hrel => ?_⟩⟩
  · exact checkBrowserMap_of_hit r resolveDirInfo scope inputPath _ kind v hplat hscope hrel
      (by decide) (checkPath_hit _ _ _ _ (by rw [hmap]; rfl))
  · apply checkBrowserMap_of_miss r resolveDirInfo scope inputPath _ kind hplat hscope hrel
      (by decide)
    · rw [hmap]
      exact checkPath_single_miss r _ v _ (by decide) (by decide)
    · rw [hmap]
      exact checkPath_single_miss r _ v _ (by decide) (by decide)
  · exact checkBrowserMap_of_hit r resolveDirInfo scope inputPath _ kind v hplat hscope hrel
      (by decide) (checkPath_hit _ _ _ _ (by rw [hmap]; rfl))
  · apply checkBrowserMap_of_hit r resolveDirInfo scope inputPath _ kind v hplat hscope hrel
      (by decide)
    rw [hmap]
    unfold checkPath
    have h1 : singleBrowserMap "./ext.js".toList v "./ext".toList = none := rfl
    rw [h1, checkExtensions_single_some "./ext.js".toList "./ext".toList v _
      ⟨".js".toList, hjs, rfl⟩]

theorem C23_browser_map_extensions_witness :
    (checkBrowserMap ⟨true, [".tsx".toList, ".js".toList], fun _ _ => none, fun _ => false⟩
        ⟨some ⟨"/pkg".toList, singleBrowserMap "./no-ext".toList (some "./shim.js".toList)⟩, []⟩
        "./no-ext".toList packagePathKind = (some "./shim.js".toList, true) ∧
      checkBrowserMap ⟨true, [".tsx".toList, ".js".toList], fun _ _ => none, fun _ => false⟩
        ⟨some ⟨"/pkg".toList, singleBrowserMap "./no-ext".toList (some "./shim.js".toList)⟩, []⟩
        "./no-ext.js".toList packagePathKind = (none, false)) ∧
    checkBrowserMap ⟨true, [".tsx".toList, ".js".toList], fun _ _ => none, fun _ => false⟩
        ⟨some ⟨"/pkg".toList, singleBrowserMap "./ext.js".toList (some "./shim.js".toList)⟩, []⟩
        "./ext".toList packagePathKind = (some "./shim.js".toList, true) :=
  ⟨⟨((C23_browser_map_extensions
        ⟨true, [".tsx".toList, ".js".toList], fun _ _ => none, fun _ => false⟩
        ⟨some ⟨"/pkg".toList, singleBrowserMap "./no-ext".toList (some "./shim.js".toList)⟩, []⟩
        ⟨"/pkg".toList, singleBrowserMap "./no-ext".toList (some "./shim.js".toList)⟩
        "./no-ext".toList packagePathKind (some "./shim.js".toList) rfl rfl).1 rfl).1 rfl,
      ((C23_browser_map_extensions
        ⟨true, [".tsx".toList, ".js".toList], fun _ _ => none, fun _ => false⟩
        ⟨some ⟨"/pkg".toList, singleBrowserMap "./no-ext".toList (some "./shim.js".toList)⟩, []⟩
        ⟨"/pkg".toList, singleBrowserMap "./no-ext".toList (some "./shim.js".toList)⟩
        "./no-ext.js".toList packagePathKind (some "./shim.js".toList) rfl rfl).1 rfl).2 rfl⟩,
    ((C23_browser_map_extensions
        ⟨true, [".tsx".toList, ".js".toList], fun _ _ => none, fun _ => false⟩
        ⟨some ⟨"/pkg".toList, singleBrowserMap "./ext.js".toList (some "./shim.js".toList)⟩, []⟩
        ⟨"/pkg".toList, singleBrowserMap "./ext.js".toList (some "./shim.js".toList)⟩
        "./ext".toList packagePathKind (some "./shim.js".toList) rfl rfl).2 rfl
        (by decide)).2 rfl⟩

/-- C24: whatever the platform, the browser map (one with the key "." included) and
the path kind are, `checkBrowserMap` returns `(nil, false)` when the input path as
it is looked up, relative to the "browser" map location for the absolute kind, is
".". -/
theorem C24_dot_never_remapped (r : resolverQuery) (resolveDirInfo : dirInfo)
    (inputPath : Str) (kind : browserPathKind)
    (hdot : ∀ scope, resolveDirInfo.enclosingBrowserScope = some scope →
      relativeInputPath r scope inputPath kind = some ".".toList) :
    checkBrowserMap r resolveDirInfo inputPath kind = (none, false) := by
  unfold checkBrowserMap
  split
  · rfl
  · cases hs : resolveDirInfo.enclosingBrowserScope with
    | none => rfl
    | some scope =>
      simp only
      rw [hdot scope hs]
      simp only
      exact if_pos trivial

theorem C24_dot_never_remapped_witness :
    checkBrowserMap ⟨true, [".js".toList], fun _ _ => some ".".toList, fun _ => true⟩
        ⟨some ⟨"/pkg".toList, singleBrowserMap ".".toList (some "./shim.js".toList)⟩, []⟩
        "/pkg".toList absolutePathKind = (none, false) ∧
    checkPath ⟨true, [".js".toList], fun _ _ => some ".".toList, fun _ => true⟩
        (singleBrowserMap ".".toList (some "./shim.js".toList)) ".".toList =
      (some "./shim.js".toList, true) :=
  ⟨C24_dot_never_remapped ⟨true, [".js".toList], fun _ _ => some ".".toList, fun _ => true⟩
      ⟨some ⟨"/pkg".toList, singleBrowserMap ".".toList (some "./shim.js".toList)⟩, []⟩
      "/pkg".toList absolutePathKind (fun scope h => by cases h; rfl),
    rfl⟩


/-! ### The package name of a specifier -/

theorem IndexByte_none_iff (c : Char) : ∀ s : Str, strings.IndexByte s c = none ↔ c ∉ s
  | [] => by simp [strings.IndexByte]
  | x :: s => by
    rw [strings.IndexByte]
    by_cases hx : x = c
    · rw [if_pos hx]
      simp [hx]
    · rw [if_neg hx, Option.map_eq_none', IndexByte_none_iff c s]
      simp [Ne.symm hx]

theorem prefixUpToSlash_of_not_mem : ∀ (n : Nat) (s : Str), '/' ∉ s → prefixUpToSlash n s = s
  | _, [], _ => rfl
  | n, c :: s, h => by
    have hc : c ≠ '/' := fun hc => h (by rw [hc]; exact List.mem_cons_self _ _)
    rw [prefixUpToSlash, if_neg hc,
      prefixUpToSlash_of_not_mem n s (fun hs => h (List.mem_cons_of_mem _ hs))]

theorem prefixUpToSlash_zero : ∀ s : Str,
    prefixUpToSlash 0 s =
      s.take (match strings.IndexByte s '/' with
        | none => s.length
        | some slash => slash)
  | [] => rfl
  | c :: s => by
    rw [prefixUpToSlash, strings.IndexByte]
    by_cases hc : c = '/'
    · rw [if_pos hc, if_pos hc]
      rfl
    · rw [if_neg hc, if_neg hc, prefixUpToSlash_zero s]
      cases strings.IndexByte s '/' <;> rfl

theorem prefixUpToSlash_one : ∀ (s : Str) (slash : Nat),
    strings.IndexByte s '/' = some slash →
    prefixUpToSlash 1 s =
      s.take (slash + 1 + match strings.IndexByte (s.drop (slash + 1)) '/' with
        | none => (s.drop (slash + 1)).length
        | some slash2 => slash2)
  | [], _, h => by cases h
  | c :: s, slash, h => by
    rw [strings.IndexByte] at h
    rw [prefixUpToSlash]
    by_cases hc : c = '/'
    · rw [if_pos hc] at h
      rw [if_pos hc]
      have h0 : slash = 0 := by simpa using h.symm
      subst h0
      rw [if_neg (by decide)]
      simp only [Nat.sub_self, prefixUpToSlash_zero s, List.drop_succ_cons, List.drop_zero,
        Nat.zero_add]
      rw [Nat.add_comm 1, List.take_succ_cons]
    · rw [if_neg hc] at h
      rw [if_neg hc]
      cases hi : strings.IndexByte s '/' with
      | none => rw [hi] at h; cases h
      | some k =>
        rw [hi] at h
        have hk : slash = k + 1 := by simpa using h.symm
        subst hk
        rw [prefixUpToSlash_one s k hi]
        simp only [List.drop_succ_cons]
        have : k + 1 + 1 + (match strings.IndexByte (List.drop (k + 1) s) '/' with
            | none => (List.drop (k + 1) s).length
            | some slash2 => slash2) =
          (k + 1 + (match strings.IndexByte (List.drop (k + 1) s) '/' with
            | none => (List.drop (k + 1) s).length
            | some slash2 => slash2)) + 1 := by omega
        rw [this, List.take_succ_cons]

/-- The text up to a "/" is a prefix, and what follows it is empty or begins with
"/". -/
theorem prefixUpToSlash_split : ∀ (n : Nat) (s : Str),
    ∃ rest : Str, s = prefixUpToSlash n s ++ rest ∧ (rest = [] ∨ ∃ t, rest = '/' :: t)
  | _, [] => ⟨[], rfl, Or.inl rfl⟩
  | n, c :: s => by
    rw [prefixUpToSlash]
    by_cases hc : c = '/'
    · rw [if_pos hc]
      by_cases hn : n = 0
      · rw [if_pos hn]
        exact ⟨c :: s, rfl, Or.inr ⟨s, by rw [hc]⟩⟩
      · rw [if_neg hn]
        obtain ⟨rest, h1, h2⟩ := prefixUpToSlash_split (n - 1) s
        exact ⟨rest, by simp only [List.cons_append]; rw [← h1], h2⟩
    · rw [if_neg hc]
      obtain ⟨rest, h1, h2⟩ := prefixUpToSlash_split n s
      exact ⟨rest, by simp only [List.cons_append]; rw [← h1], h2⟩

/-- Go `esmParsePackageName` checks the reference package name. -/
theorem esmParsePackageName_eq (s : Str) :
    esmParsePackageName s =
      if s = [] ∨ (strings.HasPrefix s "@".toList = true ∧ '/' ∉ s) then ([], [], false)
      else esmParsePackageNameCheck s (referencePackageName s) := by
  unfold esmParsePackageName referencePackageName
  by_cases hs : s = []
  · rw [if_pos hs, if_pos (Or.inl hs)]
  · rw [if_neg hs]
    cases hat : strings.HasPrefix s "@".toList
    · have hcond : ¬ (s = [] ∨ (false = true ∧ '/' ∉ s)) := by simp [hs]
      rw [if_neg hcond]
      simp only [Bool.not_false, if_true, Bool.false_eq_true, if_false]
      rw [prefixUpToSlash_zero]
    · simp only [Bool.not_true, Bool.false_eq_true, if_false, if_true]
      cases hi : strings.IndexByte s '/' with
      | none =>
        have hno : '/' ∉ s := (IndexByte_none_iff '/' s).1 hi
        rw [if_pos (Or.inr ⟨trivial, hno⟩)]
      | some slash =>
        have hin : ¬ '/' ∉ s := fun h => by
          rw [(IndexByte_none_iff '/' s).2 h] at hi
          cases hi
        have hcond : ¬ (s = [] ∨ (True ∧ '/' ∉ s)) := by simp [hs, hin]
        rw [if_neg hcond, prefixUpToSlash_one s slash hi]

theorem ContainsAny_backslash_percent (name : Str) :
    strings.ContainsAny name "\\%".toList = true ↔ ('\\' ∈ name ∨ '%' ∈ name) := by
  unfold strings.ContainsAny
  rw [List.any_eq_true]
  constructor
  · rintro ⟨c, hc, h⟩
    have h2 : c = '\\' ∨ c = '%' := by
      have : c ∈ "\\%".toList := List.elem_iff.1 h
      simpa using this
    rcases h2 with rfl | rfl
    · exact Or.inl hc
    · exact Or.inr hc
  · rintro (h | h)
    · exact ⟨'\\', h, by decide⟩
    · exact ⟨'%', h, by decide⟩

/-- C22: with `name` the reference package name of `s` (the text of `s` up to its
first "/", up to its second "/" when `s` starts with "@", all of `s` when there is
no such "/"), `esmParsePackageName s` returns `ok = false` exactly when `s` is empty,
or `s` starts with "@" and has no "/", or `name` starts with "." or contains "\\" or
"%"; and when it returns `ok = true`, `packageName` is `name`, `packageSubpath` is
"." followed by the rest of `s`, `packageName` followed by `packageSubpath` without
its first byte is `s`, and `packageSubpath` is "." or starts with "./". -/
theorem C22_esmParsePackageName_reference (s : Str) :
    ((esmParsePackageName s).2.2 = false ↔
      (s = [] ∨ (strings.HasPrefix s "@".toList = true ∧ '/' ∉ s) ∨
        strings.HasPrefix (referencePackageName s) ".".toList = true ∨
        '\\' ∈ referencePackageName s ∨ '%' ∈ referencePackageName s)) ∧
    ((esmParsePackageName s).2.2 = true →
      (esmParsePackageName s).1 = referencePackageName s ∧
      (esmParsePackageName s).2.1 = '.' :: s.drop (referencePackageName s).length ∧
      (esmParsePackageName s).1 ++ (esmParsePackageName s).2.1.tail = s ∧
      ((esmParsePackageName s).2.1 = ".".toList ∨
        strings.HasPrefix (esmParsePackageName s).2.1 "./".toList = true)) := by
  rw [esmParsePackageName_eq]
  by_cases hcond : s = [] ∨ (strings.HasPrefix s "@".toList = true ∧ '/' ∉ s)
  · rw [if_pos hcond]
    refine ⟨⟨fun _ => ?_, fun _ => rfl⟩, fun h => by cases h⟩
    rcases hcond with h | h
    · exact Or.inl h
    · exact Or.inr (Or.inl h)
  · rw [if_neg hcond]
    unfold esmParsePackageNameCheck
    have hany := ContainsAny_backslash_percent (referencePackageName s)
    obtain ⟨rest, hsplit, hrest⟩ :=
      prefixUpToSlash_split (if strings.HasPrefix s "@".toList then 1 else 0) s
    have hdrop : s.drop (referencePackageName s).length = rest := by
      have h := List.drop_left (referencePackageName s) rest
      unfold referencePackageName at h ⊢
      rw [← hsplit] at h
      exact h
    by_cases hbad : (strings.HasPrefix (referencePackageName s) ".".toList ||
        strings.ContainsAny (referencePackageName s) "\\%".toList) = true
    · rw [if_pos hbad]
      refine ⟨⟨fun _ => ?_, fun _ => rfl⟩, fun h => by cases h⟩
      rw [Bool.or_eq_true, hany] at hbad
      exact Or.inr (Or.inr hbad)
    · rw [if_neg hbad]
      refine ⟨⟨fun h => (by cases h), fun h => ?_⟩, fun _ => ⟨rfl, rfl, ?_, ?_⟩⟩
      · exfalso
        rcases h with h | h | h
        · exact hcond (Or.inl h)
        · exact hcond (Or.inr h)
        · apply hbad
          rw [Bool.or_eq_true, hany]
          exact h
      · show referencePackageName s ++ s.drop (referencePackageName s).length = s
        rw [hdrop]
        exact hsplit.symm
      · show '.' :: s.drop (referencePackageName s).length = ".".toList ∨
          strings.HasPrefix ('.' :: s.drop (referencePackageName s).length) "./".toList = true
        rw [hdrop]
        rcases hrest with h | ⟨t, h⟩
        · left
          rw [h]
          rfl
        · right
          rw [h]
          simp [strings.HasPrefix]

theorem C22_esmParsePackageName_reference_witness :
    (esmParsePackageName "@scope/pkg/lib/x.js".toList).1 = "@scope/pkg".toList ∧
    (esmParsePackageName "@scope/pkg/lib/x.js".toList).2.1 = "./lib/x.js".toList ∧
    esmParsePackageName "pkg".toList = ("pkg".toList, ".".toList, true) ∧
    esmParsePackageName "@scope".toList = ([], [], false) ∧
    esmParsePackageName ".pkg/x".toList = (".pkg".toList, [], false) :=
  ⟨((C22_esmParsePackageName_reference "@scope/pkg/lib/x.js".toList).2 (by decide)).1.trans
      (by decide),
    ((C22_esmParsePackageName_reference "@scope/pkg/lib/x.js".toList).2 (by decide)).2.1.trans
      (by decide),
    by decide, by decide, by decide⟩


/-! ### The glob compiler -/

theorem globPieces_star : ∀ s : Str,
    globPieces ('*' :: s) =
      .stars (1 + (s.takeWhile (· = '*')).length) :: globPieces (s.dropWhile (· = '*'))
  | [] => rfl
  | c :: s => by
    by_cases hc : c = '*'
    · subst hc
      rw [globPieces, if_pos rfl, globPieces_star s]
      simp only [List.takeWhile_cons, List.dropWhile_cons, decide_True, if_true,
        List.length_cons]
      rw [Nat.add_assoc]
    · have hb : globPieces (c :: s) = .byte c :: globPieces s := by
        rw [globPieces, if_neg hc]
      rw [globPieces, if_pos rfl, hb]
      simp [List.takeWhile_cons, List.dropWhile_cons, hc, hb]

theorem firstByte_globPieces : ∀ s : Str, firstByte (globPieces s) = s.head?
  | [] => rfl
  | c :: s => by
    by_cases hc : c = '*'
    · subst hc
      rw [globPieces_star]
      rfl
    · rw [globPieces, if_neg hc]
      rfl

theorem isEscapedByte_ne (c : Char) (h : isEscapedByte c = true) : c ≠ '*' ∧ c ≠ '?' := by
  constructor <;> rintro rfl <;> exact absurd h (by decide)

theorem emitPieces_byte (prevChar : Option Char) (c : Char) (pieces : List globPiece) :
    emitPieces prevChar false (.byte c :: pieces) =
      (if isEscapedByte c = true then ['\\', c] else if c = '?' then ['.'] else [c]) ++
        emitPieces (some c) false pieces := by
  rw [emitPieces]
  simp

/-- After a globstar the "/" that follows gives nothing. -/
theorem emitPieces_after_globstar (after : Str)
    (h : after.head? = some '/' ∨ after.head? = none) :
    emitPieces (some '*') true (globPieces after) =
      emitPieces after.head? false (globPieces after.tail) := by
  cases after with
  | nil => rfl
  | cons c t =>
    have hc : c = '/' := by
      rcases h with h | h
      · simpa using h
      · cases h
    subst hc
    rw [globPieces, if_neg (by decide), emitPieces]
    simp

/-- The loop writes the reference text of the pieces of what is left of the glob,
and sets `hadWildcard` when a "*" or a "?" is left. -/
theorem globstarLoop_eq : ∀ (fuel : Nat) (prevChar : Option Char) (rest sb : Str)
    (hadWildcard : Bool), rest.length ≤ fuel →
    globstarLoop fuel prevChar rest sb hadWildcard =
      (sb ++ emitPieces prevChar false (globPieces rest),
        hadWildcard || rest.any (fun c => c = '*' || c = '?'))
  | 0, _, rest, sb, hw, h => by
    have hr : rest = [] := List.length_eq_zero.1 (Nat.le_zero.1 h)
    subst hr
    simp [globstarLoop, globPieces, emitPieces]
  | fuel + 1, _, [], sb, hw, _ => by
    simp [globstarLoop, globPieces, emitPieces]
  | fuel + 1, prevChar, c :: rest1, sb, hw, h => by
    have hlen : rest1.length ≤ fuel := by simpa using h
    rw [globstarLoop]
    by_cases he : isEscapedByte c = true
    · obtain ⟨hs, hq⟩ := isEscapedByte_ne c he
      rw [if_pos he, globstarLoop_eq fuel _ _ _ _ hlen, globPieces, if_neg hs,
        emitPieces_byte, if_pos he]
      simp [hs, hq]
    · rw [if_neg he]
      by_cases hq : c = '?'
      · subst hq
        rw [if_pos rfl, globstarLoop_eq fuel _ _ _ _ hlen, globPieces, if_neg (by decide),
          emitPieces_byte, if_neg he, if_pos rfl]
        simp
      · rw [if_neg hq]
        by_cases hs : c = '*'
        · subst hs
          rw [if_pos rfl, globPieces_star, emitPieces, firstByte_globPieces]
          have hdrop : (rest1.dropWhile (· = '*')).length ≤ fuel :=
            Nat.le_trans (List.dropWhile_sublist _).length_le hlen
          by_cases hg : 1 + (rest1.takeWhile (· = '*')).length > 1 ∧
              (prevChar = some '/' ∨ prevChar = none) ∧
              ((rest1.dropWhile (· = '*')).head? = some '/' ∨
                (rest1.dropWhile (· = '*')).head? = none)
          · have hg2 : 2 ≤ 1 + (rest1.takeWhile (· = '*')).length ∧
                (prevChar = none ∨ prevChar = some '/') ∧
                ((rest1.dropWhile (· = '*')).head? = none ∨
                  (rest1.dropWhile (· = '*')).head? = some '/') :=
              ⟨hg.1, hg.2.1.symm, hg.2.2.symm⟩
            simp only
            rw [if_pos hg, if_pos hg2, globstarLoop_eq fuel _ _ _ _
              (Nat.le_trans (by rw [List.length_tail]; exact Nat.sub_le _ _) hdrop),
              emitPieces_after_globstar _ hg.2.2]
            simp
          · have hg2 : ¬ (2 ≤ 1 + (rest1.takeWhile (· = '*')).length ∧
                (prevChar = none ∨ prevChar = some '/') ∧
                ((rest1.dropWhile (· = '*')).head? = none ∨
                  (rest1.dropWhile (· = '*')).head? = some '/')) :=
              fun h2 => hg ⟨h2.1, h2.2.1.symm, h2.2.2.symm⟩
            simp only
            rw [if_neg hg, if_neg hg2, globstarLoop_eq fuel _ _ _ _ hdrop]
            simp
        · rw [if_neg hs, globstarLoop_eq fuel _ _ _ _ hlen, globPieces, if_neg hs,
            emitPieces_byte, if_neg he, if_neg hq]
          simp [hs, hq]

theorem any_star_question (g : Str) :
    g.any (fun c => c = '*' || c = '?') = true ↔ ('*' ∈ g ∨ '?' ∈ g) := by
  rw [List.any_eq_true]
  constructor
  · rintro ⟨c, hc, h⟩
    have h2 : c = '*' ∨ c = '?' := by simpa using h
    rcases h2 with rfl | rfl
    · exact Or.inl hc
    · exact Or.inr hc
  · rintro (h | h)
    · exact ⟨'*', h, by decide⟩
    · exact ⟨'?', h, by decide⟩

/-- The text and the flag that Go `globstarToEscapedRegexp` returns. -/
theorem globstarToEscapedRegexp_eq (glob : Str) :
    globstarToEscapedRegexp glob =
      ('^' :: (emitPieces none false (globPieces glob) ++ ['$']),
        glob.any (fun c => c = '*' || c = '?')) := by
  unfold globstarToEscapedRegexp
  rw [globstarLoop_eq glob.length none glob ['^'] false (Nat.le_refl _)]
  simp


theorem globPieces_cons_star (s : Str) :
    (∃ count pieces, globPieces s = .stars count :: pieces ∧
      globPieces ('*' :: s) = .stars (count + 1) :: pieces) ∨
    ((∀ p ∈ (globPieces s).head?, p.isStars = false) ∧
      globPieces ('*' :: s) = .stars 1 :: globPieces s) := by
  rw [globPieces, if_pos rfl]
  cases hp : globPieces s with
  | nil =>
    right
    exact ⟨by simp, rfl⟩
  | cons p ps =>
    cases p with
    | stars count =>
      left
      exact ⟨count, ps, rfl, rfl⟩
    | byte c =>
      right
      exact ⟨by simp [globPiece.isStars], rfl⟩

/-- The pieces of a glob are a cutting of its text into maximal runs of "*" and
single other bytes. -/
theorem globPieces_spec : ∀ g : Str,
    (globPieces g).flatMap globPiece.text = g ∧
    (∀ count, globPiece.stars count ∈ globPieces g → 1 ≤ count) ∧
    (∀ c, globPiece.byte c ∈ globPieces g → c ≠ '*') ∧
    (globPieces g).Chain' (fun p q => ¬ (p.isStars = true ∧ q.isStars = true))
  | [] => ⟨rfl, by simp [globPieces], by simp [globPieces], by simp [globPieces]⟩
  | c :: s => by
    obtain ⟨h1, h2, h3, h4⟩ := globPieces_spec s
    by_cases hc : c = '*'
    · subst hc
      rcases globPieces_cons_star s with ⟨count, pieces, hs, hcons⟩ | ⟨hhead, hcons⟩
      · rw [hcons]
        rw [hs] at h1 h2 h3 h4
        refine ⟨?_, ?_, ?_, ?_⟩
        · rw [← h1]
          simp [globPiece.text, List.replicate_succ]
        · intro k hk
          rcases List.mem_cons.1 hk with h | h
          · cases h
            omega
          · exact h2 k (List.mem_cons_of_mem _ h)
        · intro b hb
          rcases List.mem_cons.1 hb with h | h
          · cases h
          · exact h3 b (List.mem_cons_of_mem _ h)
        · cases pieces with
          | nil => simp
          | cons q qs =>
            rw [List.chain'_cons] at h4 ⊢
            exact ⟨fun h => h4.1 ⟨rfl, h.2⟩, h4.2⟩
      · rw [hcons]
        refine ⟨?_, ?_, ?_, ?_⟩
        · rw [List.flatMap_cons, h1]
          rfl
        · intro k hk
          rcases List.mem_cons.1 hk with h | h
          · cases h
            exact Nat.le_refl _
          · exact h2 k h
        · intro b hb
          rcases List.mem_cons.1 hb with h | h
          · cases h
          · exact h3 b h
        · cases hp : globPieces s with
          | nil => simp
          | cons q qs =>
            rw [hp] at h4 hhead
            rw [List.chain'_cons]
            refine ⟨fun h => ?_, h4⟩
            have := hhead q (by simp)
            rw [this] at h
            cases h.2
    · have hb : globPieces (c :: s) = .byte c :: globPieces s := by
        rw [globPieces, if_neg hc]
      rw [hb]
      refine ⟨?_, ?_, ?_, ?_⟩
      · rw [List.flatMap_cons, h1]
        rfl
      · intro k hk
        rcases List.mem_cons.1 hk with h | h
        · cases h
        · exact h2 k h
      · intro b hb2
        rcases List.mem_cons.1 hb2 with h | h
        · cases h
          exact hc
        · exact h3 b h
      · cases hp : globPieces s with
        | nil => simp
        | cons q qs =>
          rw [hp] at h4
          rw [List.chain'_cons]
          exact ⟨fun h => (by cases h.1), h4⟩

/-- C25: `globstarToEscapedRegexp g` returns `hadWildcard = true` exactly when `g`
contains a "*" or a "?"; and for a "sideEffects" item with the absolute pattern
`absPattern`, when the flag is `true` the regexp text is appended to
`sideEffectsRegexps` and `sideEffectsMap` is left as it is, and when the flag is
`false` the key `absPattern` of `sideEffectsMap` is set and `sideEffectsRegexps`
is left as it is. -/
theorem C25_hadWildcard (g : Str) (fsJoin : Str → Str → Str) (inputPath pattern : Str)
    (packageJSON : sideEffectsFields) :
    ((globstarToEscapedRegexp g).2 = true ↔ ('*' ∈ g ∨ '?' ∈ g)) ∧
    ((globstarToEscapedRegexp (fsJoin inputPath
        (if !strings.ContainsRune pattern '/' then "**/".toList ++ pattern else pattern))).2 =
        true →
      addSideEffectsPattern fsJoin inputPath packageJSON pattern =
        { sideEffectsMap := packageJSON.sideEffectsMap,
          sideEffectsRegexps := packageJSON.sideEffectsRegexps ++
            [(globstarToEscapedRegexp (fsJoin inputPath
              (if !strings.ContainsRune pattern '/' then "**/".toList ++ pattern
                else pattern))).1] }) ∧
    ((globstarToEscapedRegexp (fsJoin inputPath
        (if !strings.ContainsRune pattern '/' then "**/".toList ++ pattern else pattern))).2 =
        false →
      addSideEffectsPattern fsJoin inputPath packageJSON pattern =
        { sideEffectsMap := fun key =>
            if key = fsJoin inputPath
                (if !strings.ContainsRune pattern '/' then "**/".toList ++ pattern
                  else pattern) then true
            else packageJSON.sideEffectsMap key,
          sideEffectsRegexps := packageJSON.sideEffectsRegexps }) := by
  refine ⟨?_, fun h => ?_, fun h => ?_⟩
  · rw [globstarToEscapedRegexp_eq]
    exact any_star_question g
  · unfold addSideEffectsPattern
    simp only
    rw [if_pos h]
  · unfold addSideEffectsPattern
    simp only
    rw [if_neg (by rw [h]; exact Bool.false_ne_true)]

theorem C25_hadWildcard_witness :
    (addSideEffectsPattern path.Join "/pkg".toList ⟨fun _ => false, []⟩
        "a.js".toList).sideEffectsRegexps = ["^/pkg/(?:[^/]*(?:/|$))*a\\.js$".toList] ∧
    (addSideEffectsPattern path.Join "/pkg".toList ⟨fun _ => false, []⟩
        "./a.js".toList).sideEffectsMap "/pkg/a.js".toList = true ∧
    (addSideEffectsPattern path.Join "/pkg".toList ⟨fun _ => false, []⟩
        "./a.js".toList).sideEffectsRegexps = [] :=
  ⟨(congrArg sideEffectsFields.sideEffectsRegexps
      ((C25_hadWildcard [] path.Join "/pkg".toList "a.js".toList ⟨fun _ => false, []⟩).2.1
        (by decide))).trans (by decide),
    (congrFun (congrArg sideEffectsFields.sideEffectsMap
      ((C25_hadWildcard [] path.Join "/pkg".toList "./a.js".toList ⟨fun _ => false, []⟩).2.2
        (by decide))) "/pkg/a.js".toList).trans (by decide),
    by decide⟩

/-- C27: with `globPieces glob` the cutting of the glob into maximal runs of "*" and
single other bytes, the text that `globstarToEscapedRegexp` returns is "^", then
the text of `emitPieces` for these pieces, then "$": "(?:[^/]*(?:/|$))*" for a run
of two or more "*" that starts the glob or follows "/" and ends the glob or is
followed by "/", nothing for the "/" after such a run, "[^/]*" for every other run,
a backslash and the byte for each of the escaped bytes, "." for "?", and every
other byte as it is. -/
theorem C27_globstar_recognition (glob : Str) :
    (globstarToEscapedRegexp glob).1 =
      '^' :: (emitPieces none false (globPieces glob) ++ ['$']) ∧
    (globPieces glob).flatMap globPiece.text = glob ∧
    (∀ count, globPiece.stars count ∈ globPieces glob → 1 ≤ count) ∧
    (∀ c, globPiece.byte c ∈ globPieces glob → c ≠ '*') ∧
    (globPieces glob).Chain' (fun p q => ¬ (p.isStars = true ∧ q.isStars = true)) ∧
    (∀ c, isEscapedByte c = true ↔ c ∈ "\\^$.+|()[]{}".toList) := by
  refine ⟨?_, (globPieces_spec glob).1, (globPieces_spec glob).2.1,
    (globPieces_spec glob).2.2.1, (globPieces_spec glob).2.2.2, fun c => ?_⟩
  · rw [globstarToEscapedRegexp_eq]
  · unfold isEscapedByte
    exact List.elem_iff

theorem C27_globstar_recognition_witness :
    (globstarToEscapedRegexp "/pkg/**/a*.js".toList).1 =
      "^/pkg/(?:[^/]*(?:/|$))*a[^/]*\\.js$".toList ∧
    globPieces "/pkg/**/a*.js".toList =
      [.byte '/', .byte 'p', .byte 'k', .byte 'g', .byte '/', .stars 2, .byte '/', .byte 'a',
        .stars 1, .byte '.', .byte 'j', .byte 's'] ∧
    (globstarToEscapedRegexp "a**/b".toList).1 = "^a[^/]*/b$".toList ∧
    1 ≤ 2 :=
  ⟨(C27_globstar_recognition "/pkg/**/a*.js".toList).1.trans (by decide), by decide,
    (C27_globstar_recognition "a**/b".toList).1.trans (by decide),
    (C27_globstar_recognition "/pkg/**/a*.js".toList).2.2.1 2 (by decide)⟩


/-! ### The regexp of "?" -/

theorem globPieces_of_no_star : ∀ s : Str, '*' ∉ s → globPieces s = s.map globPiece.byte
  | [], _ => rfl
  | c :: s, h => by
    have hc : c ≠ '*' := fun hc => h (by rw [hc]; exact List.mem_cons_self _ _)
    rw [globPieces, if_neg hc, globPieces_of_no_star s (fun hs => h (List.mem_cons_of_mem _ hs))]
    rfl

theorem emitPieces_bytes : ∀ (s : Str) (prevChar : Option Char),
    emitPieces prevChar false (s.map globPiece.byte) =
      s.flatMap (fun c => if c = '?' then ['.'] else escapeByte c)
  | [], _ => rfl
  | c :: s, prevChar => by
    rw [List.map_cons, emitPieces_byte, emitPieces_bytes s, List.flatMap_cons]
    congr 1
    unfold escapeByte
    by_cases hq : c = '?'
    · subst hq
      rfl
    · rw [if_neg hq, if_neg hq]

theorem flatMap_escape_of_no_question : ∀ s : Str, '?' ∉ s →
    s.flatMap (fun c => if c = '?' then ['.'] else escapeByte c) = s.flatMap escapeByte
  | [], _ => rfl
  | c :: s, h => by
    have hc : c ≠ '?' := fun hc => h (by rw [hc]; exact List.mem_cons_self _ _)
    rw [List.flatMap_cons, List.flatMap_cons, if_neg hc,
      flatMap_escape_of_no_question s (fun hs => h (List.mem_cons_of_mem _ hs))]

/-- The regexp text of a glob `a?b` whose parts `a` and `b` have no "*" and no
"?". -/
theorem globstarToEscapedRegexp_question (a b : Str) (ha : '*' ∉ a ∧ '?' ∉ a)
    (hb : '*' ∉ b ∧ '?' ∉ b) :
    (globstarToEscapedRegexp (a ++ '?' :: b)).1 =
      '^' :: (a.flatMap escapeByte ++ '.' :: (b.flatMap escapeByte ++ ['$'])) := by
  have hstar : '*' ∉ a ++ '?' :: b := by
    intro h
    rcases List.mem_append.1 h with h | h
    · exact ha.1 h
    · rcases List.mem_cons.1 h with h | h
      · cases h
      · exact hb.1 h
  rw [globstarToEscapedRegexp_eq, globPieces_of_no_star _ hstar, emitPieces_bytes,
    List.flatMap_append, List.flatMap_cons, flatMap_escape_of_no_question a ha.2,
    flatMap_escape_of_no_question b hb.2, if_pos rfl]
  simp

theorem parseRegexp_succ (fuel : Nat) (re : Str) :
    parseRegexp (fuel + 1) re =
      if re = ['$'] then some []
      else if globstarText.isPrefixOf re then
        (parseRegexp fuel (re.drop globstarText.length)).map (regexpPiece.globstar :: ·)
      else if segmentText.isPrefixOf re then
        (parseRegexp fuel (re.drop segmentText.length)).map (regexpPiece.segmentChars :: ·)
      else
        match re with
        | [] => none
        | c :: rest =>
          if c = '\\' then
            match rest with
            | [] => none
            | e :: rest2 =>
              if isEscapedByte e then (parseRegexp fuel rest2).map (regexpPiece.byte e :: ·)
              else none
          else if c = '.' then (parseRegexp fuel rest).map (regexpPiece.anyChar :: ·)
          else if isEscapedByte c || c = '*' || c = '?' then none
          else (parseRegexp fuel rest).map (regexpPiece.byte c :: ·) := rfl

theorem parseRegexp_mono : ∀ (fuel : Nat) (re : Str) (pieces : List regexpPiece),
    parseRegexp fuel re = some pieces → ∀ k, parseRegexp (fuel + k) re = some pieces
  | 0, _, _, h, _ => by
    cases h
  | fuel + 1, re, pieces, h, k => by
    have hk : fuel + 1 + k = (fuel + k) + 1 := by omega
    rw [hk]
    rw [parseRegexp_succ] at h ⊢
    have ih : ∀ (r : Str) (f : List regexpPiece → List regexpPiece) (ps : List regexpPiece),
        (parseRegexp fuel r).map f = some ps → (parseRegexp (fuel + k) r).map f = some ps := by
      intro r f ps hr
      cases hp : parseRegexp fuel r with
      | none => rw [hp] at hr; cases hr
      | some q =>
        rw [hp] at hr
        rw [parseRegexp_mono fuel r q hp k]
        exact hr
    split
    · rename_i h1
      rw [if_pos h1] at h
      exact h
    · rename_i h1
      rw [if_neg h1] at h
      split
      · rename_i h2
        rw [if_pos h2] at h
        exact ih _ _ _ h
      · rename_i h2
        rw [if_neg h2] at h
        split
        · rename_i h3
          rw [if_pos h3] at h
          exact ih _ _ _ h
        · rename_i h3
          rw [if_neg h3] at h
          cases re with
          | nil => cases h
          | cons c rest =>
            simp only at h ⊢
            split
            · rename_i h4
              rw [if_pos h4] at h
              cases rest with
              | nil => cases h
              | cons e rest2 =>
                simp only at h ⊢
                split
                · rename_i h5
                  rw [if_pos h5] at h
                  exact ih _ _ _ h
                · rename_i h5
                  rw [if_neg h5] at h
                  cases h
            · rename_i h4
              rw [if_neg h4] at h
              split
              · rename_i h5
                rw [if_pos h5] at h
                exact ih _ _ _ h
              · rename_i h5
                rw [if_neg h5] at h
                split
                · rename_i h6
                  rw [if_pos h6] at h
                  cases h
                · rename_i h6
                  rw [if_neg h6] at h
                  exact ih _ _ _ h


/-- The reading of a text that starts with none of "$", "(" and "[". -/
theorem parseRegexp_head (fuel : Nat) (x : Char) (rest : Str) (h1 : x ≠ '$') (h2 : x ≠ '(')
    (h3 : x ≠ '[') :
    parseRegexp (fuel + 1) (x :: rest) =
      if x = '\\' then
        match rest with
        | [] => none
        | e :: rest2 =>
          if isEscapedByte e then (parseRegexp fuel rest2).map (regexpPiece.byte e :: ·)
          else none
      else if x = '.' then (parseRegexp fuel rest).map (regexpPiece.anyChar :: ·)
      else if isEscapedByte x || x = '*' || x = '?' then none
      else (parseRegexp fuel rest).map (regexpPiece.byte x :: ·) := by
  rw [parseRegexp_succ]
  have g1 : ¬ (x :: rest = ['$']) := fun h => h1 (List.cons.inj h).1
  have g2 : ¬ (globstarText.isPrefixOf (x :: rest) = true) := by
    unfold globstarText
    intro h
    have h' : ('(' == x) = true := by
      have := h
      simp only [String.toList, List.isPrefixOf, Bool.and_eq_true] at this
      exact this.1
    have e : '(' = x := by simpa using h'
    exact h2 e.symm
  have g3 : ¬ (segmentText.isPrefixOf (x :: rest) = true) := by
    unfold segmentText
    intro h
    have h' : ('[' == x) = true := by
      have := h
      simp only [String.toList, List.isPrefixOf, Bool.and_eq_true] at this
      exact this.1
    have e : '[' = x := by simpa using h'
    exact h3 e.symm
  rw [if_neg g1, if_neg g2, if_neg g3]
  rfl

/-- The reading of one byte of a glob that is neither "*" nor "?", as written by the
compiler. -/
theorem parseRegexp_escapeByte (fuel : Nat) (c : Char) (rest : Str) (hs : c ≠ '*')
    (hq : c ≠ '?') :
    parseRegexp (fuel + 1) (escapeByte c ++ rest) =
      (parseRegexp fuel rest).map (regexpPiece.byte c :: ·) := by
  unfold escapeByte
  by_cases he : isEscapedByte c = true
  · rw [if_pos he]
    show parseRegexp (fuel + 1) ('\\' :: c :: rest) = _
    rw [parseRegexp_head fuel '\\' (c :: rest) (by decide) (by decide) (by decide),
      if_pos rfl]
    simp only
    rw [if_pos he]
  · rw [if_neg he]
    show parseRegexp (fuel + 1) (c :: rest) = _
    have hne : ∀ x : Char, isEscapedByte x = true → c ≠ x := fun x hx h => he (h ▸ hx)
    rw [parseRegexp_head fuel c rest (hne _ (by decide)) (hne _ (by decide))
      (hne _ (by decide)), if_neg (hne _ (by decide)), if_neg (hne _ (by decide))]
    have hcond : ¬ ((isEscapedByte c || decide (c = '*') || decide (c = '?')) = true) := by
      simp [he, hs, hq]
    rw [if_neg hcond]

theorem parseRegexp_escaped : ∀ (s : Str), '*' ∉ s → '?' ∉ s → ∀ (fuel : Nat) (rest : Str),
    parseRegexp (fuel + s.length) (s.flatMap escapeByte ++ rest) =
      (parseRegexp fuel rest).map (s.map regexpPiece.byte ++ ·)
  | [], _, _, fuel, rest => by
    show parseRegexp fuel rest = (parseRegexp fuel rest).map (fun x => [] ++ x)
    cases parseRegexp fuel rest <;> rfl
  | c :: s, hs, hq, fuel, rest => by
    have hs1 : c ≠ '*' := fun h => hs (by rw [h]; exact List.mem_cons_self _ _)
    have hq1 : c ≠ '?' := fun h => hq (by rw [h]; exact List.mem_cons_self _ _)
    rw [List.flatMap_cons, List.append_assoc, List.length_cons, ← Nat.add_assoc,
      parseRegexp_escapeByte _ c _ hs1 hq1,
      parseRegexp_escaped s (fun h => hs (List.mem_cons_of_mem _ h))
        (fun h => hq (List.mem_cons_of_mem _ h)) fuel rest]
    cases parseRegexp fuel rest <;> rfl

theorem length_le_flatMap_escapeByte : ∀ s : Str, s.length ≤ (s.flatMap escapeByte).length
  | [] => Nat.le_refl _
  | c :: s => by
    rw [List.flatMap_cons, List.length_append, List.length_cons]
    have h1 : 1 ≤ (escapeByte c).length := by
      unfold escapeByte
      split <;> simp
    have h2 := length_le_flatMap_escapeByte s
    omega

/-- The reading of the regexp of a glob `a?b` whose parts have no "*" and no "?". -/
theorem parseRegexp_question (a b : Str) (ha : '*' ∉ a ∧ '?' ∉ a) (hb : '*' ∉ b ∧ '?' ∉ b) :
    parseRegexp (a.flatMap escapeByte ++ '.' :: (b.flatMap escapeByte ++ ['$'])).length
        (a.flatMap escapeByte ++ '.' :: (b.flatMap escapeByte ++ ['$'])) =
      some (a.map regexpPiece.byte ++ regexpPiece.anyChar :: b.map regexpPiece.byte) := by
  have h1 : parseRegexp (1 + b.length) (b.flatMap escapeByte ++ ['$']) =
      some (b.map regexpPiece.byte) := by
    rw [parseRegexp_escaped b hb.1 hb.2 1 ['$']]
    show some (b.map regexpPiece.byte ++ []) = _
    rw [List.append_nil]
  have h2 : parseRegexp (1 + b.length + 1) ('.' :: (b.flatMap escapeByte ++ ['$'])) =
      some (regexpPiece.anyChar :: b.map regexpPiece.byte) := by
    rw [parseRegexp_head _ '.' _ (by decide) (by decide) (by decide), if_neg (by decide),
      if_pos rfl, h1]
    rfl
  have h3 : parseRegexp (1 + b.length + 1 + a.length)
      (a.flatMap escapeByte ++ '.' :: (b.flatMap escapeByte ++ ['$'])) =
      some (a.map regexpPiece.byte ++ regexpPiece.anyChar :: b.map regexpPiece.byte) := by
    rw [parseRegexp_escaped a ha.1 ha.2, h2]
    rfl
  have hlen : (a.flatMap escapeByte ++ '.' :: (b.flatMap escapeByte ++ ['$'])).length =
      (1 + b.length + 1 + a.length) +
        ((a.flatMap escapeByte).length - a.length + ((b.flatMap escapeByte).length - b.length)) := by
    have := length_le_flatMap_escapeByte a
    have := length_le_flatMap_escapeByte b
    simp only [List.length_append, List.length_cons, List.length_nil]
    omega
  rw [hlen]
  exact parseRegexp_mono _ _ _ h3 _

theorem matchPieces_byte_cons (c x : Char) (pieces : List regexpPiece) (rest : Str) :
    matchPieces (.byte c :: pieces) (x :: rest) =
      (decide (x = c) && matchPieces pieces rest) := rfl

theorem matchPieces_anyChar_cons (x : Char) (pieces : List regexpPiece) (rest : Str) :
    matchPieces (.anyChar :: pieces) (x :: rest) =
      (decide (x ≠ '\n') && matchPieces pieces rest) := rfl

theorem matchPieces_bytes : ∀ (s : Str) (pieces : List regexpPiece) (text : Str),
    matchPieces (s.map regexpPiece.byte ++ pieces) text = true ↔
      ∃ t, text = s ++ t ∧ matchPieces pieces t = true
  | [], pieces, text => by simp
  | c :: s, pieces, text => by
    rw [List.map_cons, List.cons_append]
    cases text with
    | nil =>
      constructor
      · intro h
        cases h
      · rintro ⟨t, ht, _⟩
        cases ht
    | cons x rest =>
      rw [matchPieces_byte_cons]
      simp only [Bool.and_eq_true, decide_eq_true_eq, List.cons_append, List.cons.injEq]
      rw [matchPieces_bytes s pieces rest]
      constructor
      · rintro ⟨rfl, t, ht, hm⟩
        exact ⟨t, ⟨rfl, ht⟩, hm⟩
      · rintro ⟨t, ⟨rfl, ht⟩, hm⟩
        exact ⟨rfl, t, ht, hm⟩

/-- C26, as amended: for a glob `a?b` whose parts `a` and `b` have no "*" and no
"?", the regexp that `globstarToEscapedRegexp` writes is "^", the bytes of `a`
(escaped where needed), ".", the bytes of `b`, "$"; it matches exactly the texts
`a`, one character, `b`, where the character is any character other than the
newline, "/" included. -/
theorem C26_question_mark (a b : Str) (ha : '*' ∉ a ∧ '?' ∉ a) (hb : '*' ∉ b ∧ '?' ∉ b) :
    (globstarToEscapedRegexp (a ++ '?' :: b)).1 =
      '^' :: (a.flatMap escapeByte ++ '.' :: (b.flatMap escapeByte ++ ['$'])) ∧
    (∀ text : Str, regexpMatchString (globstarToEscapedRegexp (a ++ '?' :: b)).1 text = true ↔
      ∃ c : Char, c ≠ '\n' ∧ text = a ++ c :: b) ∧
    regexpMatchString (globstarToEscapedRegexp (a ++ '?' :: b)).1 (a ++ '/' :: b) = true := by
  have hmatch : ∀ text : Str,
      regexpMatchString (globstarToEscapedRegexp (a ++ '?' :: b)).1 text = true ↔
        ∃ c : Char, c ≠ '\n' ∧ text = a ++ c :: b := by
    intro text
    rw [globstarToEscapedRegexp_question a b ha hb]
    unfold regexpMatchString
    simp only [if_true]
    rw [parseRegexp_question a b ha hb]
    simp only
    rw [matchPieces_bytes]
    constructor
    · rintro ⟨t, rfl, hm⟩
      cases t with
      | nil => cases hm
      | cons x rest =>
        rw [matchPieces_anyChar_cons] at hm
        simp only [Bool.and_eq_true, decide_eq_true_eq] at hm
        have hrest := (matchPieces_bytes b [] rest).1 (by rw [List.append_nil]; exact hm.2)
        obtain ⟨t2, ht2, hm2⟩ := hrest
        cases t2 with
        | nil =>
          rw [List.append_nil] at ht2
          exact ⟨x, by simpa using hm.1, by rw [ht2]⟩
        | cons y ys => cases hm2
    · rintro ⟨c, hc, rfl⟩
      refine ⟨c :: b, rfl, ?_⟩
      rw [matchPieces_anyChar_cons]
      simp only [Bool.and_eq_true, decide_eq_true_eq]
      refine ⟨by simpa using hc, ?_⟩
      have := (matchPieces_bytes b [] b).2 ⟨[], by rw [List.append_nil], rfl⟩
      rw [List.append_nil] at this
      exact this
  exact ⟨globstarToEscapedRegexp_question a b ha hb, hmatch,
    (hmatch _).2 ⟨'/', by decide, rfl⟩⟩

theorem C26_question_mark_witness :
    (globstarToEscapedRegexp "/pkg/x?.js".toList).1 = "^/pkg/x.\\.js$".toList ∧
    regexpMatchString (globstarToEscapedRegexp "/pkg/x?.js".toList).1 "/pkg/xy.js".toList =
      true :=
  ⟨(C26_question_mark "/pkg/x".toList ".js".toList (by decide) (by decide)).1.trans
      (by decide),
    ((C26_question_mark "/pkg/x".toList ".js".toList (by decide) (by decide)).2.1
      "/pkg/xy.js".toList).2 ⟨'y', by decide, by decide⟩⟩

/-- C26 fails as stated: the glob "a?b" is compiled to the regexp "^a.b$", whose "."
stands for any character but the newline, and this regexp matches the text "a/b":
the "?" matches the path separator. -/
theorem C26_counterexample :
    (globstarToEscapedRegexp "a?b".toList).1 = "^a.b$".toList ∧
    regexpMatchString (globstarToEscapedRegexp "a?b".toList).1 "a/b".toList = true ∧
    regexpMatchString (globstarToEscapedRegexp "a?b".toList).1 "axb".toList = true ∧
    regexpMatchString (globstarToEscapedRegexp "a?b".toList).1 "ab".toList = false := by
  decide


theorem C29_findInvalidSegment_reference_witness :
    findInvalidSegment "./a/../b".toList = "..".toList ∧
    findInvalidSegment "../a\\b".toList = [] ∧
    ("a/b".toList.drop (1 + 1)).length < "a/b".toList.length ∧
    findInvalidSegmentLoop 3 "a/.".toList = ".".toList :=
  ⟨(C29_findInvalidSegment_reference "./a/../b".toList).1.trans (by decide),
    (C29_findInvalidSegment_reference "../a\\b".toList).2.1.2 (by decide),
    (C29_findInvalidSegment_reference "a/b".toList).2.2.2.1 1 (by decide),
    ((C29_findInvalidSegment_reference "a/.".toList).2.2.2.2 3 (by decide)).trans
      (by decide)⟩


/-! ### Resolved paths and the package directory -/

theorem splitSlash_cons_slash (s : Str) : splitSlash ('/' :: s) = [] :: splitSlash s := by
  rw [splitSlash, if_pos rfl]

theorem splitSlash_cons_other (c : Char) (s : Str) (seg : Str) (segs : List Str)
    (hc : c ≠ '/') (hs : splitSlash s = seg :: segs) :
    splitSlash (c :: s) = (c :: seg) :: segs := by
  rw [splitSlash, if_neg hc, hs]

theorem splitSlash_ne_nil : ∀ s : Str, splitSlash s ≠ []
  | [] => by simp [splitSlash]
  | c :: s => by
    rw [splitSlash]
    split
    · simp
    · split <;> simp

theorem splitSlash_append_slash : ∀ a b : Str,
    splitSlash (a ++ '/' :: b) = splitSlash a ++ splitSlash b
  | [], b => by
    rw [List.nil_append, splitSlash_cons_slash]
    rfl
  | c :: a, b => by
    rw [List.cons_append]
    by_cases hc : c = '/'
    · subst hc
      rw [splitSlash_cons_slash, splitSlash_cons_slash, splitSlash_append_slash a b]
      rfl
    · cases hs : splitSlash a with
      | nil => exact absurd hs (splitSlash_ne_nil a)
      | cons seg segs =>
        rw [splitSlash_cons_other c a seg segs hc hs,
          splitSlash_cons_other c (a ++ '/' :: b) seg (segs ++ splitSlash b) hc
            (by rw [splitSlash_append_slash a b, hs]; rfl)]
        rfl

theorem splitSlash_of_no_slash : ∀ s : Str, '/' ∉ s → splitSlash s = [s]
  | [], _ => rfl
  | c :: s, h => by
    have hc : c ≠ '/' := fun hc => h (by rw [hc]; exact List.mem_cons_self _ _)
    exact splitSlash_cons_other c s s [] hc
      (splitSlash_of_no_slash s (fun hs => h (List.mem_cons_of_mem _ hs)))

theorem mem_splitSlash_no_slash : ∀ (s seg : Str), seg ∈ splitSlash s → '/' ∉ seg
  | [], seg, h => by
    have : seg = [] := by simpa [splitSlash] using h
    rw [this]
    simp
  | c :: s, seg, h => by
    by_cases hc : c = '/'
    · subst hc
      rw [splitSlash_cons_slash] at h
      rcases List.mem_cons.1 h with h | h
      · rw [h]
        simp
      · exact mem_splitSlash_no_slash s seg h
    · cases hs : splitSlash s with
      | nil => exact absurd hs (splitSlash_ne_nil s)
      | cons sg sgs =>
        rw [splitSlash_cons_other c s sg sgs hc hs] at h
        rcases List.mem_cons.1 h with h | h
        · rw [h]
          intro hm
          rcases List.mem_cons.1 hm with hm | hm
          · exact hc hm.symm
          · exact mem_splitSlash_no_slash s sg (by rw [hs]; exact List.mem_cons_self _ _) hm
        · exact mem_splitSlash_no_slash s seg (by rw [hs]; exact List.mem_cons_of_mem _ h)

/-- A segment followed by the rest of a path, which is empty or begins with "/". -/
theorem splitSlash_segment (seg w : Str) (hseg : '/' ∉ seg)
    (hw : w = [] ∨ w.head? = some '/') :
    splitSlash (seg ++ w) = seg :: (splitSlash w).tail ∧
    splitSlash w = [] :: (splitSlash w).tail := by
  cases w with
  | nil =>
    rw [List.append_nil, splitSlash_of_no_slash seg hseg]
    exact ⟨rfl, rfl⟩
  | cons x r =>
    have hx : x = '/' := by
      rcases hw with h | h
      · cases h
      · simpa using h
    subst hx
    rw [splitSlash_append_slash, splitSlash_of_no_slash seg hseg, splitSlash_cons_slash]
    exact ⟨rfl, rfl⟩

/-- A "/"-segment without "\\" that is not the first one is a segment of
`splitSegments` that is not the first one. -/
theorem splitSlash_splitSegments : ∀ t : Str,
    ∃ (h1 : Str) (t1 : List Str) (h2 : Str) (t2 : List Str),
      splitSlash t = h1 :: t1 ∧ splitSegments t = h2 :: t2 ∧
      ('\\' ∉ h1 → h1 = h2) ∧ (∀ seg ∈ t1, '\\' ∉ seg → seg ∈ t2)
  | [] => ⟨[], [], [], [], rfl, rfl, fun _ => rfl, fun _ h => absurd h (List.not_mem_nil _)⟩
  | c :: s => by
    obtain ⟨h1, t1, h2, t2, e1, e2, hh, ht⟩ := splitSlash_splitSegments s
    by_cases hc : c = '/'
    · subst hc
      refine ⟨[], h1 :: t1, [], h2 :: t2, by rw [splitSlash_cons_slash, e1],
        by rw [splitSegments, if_pos (Or.inl rfl), e2], fun _ => rfl, ?_⟩
      intro seg hseg hno
      rcases List.mem_cons.1 hseg with h | h
      · rw [h] at hno ⊢
        rw [hh hno]
        exact List.mem_cons_self _ _
      · exact List.mem_cons_of_mem _ (ht seg h hno)
    · by_cases hb : c = '\\'
      · subst hb
        refine ⟨'\\' :: h1, t1, [], h2 :: t2, splitSlash_cons_other _ _ _ _ hc e1,
          by rw [splitSegments, if_pos (Or.inr rfl), e2], ?_, ?_⟩
        · intro hno
          exact absurd (List.mem_cons_self _ _) hno
        · intro seg hseg hno
          exact List.mem_cons_of_mem _ (ht seg hseg hno)
      · refine ⟨c :: h1, t1, c :: h2, t2, splitSlash_cons_other _ _ _ _ hc e1, ?_, ?_, ht⟩
        · rw [splitSegments, if_neg (by rintro (h | h); exact hc h; exact hb h), e2]
        · intro hno
          rw [hh (fun h => hno (List.mem_cons_of_mem _ h))]

/-- A target that starts with "./" and passes `findInvalidSegment` has no ".."
segment. -/
theorem no_dotdot_of_valid_target (t : Str) (hpre : strings.HasPrefix t "./".toList = true)
    (hvalid : findInvalidSegment t = []) : "..".toList ∉ splitSlash t := by
  intro hmem
  obtain ⟨r, hr⟩ := (strings.HasPrefix_iff _ _).1 hpre
  have ht : t = ['.'] ++ '/' :: r := by rw [← hr]; rfl
  obtain ⟨h1, t1, h2, t2, e1, e2, _, htail⟩ := splitSlash_splitSegments t
  have hs : splitSlash t = ['.'] :: splitSlash r := by
    rw [ht, splitSlash_append_slash]
    rfl
  rw [hs] at hmem e1
  have hin : "..".toList ∈ splitSlash r := by
    rcases List.mem_cons.1 hmem with h | h
    · exact absurd h (by decide)
    · exact h
  have ht1 : t1 = splitSlash r := (List.cons.inj e1).2.symm
  have hseg : "..".toList ∈ (splitSegments t).tail := by
    rw [e2]
    exact htail _ (by rw [ht1]; exact hin) (by decide)
  exact (findInvalidSegment_ne_nil_iff t).2 ⟨_, hseg, by decide⟩ hvalid


theorem cleanLoop_cons (rooted : Bool) (fuel : Nat) (c : Char) (rest1 out : Str)
    (dotdot : Nat) :
    path.cleanLoop rooted (fuel + 1) (c :: rest1) out dotdot =
      if c = '/' then path.cleanLoop rooted fuel rest1 out dotdot
      else if c = '.' ∧ (rest1 = [] ∨ rest1.head? = some '/') then
        path.cleanLoop rooted fuel rest1 out dotdot
      else if c = '.' ∧ rest1.head? = some '.' ∧
          (rest1.tail = [] ∨ rest1.tail.head? = some '/') then
        if out.length > dotdot then
          path.cleanLoop rooted fuel rest1.tail
            (out.take (path.backtrack out dotdot (out.length - 1))) dotdot
        else if !rooted then
          path.cleanLoop rooted fuel rest1.tail
            ((if out.length > 0 then out ++ ['/'] else out) ++ ['.', '.'])
            ((if out.length > 0 then out ++ ['/'] else out) ++ ['.', '.']).length
        else path.cleanLoop rooted fuel rest1.tail out dotdot
      else
        path.cleanLoop rooted fuel ((c :: rest1).dropWhile (· ≠ '/'))
          ((if (rooted && out.length != 1) || (!rooted && out.length != 0) then out ++ ['/']
            else out) ++ (c :: rest1).takeWhile (· ≠ '/')) dotdot := rfl

theorem cleanLoop_nil (rooted : Bool) (fuel : Nat) (out : Str) (dotdot : Nat) :
    path.cleanLoop rooted fuel [] out dotdot = out := by
  cases fuel <;> rfl

theorem joinSegments_append (a b : List Str) :
    joinSegments (a ++ b) = joinSegments a ++ joinSegments b := by
  unfold joinSegments
  rw [List.flatMap_append]

theorem joinSegments_cons (s : Str) (ss : List Str) :
    joinSegments (s :: ss) = '/' :: (s ++ joinSegments ss) := rfl

theorem rootedPath_ne_nil (segs : List Str) : rootedPath segs ≠ [] := by
  unfold rootedPath
  cases segs with
  | nil => simp
  | cons s ss => simp [joinSegments_cons]

theorem rootedPath_of_ne_nil (segs : List Str) (h : segs ≠ []) :
    rootedPath segs = joinSegments segs := by
  unfold rootedPath
  rw [if_neg h]

/-- The write of a real path element by `path.Clean`, on segments. -/
theorem rootedPath_snoc (os : List Str) (seg : Str) (hos : ∀ s ∈ os, s ≠ []) :
    (if (true && (rootedPath os).length != 1) || (!true && (rootedPath os).length != 0) then
        rootedPath os ++ ['/']
      else rootedPath os) ++ seg = rootedPath (os ++ [seg]) := by
  rw [rootedPath_of_ne_nil (os ++ [seg]) (by simp), joinSegments_append]
  cases os with
  | nil => simp [rootedPath, joinSegments]
  | cons o os1 =>
    have ho : o ≠ [] := hos o (List.mem_cons_self _ _)
    rw [rootedPath_of_ne_nil _ (List.cons_ne_nil _ _)]
    have hlen : (joinSegments (o :: os1)).length ≠ 1 := by
      rw [joinSegments_cons, List.length_cons, List.length_append]
      have : 0 < o.length := List.length_pos.2 ho
      omega
    have hcond : ((true && (joinSegments (o :: os1)).length != 1) ||
        (!true && (joinSegments (o :: os1)).length != 0)) = true := by
      simp [hlen]
    rw [if_pos hcond]
    simp [joinSegments]

theorem keptSegments_eq (p : Str) :
    keptSegments p = (splitSlash p).filter (fun seg => decide (seg ≠ [] ∧ seg ≠ ".".toList)) :=
  rfl

/-- The main loop of `path.Clean` on the rest of a rooted path that has no ".."
segment: it writes the segments that are neither empty nor ".". -/
theorem cleanLoop_rooted : ∀ (fuel : Nat) (u : Str) (os : List Str), u.length ≤ fuel →
    "..".toList ∉ splitSlash u → (∀ s ∈ os, s ≠ []) →
    path.cleanLoop true fuel u (rootedPath os) 1 = rootedPath (os ++ keptSegments u)
  | 0, u, os, h, _, _ => by
    have hu : u = [] := List.length_eq_zero.1 (Nat.le_zero.1 h)
    subst hu
    rw [cleanLoop_nil]
    show rootedPath os = rootedPath (os ++ [])
    rw [List.append_nil]
  | fuel + 1, [], os, _, _, _ => by
    rw [cleanLoop_nil]
    show rootedPath os = rootedPath (os ++ [])
    rw [List.append_nil]
  | fuel + 1, c :: rest1, os, h, hdd, hos => by
    have hlen : rest1.length ≤ fuel := by simpa using h
    rw [cleanLoop_cons]
    by_cases hc : c = '/'
    · subst hc
      rw [if_pos rfl]
      rw [splitSlash_cons_slash] at hdd
      rw [cleanLoop_rooted fuel rest1 os hlen (fun hm => hdd (List.mem_cons_of_mem _ hm)) hos,
        keptSegments_eq ('/' :: rest1), splitSlash_cons_slash]
      rfl
    · rw [if_neg hc]
      by_cases hdot : c = '.' ∧ (rest1 = [] ∨ rest1.head? = some '/')
      · rw [if_pos hdot]
        obtain ⟨hcd, hrest⟩ := hdot
        subst hcd
        obtain ⟨e1, e2⟩ := splitSlash_segment ['.'] rest1 (by decide) hrest
        have e1' : splitSlash ('.' :: rest1) = ['.'] :: (splitSlash rest1).tail := e1
        rw [e1'] at hdd
        have hdd2 : "..".toList ∉ splitSlash rest1 := by
          rw [e2]
          intro hm
          rcases List.mem_cons.1 hm with hm | hm
          · exact absurd hm (by decide)
          · exact hdd (List.mem_cons_of_mem _ hm)
        rw [cleanLoop_rooted fuel rest1 os hlen hdd2 hos, keptSegments_eq ('.' :: rest1), e1',
          keptSegments_eq rest1]
        conv_lhs => rw [e2]
        rfl
      · rw [if_neg hdot]
        by_cases hdotdot : c = '.' ∧ rest1.head? = some '.' ∧
            (rest1.tail = [] ∨ rest1.tail.head? = some '/')
        · exfalso
          obtain ⟨hcd, hhead, htail⟩ := hdotdot
          subst hcd
          cases rest1 with
          | nil => cases hhead
          | cons x r =>
            have hx : x = '.' := by simpa using hhead
            subst hx
            obtain ⟨e1, _⟩ := splitSlash_segment "..".toList r (by decide) htail
            apply hdd
            have e1' : splitSlash ('.' :: '.' :: r) = "..".toList :: (splitSlash r).tail := e1
            rw [e1']
            exact List.mem_cons_self _ _
        · rw [if_neg hdotdot]
          have hsplit : (c :: rest1).takeWhile (· ≠ '/') ++ (c :: rest1).dropWhile (· ≠ '/') =
              c :: rest1 := List.takeWhile_append_dropWhile _ _
          have hseg : '/' ∉ (c :: rest1).takeWhile (· ≠ '/') := by
            intro hm
            have := List.mem_takeWhile_imp hm
            simp at this
          have hw : (c :: rest1).dropWhile (· ≠ '/') = [] ∨
              ((c :: rest1).dropWhile (· ≠ '/')).head? = some '/' := by
            cases hd : (c :: rest1).dropWhile (· ≠ '/') with
            | nil => exact Or.inl rfl
            | cons x r =>
              right
              have := List.head?_dropWhile_not (· ≠ '/') (c :: rest1)
              rw [hd] at this
              simp only [List.head?_cons, ne_eq, decide_not] at this
              have hx : x = '/' := by simpa using this
              rw [hx]
              rfl
          have htw : (c :: rest1).takeWhile (· ≠ '/') = c :: rest1.takeWhile (· ≠ '/') := by
            rw [List.takeWhile_cons]
            simp [hc]
          have hdw : (c :: rest1).dropWhile (· ≠ '/') = rest1.dropWhile (· ≠ '/') := by
            rw [List.dropWhile_cons]
            simp [hc]
          obtain ⟨e1, e2⟩ := splitSlash_segment _ _ hseg hw
          rw [hsplit] at e1
          rw [e1] at hdd
          have hdd2 : "..".toList ∉ splitSlash ((c :: rest1).dropWhile (· ≠ '/')) := by
            rw [e2]
            intro hm
            rcases List.mem_cons.1 hm with hm | hm
            · exact absurd hm (by decide)
            · exact hdd (List.mem_cons_of_mem _ hm)
          have hne : (c :: rest1).takeWhile (· ≠ '/') ≠ [] := by
            rw [htw]
            exact List.cons_ne_nil _ _
          have hnd : (c :: rest1).takeWhile (· ≠ '/') ≠ ".".toList := by
            intro heq
            apply hdot
            rw [htw] at heq
            have h1 : c = '.' := (List.cons.inj heq).1
            have h2 : rest1.takeWhile (· ≠ '/') = [] := (List.cons.inj heq).2
            refine ⟨h1, ?_⟩
            cases rest1 with
            | nil => exact Or.inl rfl
            | cons x r =>
              right
              rw [List.takeWhile_cons] at h2
              by_cases hx : x = '/'
              · rw [hx]
                rfl
              · simp [hx] at h2
          have hlen2 : ((c :: rest1).dropWhile (· ≠ '/')).length ≤ fuel := by
            rw [hdw]
            exact Nat.le_trans (List.dropWhile_sublist _).length_le hlen
          rw [rootedPath_snoc os _ hos,
            cleanLoop_rooted fuel _ (os ++ [(c :: rest1).takeWhile (· ≠ '/')]) hlen2 hdd2
              (by
                intro s hs
                rcases List.mem_append.1 hs with hs | hs
                · exact hos s hs
                · rw [List.mem_singleton.1 hs]
                  exact hne),
            keptSegments_eq (c :: rest1), e1, keptSegments_eq, List.append_assoc]
          conv_lhs => rw [e2]
          rw [@List.filter_cons_of_pos _ (fun seg : Str => decide (seg ≠ [] ∧ seg ≠ ".".toList))
              _ _ (decide_eq_true ⟨hne, hnd⟩),
            @List.filter_cons_of_neg _ (fun seg : Str => decide (seg ≠ [] ∧ seg ≠ ".".toList))
              _ _ (by simp)]
          rfl


theorem isNormalSegment_iff (seg : Str) :
    isNormalSegment seg = true ↔
      (seg ≠ [] ∧ seg ≠ ".".toList ∧ seg ≠ "..".toList ∧ '/' ∉ seg) := by
  unfold isNormalSegment
  exact decide_eq_true_iff

/-- `path.Clean` on a rooted path without ".." segment. -/
theorem Clean_rooted (u : Str) (h : "..".toList ∉ splitSlash u) :
    path.Clean ('/' :: u) = rootedPath (keptSegments u) := by
  unfold path.Clean
  rw [if_neg (List.cons_ne_nil _ _)]
  have hloop := cleanLoop_rooted ('/' :: u).length u [] (Nat.le_succ _) h
    (fun s hs => absurd hs (List.not_mem_nil s))
  have hr : rootedPath [] = ['/'] := rfl
  rw [hr, List.nil_append] at hloop
  simp only [List.head?_cons, if_true, List.tail_cons, decide_True]
  rw [hloop, if_neg (rootedPath_ne_nil _)]

theorem splitSlash_joinSegments : ∀ (ss : List Str) (s : Str), '/' ∉ s →
    (∀ x ∈ ss, '/' ∉ x) → splitSlash (s ++ joinSegments ss) = s :: ss
  | [], s, hs, _ => by
    show splitSlash (s ++ []) = [s]
    rw [List.append_nil]
    exact splitSlash_of_no_slash s hs
  | x :: ss, s, hs, hss => by
    rw [joinSegments_cons, splitSlash_append_slash, splitSlash_of_no_slash s hs,
      splitSlash_joinSegments ss x (hss x (List.mem_cons_self _ _))
        (fun y hy => hss y (List.mem_cons_of_mem _ hy))]
    rfl

theorem keptSegments_normal (t : Str) (h : "..".toList ∉ splitSlash t) :
    ∀ s ∈ keptSegments t, isNormalSegment s = true := by
  intro s hs
  rw [keptSegments_eq, List.mem_filter] at hs
  obtain ⟨hmem, hp⟩ := hs
  have hp2 : s ≠ [] ∧ s ≠ ".".toList := of_decide_eq_true hp
  rw [isNormalSegment_iff]
  exact ⟨hp2.1, hp2.2, fun heq => h (heq ▸ hmem), mem_splitSlash_no_slash t s hmem⟩

theorem filter_normal (ps : List Str) (h : ∀ s ∈ ps, isNormalSegment s = true) :
    ps.filter (fun seg => decide (seg ≠ [] ∧ seg ≠ ".".toList)) = ps := by
  rw [List.filter_eq_self]
  intro s hs
  have := (isNormalSegment_iff s).1 (h s hs)
  exact decide_eq_true ⟨this.1, this.2.1⟩

/-- `path.Join` of a clean absolute path and a path without ".." segment. -/
theorem Join_segments (ps : List Str) (t : Str) (hne : ps ≠ [])
    (hps : ∀ s ∈ ps, isNormalSegment s = true) (ht : "..".toList ∉ splitSlash t) :
    path.Join (joinSegments ps) t = joinSegments (ps ++ keptSegments t) := by
  cases ps with
  | nil => exact absurd rfl hne
  | cons s1 ss =>
    have hslash : ∀ x ∈ s1 :: ss, '/' ∉ x := fun x hx =>
      ((isNormalSegment_iff x).1 (hps x hx)).2.2.2
    have hu0 : splitSlash (s1 ++ joinSegments ss) = s1 :: ss :=
      splitSlash_joinSegments ss s1 (hslash s1 (List.mem_cons_self _ _))
        (fun x hx => hslash x (List.mem_cons_of_mem _ hx))
    have hnd : "..".toList ∉ s1 :: ss := fun hm =>
      ((isNormalSegment_iff _).1 (hps _ hm)).2.2.1 rfl
    have ha : joinSegments (s1 :: ss) ≠ [] := by
      rw [joinSegments_cons]
      exact List.cons_ne_nil _ _
    unfold path.Join
    rw [if_neg (fun h => ha h.1), if_neg ha]
    by_cases htn : t = []
    · subst htn
      rw [if_pos rfl, joinSegments_cons, Clean_rooted _ (by rw [hu0]; exact hnd),
        keptSegments_eq, hu0, filter_normal _ hps]
      show rootedPath (s1 :: ss) = '/' :: (s1 ++ joinSegments (ss ++ []))
      rw [List.append_nil, rootedPath_of_ne_nil _ (List.cons_ne_nil _ _), joinSegments_cons]
    · rw [if_neg htn, joinSegments_cons, List.cons_append]
      have hsplit : splitSlash (s1 ++ joinSegments ss ++ '/' :: t) =
          (s1 :: ss) ++ splitSlash t := by
        rw [splitSlash_append_slash, hu0]
      rw [Clean_rooted _ (by
          rw [hsplit]
          intro hm
          rcases List.mem_append.1 hm with hm | hm
          · exact hnd hm
          · exact ht hm),
        keptSegments_eq, hsplit, List.filter_append, filter_normal _ hps,
        rootedPath_of_ne_nil _ (by simp), ← keptSegments_eq]

theorem ReplaceAll_append (a b : Str) (old : Char) (new : Str) :
    strings.ReplaceAll (a ++ b) old new =
      strings.ReplaceAll a old new ++ strings.ReplaceAll b old new := by
  induction a with
  | nil => rfl
  | cons x a ih =>
    rw [List.cons_append, strings.ReplaceAll, strings.ReplaceAll, ih, List.append_assoc]

theorem ReplaceAll_of_not_mem (old : Char) (new : Str) :
    ∀ a : Str, old ∉ a → strings.ReplaceAll a old new = a
  | [], _ => rfl
  | x :: a, h => by
    have hx : x ≠ old := fun hx => h (by rw [hx]; exact List.mem_cons_self _ _)
    rw [strings.ReplaceAll, if_neg hx,
      ReplaceAll_of_not_mem old new a (fun ha => h (List.mem_cons_of_mem _ ha))]
    rfl

theorem insidePackage_append (packageURL rest : Str)
    (h : rest = [] ∨ rest.head? = some '/') :
    insidePackage packageURL (packageURL ++ rest) = true := by
  unfold insidePackage
  cases rest with
  | nil => simp
  | cons x r =>
    have hx : x = '/' := by
      rcases h with h | h
      · cases h
      · simpa using h
    subst hx
    rw [Bool.or_eq_true]
    right
    rw [strings.HasPrefix_iff]
    exact ⟨r, by simp⟩

theorem joinSegments_head (segs : List Str) :
    joinSegments segs = [] ∨ (joinSegments segs).head? = some '/' := by
  cases segs with
  | nil => exact Or.inl rfl
  | cons s ss => exact Or.inr rfl


/-- The result of a string target of "exports": a status other than `exact` and
`inexact`, or the joined path of a target that starts with "./" and passes
`findInvalidSegment`. -/
theorem string_target_form (packageURL : Str) (ft : Range) (target subpath : Str)
    (pattern : Bool) :
    ((esmPackageTargetResolveString packageURL ft target subpath pattern false).2.1 ≠
        pjStatusExact ∧
      (esmPackageTargetResolveString packageURL ft target subpath pattern false).2.1 ≠
        pjStatusInexact) ∨
    (strings.HasPrefix target "./".toList = true ∧ findInvalidSegment target = [] ∧
      (esmPackageTargetResolveString packageURL ft target subpath pattern false).1 =
        if pattern = true then strings.ReplaceAll (path.Join packageURL target) '*' subpath
        else path.Join (path.Join packageURL target) subpath) := by
  unfold esmPackageTargetResolveString
  simp only [Bool.false_and, Bool.false_eq_true, if_false]
  split
  · left
    exact ⟨fun h => (by cases h), fun h => (by cases h)⟩
  · split
    · left
      exact ⟨fun h => (by cases h), fun h => (by cases h)⟩
    · rename_i hpre
      split
      · left
        exact ⟨fun h => (by cases h), fun h => (by cases h)⟩
      · rename_i hvalid
        split
        · left
          exact ⟨fun h => (by cases h), fun h => (by cases h)⟩
        · right
          refine ⟨by simpa using hpre, by simpa using hvalid, ?_⟩
          split <;> rfl

/-- A string target resolves inside the package directory, for a pattern match and
for a subpath without ".." segment. -/
theorem string_target_inside (ps : List Str) (hne : ps ≠ [])
    (hps : ∀ s ∈ ps, isNormalSegment s = true) (hstar : '*' ∉ joinSegments ps) (ft : Range)
    (target subpath : Str) (pattern : Bool)
    (hsub : pattern = true ∨ "..".toList ∉ splitSlash subpath)
    (hst : (esmPackageTargetResolveString (joinSegments ps) ft target subpath pattern
        false).2.1 = pjStatusExact ∨
      (esmPackageTargetResolveString (joinSegments ps) ft target subpath pattern
        false).2.1 = pjStatusInexact) :
    insidePackage (joinSegments ps)
      (esmPackageTargetResolveString (joinSegments ps) ft target subpath pattern false).1 =
        true := by
  rcases string_target_form (joinSegments ps) ft target subpath pattern with
    ⟨h1, h2⟩ | ⟨hpre, hvalid, hres⟩
  · rcases hst with h | h
    · exact absurd h h1
    · exact absurd h h2
  · rw [hres]
    have hnd := no_dotdot_of_valid_target target hpre hvalid
    have hjoin := Join_segments ps target hne hps hnd
    rw [hjoin]
    by_cases hp : pattern = true
    · rw [if_pos hp, joinSegments_append, ReplaceAll_append,
        ReplaceAll_of_not_mem '*' subpath _ hstar]
      apply insidePackage_append
      cases keptSegments target with
      | nil => exact Or.inl rfl
      | cons k ks =>
        right
        rw [joinSegments_cons, strings.ReplaceAll, if_neg (by decide)]
        rfl
    · rw [if_neg hp]
      have hsub2 : "..".toList ∉ splitSlash subpath := hsub.resolve_left hp
      rw [Join_segments (ps ++ keptSegments target) subpath (by simp [hne])
        (by
          intro s hs
          rcases List.mem_append.1 hs with hs | hs
          · exact hps s hs
          · exact keptSegments_normal target hnd s hs)
        hsub2, List.append_assoc, joinSegments_append]
      exact insidePackage_append _ _ (joinSegments_head _)

mutual
theorem targetResolve_inside (ps : List Str) (hne : ps ≠ [])
    (hps : ∀ s ∈ ps, isNormalSegment s = true) (hstar : '*' ∉ joinSegments ps) :
    ∀ (e : pjEntry) (subpath : Str) (pattern : Bool) (conditions : Str → Bool),
      (pattern = true ∨ "..".toList ∉ splitSlash subpath) →
      ((esmPackageTargetResolve (joinSegments ps) e subpath pattern false conditions).2.1 =
          pjStatusExact ∨
        (esmPackageTargetResolve (joinSegments ps) e subpath pattern false conditions).2.1 =
          pjStatusInexact) →
      insidePackage (joinSegments ps)
        (esmPackageTargetResolve (joinSegments ps) e subpath pattern false conditions).1 = true
  | .string ft s, subpath, pattern, conditions, hsub, hst => by
    rw [esmPackageTargetResolve] at hst ⊢
    exact string_target_inside ps hne hps hstar ft s subpath pattern hsub hst
  | .object ft md ek, subpath, pattern, conditions, hsub, hst => by
    rw [esmPackageTargetResolve] at hst ⊢
    have hloop := objectLoop_inside ps hne hps hstar md subpath pattern conditions false
      (.mk [] ⟨0, 0⟩ (.null ⟨0, 0⟩)) hsub
    cases hl : esmPackageTargetResolveObject (joinSegments ps) md subpath pattern false
        conditions false (.mk [] ⟨0, 0⟩ (.null ⟨0, 0⟩)) with
    | inl r =>
      rw [hl] at hst
      exact hloop r hl hst
    | inr p =>
      rw [hl] at hst
      exfalso
      revert hst
      dsimp only
      split <;> (intro h; rcases h with h | h <;> cases h)
  | .array ft arr, subpath, pattern, conditions, hsub, hst => by
    rw [esmPackageTargetResolve] at hst ⊢
    split
    · rename_i h0
      rw [if_pos h0] at hst
      rcases hst with h | h <;> cases h
    · rename_i h0
      rw [if_neg h0] at hst
      exact arrayLoop_inside ps hne hps hstar arr subpath pattern conditions _ _ hsub
        (by decide) (by decide) hst
  | .null ft, subpath, pattern, conditions, _, hst => by
    rw [esmPackageTargetResolve] at hst
    rcases hst with h | h <;> cases h
  | .invalid ft, subpath, pattern, conditions, _, hst => by
    rw [esmPackageTargetResolve] at hst
    rcases hst with h | h <;> cases h
theorem objectLoop_inside (ps : List Str) (hne : ps ≠ [])
    (hps : ∀ s ∈ ps, isNormalSegment s = true) (hstar : '*' ∉ joinSegments ps) :
    ∀ (md : List pjMapEntry) (subpath : Str) (pattern : Bool) (conditions : Str → Bool)
      (didFind : Bool) (last : pjMapEntry),
      (pattern = true ∨ "..".toList ∉ splitSlash subpath) →
      ∀ r : Str × pjStatus × pjDebug,
      esmPackageTargetResolveObject (joinSegments ps) md subpath pattern false conditions
          didFind last = .inl r →
        (r.2.1 = pjStatusExact ∨ r.2.1 = pjStatusInexact) →
        insidePackage (joinSegments ps) r.1 = true
  | [], subpath, pattern, conditions, didFind, last, _, r, h, _ => by
    rw [esmPackageTargetResolveObject] at h
    cases h
  | .mk key keyRange value :: rest, subpath, pattern, conditions, didFind, last, hsub, r, h,
      hst => by
    rw [esmPackageTargetResolveObject] at h
    split at h
    · dsimp only at h
      split at h
      · exact objectLoop_inside ps hne hps hstar rest subpath pattern conditions _ _ hsub r h
          hst
      · have hr : esmPackageTargetResolve (joinSegments ps) value subpath pattern false
            conditions = r := Sum.inl.inj h
        rw [← hr] at hst ⊢
        exact targetResolve_inside ps hne hps hstar value subpath pattern conditions hsub hst
    · exact objectLoop_inside ps hne hps hstar rest subpath pattern conditions _ _ hsub r h hst
theorem arrayLoop_inside (ps : List Str) (hne : ps ≠ [])
    (hps : ∀ s ∈ ps, isNormalSegment s = true) (hstar : '*' ∉ joinSegments ps) :
    ∀ (arr : List pjEntry) (subpath : Str) (pattern : Bool) (conditions : Str → Bool)
      (lastException : pjStatus) (lastDebug : pjDebug),
      (pattern = true ∨ "..".toList ∉ splitSlash subpath) →
      lastException ≠ pjStatusExact → lastException ≠ pjStatusInexact →
      ((esmPackageTargetResolveArray (joinSegments ps) arr subpath pattern false conditions
          lastException lastDebug).2.1 = pjStatusExact ∨
        (esmPackageTargetResolveArray (joinSegments ps) arr subpath pattern false conditions
          lastException lastDebug).2.1 = pjStatusInexact) →
      insidePackage (joinSegments ps)
        (esmPackageTargetResolveArray (joinSegments ps) arr subpath pattern false conditions
          lastException lastDebug).1 = true
  | [], subpath, pattern, conditions, lastException, lastDebug, _, h1, h2, hst => by
    rw [esmPackageTargetResolveArray] at hst
    rcases hst with h | h
    · exact absurd h h1
    · exact absurd h h2
  | x :: rest, subpath, pattern, conditions, lastException, lastDebug, hsub, h1, h2, hst => by
    rw [esmPackageTargetResolveArray] at hst ⊢
    have hx := targetResolve_inside ps hne hps hstar x subpath pattern conditions hsub
    split
    · rename_i hc
      rw [if_pos hc] at hst
      exact arrayLoop_inside ps hne hps hstar rest subpath pattern conditions _ _ hsub
        (by rcases hc with hc | hc <;> (rw [hc]; decide))
        (by rcases hc with hc | hc <;> (rw [hc]; decide)) hst
    · rename_i hc
      rw [if_neg hc] at hst
      split
      · rename_i hu
        rw [if_pos hu] at hst
        exact arrayLoop_inside ps hne hps hstar rest subpath pattern conditions _ _ hsub h1 h2
          hst
      · rename_i hu
        rw [if_neg hu] at hst
        exact hx hst
end


/-- What follows a key that ends in "/" has no ".." segment when the whole has
none. -/
theorem no_dotdot_drop (matchKey key : Str) (hslash : strings.HasSuffix key "/".toList = true)
    (hpre : strings.HasPrefix matchKey key = true)
    (h : "..".toList ∉ splitSlash matchKey) :
    "..".toList ∉ splitSlash (matchKey.drop key.length) := by
  obtain ⟨t, ht⟩ := (strings.HasPrefix_iff _ _).1 hpre
  have hkey : key = key.dropLast ++ ['/'] := (strings.HasSuffix_char key '/').1 hslash
  have hdrop : matchKey.drop key.length = t := by
    rw [← ht, List.drop_left]
  have hm : matchKey = key.dropLast ++ '/' :: t := by
    rw [← ht]
    conv_lhs => rw [hkey]
    rw [List.append_assoc]
    rfl
  rw [hdrop]
  intro hmem
  apply h
  rw [hm, splitSlash_append_slash]
  exact List.mem_append_right _ hmem

theorem loop_inside (ps : List Str) (hne : ps ≠ [])
    (hps : ∀ s ∈ ps, isNormalSegment s = true) (hstar : '*' ∉ joinSegments ps)
    (matchKey : Str) (ft : Range) (conditions : Str → Bool)
    (hsub : "..".toList ∉ splitSlash matchKey) :
    ∀ l : List pjMapEntry, (∀ x ∈ l, isExpansionKey x.key = true) →
      ((esmPackageImportsExportsResolveLoop matchKey ft (joinSegments ps) false conditions
          l).2.1 = pjStatusExact ∨
        (esmPackageImportsExportsResolveLoop matchKey ft (joinSegments ps) false conditions
          l).2.1 = pjStatusInexact) →
      insidePackage (joinSegments ps)
        (esmPackageImportsExportsResolveLoop matchKey ft (joinSegments ps) false conditions
          l).1 = true
  | [], _, hst => by
    rw [esmPackageImportsExportsResolveLoop] at hst
    rcases hst with h | h <;> cases h
  | x :: rest, hexp, hst => by
    have hx := hexp x (List.mem_cons_self _ _)
    rw [loop_step _ _ _ _ _ _ _ hx] at hst ⊢
    by_cases hm : expansionMatches x.key matchKey = true
    · rw [if_pos hm] at hst ⊢
      unfold resolveAgainst at hst ⊢
      by_cases hs : strings.HasSuffix x.key "*".toList = true
      · rw [if_pos hs] at hst ⊢
        exact targetResolve_inside ps hne hps hstar _ _ true conditions (Or.inl rfl) hst
      · rw [if_neg hs] at hst ⊢
        have hs2 : strings.HasSuffix x.key "*".toList = false := by simpa using hs
        have hkey : strings.HasSuffix x.key "/".toList = true ∧
            strings.HasPrefix matchKey x.key = true := by
          unfold expansionMatches at hm
          rw [hs2] at hm
          simpa using hm
        have hdrop := no_dotdot_drop matchKey x.key hkey.1 hkey.2 hsub
        have ht := targetResolve_inside ps hne hps hstar x.value
          (matchKey.drop x.key.length) false conditions (Or.inr hdrop)
        dsimp only at hst ⊢
        by_cases he : (esmPackageTargetResolve (joinSegments ps) x.value
            (matchKey.drop x.key.length) false false conditions).2.1 = pjStatusExact
        · rw [if_pos he]
          exact ht (Or.inl he)
        · rw [if_neg he] at hst ⊢
          exact ht hst
    · rw [if_neg hm] at hst ⊢
      exact loop_inside ps hne hps hstar matchKey ft conditions hsub rest
        (fun y hy => hexp y (List.mem_cons_of_mem _ hy)) hst

theorem importsExports_inside (ps : List Str) (hne : ps ≠ [])
    (hps : ∀ s ∈ ps, isNormalSegment s = true) (hstar : '*' ∉ joinSegments ps)
    (matchKey : Str) (matchObj : pjEntry) (conditions : Str → Bool)
    (hek : ∀ x ∈ matchObj.expansionKeys, isExpansionKey x.key = true)
    (hsub : "..".toList ∉ splitSlash matchKey)
    (hst : (esmPackageImportsExportsResolve matchKey matchObj (joinSegments ps) false
        conditions).2.1 = pjStatusExact ∨
      (esmPackageImportsExportsResolve matchKey matchObj (joinSegments ps) false
        conditions).2.1 = pjStatusInexact) :
    insidePackage (joinSegments ps)
      (esmPackageImportsExportsResolve matchKey matchObj (joinSegments ps) false
        conditions).1 = true := by
  unfold esmPackageImportsExportsResolve at hst ⊢
  cases hv : (if !strings.HasSuffix matchKey "*".toList then matchObj.valueForKey matchKey
      else none) with
  | some target =>
    rw [hv] at hst
    exact targetResolve_inside ps hne hps hstar target [] false conditions
      (Or.inr (by decide)) hst
  | none =>
    rw [hv] at hst
    exact loop_inside ps hne hps hstar matchKey _ conditions hsub _ hek hst

/-- The result of `esmPackageExportsResolve`: a status other than `exact` and
`inexact`, the result of a target for the empty subpath, or the result of
`esmPackageImportsExportsResolve`. -/
theorem exports_shape (packageURL subpath : Str) (exports : pjEntry)
    (conditions : Str → Bool) :
    ((esmPackageExportsResolve packageURL subpath exports conditions).2.1 ≠ pjStatusExact ∧
      (esmPackageExportsResolve packageURL subpath exports conditions).2.1 ≠
        pjStatusInexact) ∨
    (∃ e, esmPackageExportsResolve packageURL subpath exports conditions =
      esmPackageTargetResolve packageURL e [] false false conditions) ∨
    esmPackageExportsResolve packageURL subpath exports conditions =
      esmPackageImportsExportsResolve subpath exports packageURL false conditions := by
  unfold esmPackageExportsResolve
  dsimp only
  repeat' split
  all_goals first
    | (left; exact ⟨fun h => (by cases h), fun h => (by cases h)⟩)
    | (right; left; exact ⟨_, rfl⟩)
    | (right; right; rfl)

/-- The expansion keys of a node that the parser builds end in "/" or "*". -/
theorem visit_expansionKeys (source : Source) (e : Expr) :
    ∀ x ∈ (visit source e).1.expansionKeys, isExpansionKey x.key = true := by
  intro x hx
  cases hn : (visit source e).1 with
  | object ft md ek =>
    obtain ⟨loc, props, he⟩ := visit_kind_object source e ft md ek hn
    subst he
    obtain ⟨_, _, hek, _⟩ := visit_object source loc props ft md ek hn
    rw [hn] at hx
    have hx2 : x ∈ ek := hx
    rw [hek] at hx2
    have hx3 := (sort.Stable_perm _ _).mem_iff.1 hx2
    have := (List.mem_filter.1 hx3).2
    exact this
  | null ft => rw [hn] at hx; cases hx
  | string ft s => rw [hn] at hx; cases hx
  | array ft arr => rw [hn] at hx; cases hx
  | invalid ft => rw [hn] at hx; cases hx


/-- C30, as amended: let the package URL be a clean absolute path other than "/",
that is "/" and one or more segments joined by "/", each segment non-empty, without
"/" and neither "." nor "..", and let it contain no "*". Such a path is left as it
is by `path.Clean`. Then for every exports tree built by the parser, every condition
set and every subpath none of whose "/"-separated segments is "..", whenever
`esmPackageExportsResolve` returns the status `exact` or `inexact`, the returned path
is the package URL or begins with the package URL followed by "/". -/
theorem C30_resolved_inside_package (source : Source) (json : Expr) (segs : List Str)
    (subpath : Str) (conditions : Str → Bool) (hne : segs ≠ [])
    (hnormal : ∀ s ∈ segs, isNormalSegment s = true) (hstar : '*' ∉ joinSegments segs)
    (hsub : "..".toList ∉ splitSlash subpath) :
    path.Clean (joinSegments segs) = joinSegments segs ∧
    (((esmPackageExportsResolve (joinSegments segs) subpath (visit source json).1
          conditions).2.1 = pjStatusExact ∨
        (esmPackageExportsResolve (joinSegments segs) subpath (visit source json).1
          conditions).2.1 = pjStatusInexact) →
      insidePackage (joinSegments segs)
        (esmPackageExportsResolve (joinSegments segs) subpath (visit source json).1
          conditions).1 = true) := by
  constructor
  · have hj := Join_segments segs [] hne hnormal (by decide)
    have hk : keptSegments [] = [] := rfl
    rw [hk, List.append_nil] at hj
    have ha : joinSegments segs ≠ [] := by
      cases segs with
      | nil => exact absurd rfl hne
      | cons s ss => exact List.cons_ne_nil _ _
    unfold path.Join at hj
    rw [if_neg (fun h => ha h.1), if_neg ha, if_pos rfl] at hj
    exact hj
  · intro hst
    rcases exports_shape (joinSegments segs) subpath (visit source json).1 conditions with
      ⟨h1, h2⟩ | ⟨e, he⟩ | he
    · rcases hst with h | h
      · exact absurd h h1
      · exact absurd h h2
    · rw [he] at hst ⊢
      exact targetResolve_inside segs hne hnormal hstar e [] false conditions
        (Or.inr (by decide)) hst
    · rw [he] at hst ⊢
      exact importsExports_inside segs hne hnormal hstar subpath _ conditions
        (visit_expansionKeys source json) hsub hst

theorem C30_resolved_inside_package_witness :
    esmPackageExportsResolve "/pkg".toList "./a/x.js".toList
        (visit exampleSource (objectOfStrings [("./a/", "./lib/")])).1 (conditionsOf []) =
      ("/pkg/lib/x.js".toList, pjStatusInexact, { token := ⟨2, 1⟩ }) ∧
    insidePackage (joinSegments ["pkg".toList])
      (esmPackageExportsResolve (joinSegments ["pkg".toList]) "./a/x.js".toList
        (visit exampleSource (objectOfStrings [("./a/", "./lib/")])).1 (conditionsOf [])).1 =
      true :=
  ⟨rfl, (C30_resolved_inside_package exampleSource (objectOfStrings [("./a/", "./lib/")])
    ["pkg".toList] "./a/x.js".toList (conditionsOf []) (by decide) (by decide) (by decide)
    (by decide)).2 (Or.inr rfl)⟩

/-- C30 fails as stated. With the package URL "/pkg" and the exports
`{"./a/": "./"}`, the subpath "./a/../x" resolves to "/x" with status `inexact`:
the first segment of what follows the key is not checked, and `path.Join` follows
the "..". With the package URL "/p*" and the exports `{"./x/*": "./y/*"}`, the
subpath "./x/z" resolves to "/pz/y/z" with status `exact`: the "*" of the package
URL is replaced too. With the package URL "/" and the exports `{"./a": "./b.js"}`,
the subpath "./a" resolves to "/b.js", which is not "/" and does not begin with
"//". The three package URLs are clean. -/
theorem C30_counterexample :
    (esmPackageExportsResolve "/pkg".toList "./a/../x".toList
        (visit exampleSource (objectOfStrings [("./a/", "./")])).1 (conditionsOf []) =
      ("/x".toList, pjStatusInexact, { token := ⟨2, 1⟩ }) ∧
      insidePackage "/pkg".toList "/x".toList = false ∧
      path.Clean "/pkg".toList = "/pkg".toList) ∧
    (esmPackageExportsResolve "/p*".toList "./x/z".toList
        (visit exampleSource (objectOfStrings [("./x/*", "./y/*")])).1 (conditionsOf []) =
      ("/pz/y/z".toList, pjStatusExact, { token := ⟨2, 1⟩ }) ∧
      insidePackage "/p*".toList "/pz/y/z".toList = false ∧
      path.Clean "/p*".toList = "/p*".toList) ∧
    (esmPackageExportsResolve "/".toList "./a".toList
        (visit exampleSource (objectOfStrings [("./a", "./b.js")])).1 (conditionsOf []) =
      ("/b.js".toList, pjStatusExact, { token := ⟨2, 1⟩ }) ∧
      insidePackage "/".toList "/b.js".toList = false ∧
      path.Clean "/".toList = "/".toList) :=
  ⟨⟨rfl, by decide, by decide⟩, ⟨rfl, by decide, by decide⟩, ⟨rfl, by decide, by decide⟩⟩


/-! ### The name part of a parsed specifier -/

theorem prefixUpToSlash_cons (n : Nat) (c : Char) (s : Str) :
    prefixUpToSlash n (c :: s) =
      if c = '/' then
        if n = 0 then [] else c :: prefixUpToSlash (n - 1) s
      else c :: prefixUpToSlash n s := by
  rw [prefixUpToSlash]

theorem prefixUpToSlash_zero_eq_nil (s : Str) :
    prefixUpToSlash 0 s = [] ↔ (s = [] ∨ strings.HasPrefix s "/".toList = true) := by
  cases s with
  | nil => exact ⟨fun _ => Or.inl rfl, fun _ => rfl⟩
  | cons c t =>
    rw [prefixUpToSlash_cons]
    by_cases hc : c = '/'
    · subst hc
      rw [if_pos rfl, if_pos rfl]
      exact ⟨fun _ => Or.inr ((strings.HasPrefix_iff _ _).2 ⟨t, rfl⟩), fun _ => rfl⟩
    · rw [if_neg hc]
      constructor
      · intro h
        cases h
      · rintro (h | h)
        · cases h
        · exfalso
          obtain ⟨r, hr⟩ := (strings.HasPrefix_iff _ _).1 h
          exact hc (List.cons.inj hr).1.symm

/-- The package name of a scoped specifier: the scope, its "/", and the text that
follows up to the next "/". -/
theorem prefixUpToSlash_one_append : ∀ (scope rest : Str), '/' ∉ scope →
    prefixUpToSlash 1 (scope ++ '/' :: rest) = scope ++ '/' :: prefixUpToSlash 0 rest
  | [], rest, _ => by
    rw [List.nil_append, prefixUpToSlash_cons, if_pos rfl, if_neg (by decide)]
    rfl
  | c :: scope, rest, h => by
    have hc : c ≠ '/' := fun hc => h (by rw [hc]; exact List.mem_cons_self _ _)
    rw [List.cons_append, prefixUpToSlash_cons, if_neg hc,
      prefixUpToSlash_one_append scope rest (fun hs => h (List.mem_cons_of_mem _ hs))]
    rfl

/-- A specifier that is parsed with `ok = true` is not empty, and its package name
is the reference package name. -/
theorem esmParsePackageName_of_ok (s : Str) (hok : (esmParsePackageName s).2.2 = true) :
    s ≠ [] ∧ (esmParsePackageName s).1 = referencePackageName s := by
  rw [esmParsePackageName_eq] at hok ⊢
  by_cases hcond : s = [] ∨ (strings.HasPrefix s "@".toList = true ∧ '/' ∉ s)
  · rw [if_pos hcond] at hok
    cases hok
  · rw [if_neg hcond]
    refine ⟨fun h => hcond (Or.inl h), ?_⟩
    unfold esmParsePackageNameCheck
    split <;> rfl

/-- C31, as amended: whenever `esmParsePackageName s` returns `ok = true`, the
package name is empty exactly when `s` begins with "/"; and for `s` that begins with
"@", written as a scope without "/", a "/" and a rest, the package name is the
scope, the "/" and the text of the rest before its first "/", so that the name part
after the scope's "/" is empty exactly when the rest is empty or begins with
"/". -/
theorem C31_package_name_parts (s : Str) (hok : (esmParsePackageName s).2.2 = true) :
    ((esmParsePackageName s).1 = [] ↔ strings.HasPrefix s "/".toList = true) ∧
    (∀ scope rest : Str, s = scope ++ '/' :: rest → '/' ∉ scope →
      strings.HasPrefix s "@".toList = true →
      (esmParsePackageName s).1 = scope ++ '/' :: prefixUpToSlash 0 rest ∧
      (prefixUpToSlash 0 rest = [] ↔
        (rest = [] ∨ strings.HasPrefix rest "/".toList = true))) := by
  obtain ⟨hne, hname⟩ := esmParsePackageName_of_ok s hok
  rw [hname]
  constructor
  · unfold referencePackageName
    cases s with
    | nil => exact absurd rfl hne
    | cons c t =>
      rw [prefixUpToSlash_cons]
      by_cases hc : c = '/'
      · subst hc
        have hat : strings.HasPrefix ('/' :: t) "@".toList = false := rfl
        rw [hat, if_pos rfl]
        exact ⟨fun _ => (strings.HasPrefix_iff _ _).2 ⟨t, rfl⟩, fun _ => rfl⟩
      · rw [if_neg hc]
        constructor
        · intro h
          cases h
        · intro h
          exfalso
          obtain ⟨r, hr⟩ := (strings.HasPrefix_iff _ _).1 h
          exact hc (List.cons.inj hr).1.symm
  · intro scope rest hs hscope hat
    refine ⟨?_, prefixUpToSlash_zero_eq_nil rest⟩
    unfold referencePackageName
    rw [hat, if_pos rfl, hs]
    exact prefixUpToSlash_one_append scope rest hscope

theorem C31_package_name_parts_witness :
    (esmParsePackageName "@scope/pkg/lib".toList).1 = "@scope/pkg".toList ∧
    ((esmParsePackageName "pkg/lib".toList).1 = [] ↔
      strings.HasPrefix "pkg/lib".toList "/".toList = true) :=
  ⟨((C31_package_name_parts "@scope/pkg/lib".toList (by decide)).2 "@scope".toList
      "pkg/lib".toList (by decide) (by decide) (by decide)).1.trans (by decide),
    (C31_package_name_parts "pkg/lib".toList (by decide)).1⟩

/-- C31 fails as stated: "/x" is parsed with `ok = true` and an empty package name;
"@scope/" and "@scope//x" are parsed with `ok = true` and the package name
"@scope/", whose name part after the "/" of the scope is empty. -/
theorem C31_counterexample :
    esmParsePackageName "/x".toList = ([], "./x".toList, true) ∧
    esmParsePackageName "@scope/".toList = ("@scope/".toList, ".".toList, true) ∧
    esmParsePackageName "@scope//x".toList = ("@scope/".toList, "./x".toList, true) := by
  decide

end Resolver
